/-
  Verification of the CHM minimal-perfect-hash library (src/hash.c).

  The C sources are shallowly embedded below:
  * machine integers (`size_t`, `ssize_t`) become `Nat` / `Int`; the C code
    asserts that the hash accumulator never overflows, so the embedding uses
    exact arithmetic and applies `% n` exactly where the source does;
  * the C remainder on signed operands truncates towards zero, so the
    embedding uses `Int.tmod` for `graph_resolve`'s `(edge->value -
    vertex->value) % n` and mirrors the source's `if (v < 0) v += n` fixup;
  * the process-wide `rand()` stream is an explicit parameter
    `seed : Nat → Nat` together with a call counter, mirroring the source's
    documented dependence on the ambient PRNG;
  * the unbounded `do … while` retry loop of `hash_create` and the resolver's
    `while (vertex_stack_length)` loop take an explicit fuel argument; the
    termination theorems below show that the concrete fuel bounds derived
    from the source's growth schedule are sufficient, so the fuel never runs
    out;
  * allocation, capacities and the statistics counters are behaviourally
    invisible and are not modelled; adjacency lists, salts and the input
    vector keep their exact contents and order.
-/
import Mathlib

set_option linter.unusedVariables false

namespace HashC

/-! ## Keys and the input accumulator (`struct hash_input`, `struct hash_inputs`) -/

/-- A key is a byte buffer; each element is the `(unsigned char)` value of one
byte of the C `char *` buffer.  The stored `length` field of `struct
hash_input` always equals the buffer length, so it is represented by
`key.length`. -/
abbrev Key := List Nat

/-- One record of the input accumulator: key bytes plus the opaque caller
pointer (`void * ptr`), represented by an arbitrary payload type. -/
structure HashInput (α : Type) where
  key : Key
  ptr : α
deriving DecidableEq

/-- The input accumulator `struct hash_inputs`: the records in insertion
order.  (`capacity` only affects allocation and is not modelled.) -/
abbrev HashInputs (α : Type) := List (HashInput α)

/-- The ambient PRNG: the value returned by the `k`-th call to `rand()`. -/
abbrev Seed := Nat → Nat

/-! ## Hash functions (`struct hash_function`) -/

/-- `struct hash_function`: the salt sequence and the modulus `n`.
`salt_length` is `salt.length`; `salt_capacity` is allocation-only. -/
structure HashFunction where
  salt : List Nat
  n : Nat
deriving DecidableEq

/-- The salt-extension step of `hash_function_hash`: if the salt is shorter
than the key, the missing positions are filled with `rand() % n`, drawing one
PRNG value per new position.  Returns the extended function and the new PRNG
counter. -/
def saltExtend (f : HashFunction) (seed : Seed) (k : Nat) (length : Nat) :
    HashFunction × Nat :=
  if f.salt.length < length then
    (⟨f.salt ++ (List.range (length - f.salt.length)).map (fun j => seed (k + j) % f.n), f.n⟩,
      k + (length - f.salt.length))
  else (f, k)

/-- The accumulator loop shared by `hash_function_hash` and
`hash_function_hash_const`: `Σ byte(key[i]) * salt[i]` over `i < length`.
The C accumulator is a signed 64-bit integer asserted not to overflow, so the
sum is exact. -/
def hashSum (salt : List Nat) (key : Key) : Nat :=
  ((key.zip salt).map (fun p => p.1 * p.2)).sum

/-- `hash_function_hash`: extend the salt if needed (drawing from the PRNG),
then return `(Σ key[i]*salt[i]) mod n`, the updated function state and the
updated PRNG counter. -/
def hash_function_hash (f : HashFunction) (seed : Seed) (k : Nat) (key : Key) :
    Nat × HashFunction × Nat :=
  let ek := saltExtend f seed k key.length
  (hashSum ek.1.salt key % ek.1.n, ek.1, ek.2)

/-- `hash_function_hash_const`: the lookup-time hash.  It never extends the
salt (the source asserts `salt_length >= length`; `hash_lookup` checks the
length before calling it) and draws nothing from the PRNG. -/
def hash_function_hash_const (f : HashFunction) (key : Key) : Nat :=
  hashSum f.salt key % f.n

/-! ## The graph (`struct graph`, `struct vertex`, `struct edge`)

A vertex is identified by its index.  During one build iteration the edge
lists are fixed while `value`/`visited` mutate, so the graph is represented
by an adjacency map `Edges` plus the two mutable state functions.  Edges are
`(to, label)` pairs, `label` being the `hash_function_result` edge value. -/

/-- Adjacency lists: `edges u` is the list of `(to, label)` edges out of
vertex `u`, in insertion order. -/
abbrev Edges := Nat → List (Nat × Int)

/-- `graph_connect`: append one edge `(to_index, edge_value)` to
`from_index`'s adjacency list. -/
def graph_connect (edges : Edges) (fromIndex toIndex : Nat) (edgeValue : Int) : Edges :=
  fun x => if x = fromIndex then edges x ++ [(toIndex, edgeValue)] else edges x

/-- `graph_biconnect`: one edge each way, both carrying the same value. -/
def graph_biconnect (edges : Edges) (fromIndex toIndex : Nat) (edgeValue : Int) : Edges :=
  graph_connect (graph_connect edges fromIndex toIndex edgeValue) toIndex fromIndex edgeValue

/-- The `v = (edge->value - vertex->value) % n; if (v < 0) v += n;`
computation of `graph_resolve`.  C's `%` on signed operands truncates toward
zero, which is `Int.tmod`. -/
def resolveValue (label vertexValue : Int) (n : Nat) : Int :=
  let v := Int.tmod (label - vertexValue) (n : Int)
  if v < 0 then v + (n : Int) else v

/-- The inner edge loop of `graph_resolve` for one popped stack frame
`(w, po)`: walk `w`'s adjacency list in order; consume at most one edge back
to the parent (`skip`); fail (`none`) on any other edge to a visited vertex;
otherwise push `(to, w)` and assign `to`'s value.  Returns the updated value
map and stack on completion.  `visited` already has `w` marked. -/
def scanEdges (n : Nat) (w : Nat) (po : Option Nat) (visited : Nat → Bool) :
    List (Nat × Int) → Bool → (Nat → Int) → List (Nat × Option Nat) →
    Option ((Nat → Int) × List (Nat × Option Nat))
  | [], _, value, stack => some (value, stack)
  | (t, l) :: es, skip, value, stack =>
    if skip ∧ some t = po then
      scanEdges n w po visited es false value stack
    else if visited t then
      none
    else
      scanEdges n w po visited es skip
        (Function.update value t (resolveValue l (value w) n))
        ((t, some w) :: stack)

/-- The `while (vertex_stack_length)` loop of `graph_resolve`, with explicit
fuel (one unit per pop).  Results: `none` = fuel exhausted; `some none` = a
cycle was found (`return false` in C); `some (some (fuel', value, visited))`
= the stack emptied. -/
def resolveLoop (edges : Edges) (n : Nat) :
    Nat → (Nat → Int) → (Nat → Bool) → List (Nat × Option Nat) →
    Option (Option (Nat × (Nat → Int) × (Nat → Bool)))
  | fuel, value, visited, [] => some (some (fuel, value, visited))
  | 0, _, _, _ :: _ => none
  | fuel + 1, value, visited, (w, po) :: rest =>
    let visited' := Function.update visited w true
    match scanEdges n w po visited' (edges w) true value rest with
    | none => some none
    | some (value', stack') => resolveLoop edges n fuel value' visited' stack'

/-- The outer `for` loop of `graph_resolve` over candidate roots: a root that
is not yet visited gets `value := 0` and is explored with the stack seeded to
`[(root, NULL)]`. -/
def resolveRoots (edges : Edges) (n : Nat) :
    List Nat → Nat → (Nat → Int) → (Nat → Bool) →
    Option (Option ((Nat → Int) × (Nat → Bool)))
  | [], _, value, visited => some (some (value, visited))
  | i :: is, fuel, value, visited =>
    if visited i then resolveRoots edges n is fuel value visited
    else
      match resolveLoop edges n fuel (Function.update value i 0) visited [(i, none)] with
      | none => none
      | some none => some none
      | some (some (fuel', value', visited')) => resolveRoots edges n is fuel' value' visited'

/-- `graph_resolve` on a wiped graph of order `n` (all values `-1`, nothing
visited — the state `graph_wipe` establishes): `some none` means the graph is
cyclic (`false` in C), `some (some (value, visited))` means acyclic with the
computed labelling (`true` in C). -/
def graph_resolve (edges : Edges) (n : Nat) (fuel : Nat) :
    Option (Option ((Nat → Int) × (Nat → Bool))) :=
  resolveRoots edges n (List.range n) fuel (fun _ => -1) (fun _ => false)

/-! ## The hash table (`struct hash`) and `hash_create` -/

/-- `struct hash`: the finalized table.  `n_values` is `values.length`. -/
structure Hash (α : Type) where
  keys : HashInputs α
  f1 : HashFunction
  f2 : HashFunction
  values : List Nat
deriving DecidableEq

/-- Result of `hash_create`: the table (with the ghost count of build-loop
iterations executed), the `NULL` failure return, or fuel exhaustion of the
embedding (shown unreachable for the concrete fuel bound). -/
inductive CreateResult (α : Type) where
  | success (h : Hash α) (iterations : Nat)
  | failure
  | outOfFuel
deriving DecidableEq

/-- Whether a `hash_create` result is a table (a non-`NULL` return). -/
def CreateResult.isSuccess : CreateResult α → Bool
  | .success _ _ => true
  | _ => false

/-- The per-iteration loop of `hash_create` over the keys: hash each key with
both functions (extending salts, consuming PRNG values) and `biconnect` the
two results, labelling the edge with the key index. -/
def buildGo (seed : Seed) :
    List (HashInput α) → Nat → Edges → HashFunction → HashFunction → Nat →
    Edges × HashFunction × HashFunction × Nat
  | [], _, edges, f1, f2, k => (edges, f1, f2, k)
  | inp :: rest, i, edges, f1, f2, k =>
    let h1 := hash_function_hash f1 seed k inp.key
    let h2 := hash_function_hash f2 seed h1.2.2 inp.key
    buildGo seed rest (i + 1) (graph_biconnect edges h1.1 h2.1 (i : Int)) h1.2.1 h2.2.1 h2.2.2

/-- The graph-growth step of `hash_create`:
`n_scaled = n_scaled * 1075 / 1024; next = n_scaled / 1024; n = max n next`. -/
def growStep (nv ns : Nat) : Nat × Nat :=
  let ns' := ns * 1075 / 1024
  let nnext := ns' / 1024
  (if nv < nnext then nnext else nv, ns')

/-- One build iteration needs `resolveFuel n` resolver fuel; sufficiency is
proved below. -/
def resolveFuel (n : Nat) : Nat := n + 1

/-- The body of one `hash_create` iteration at graph order `nv`: wipe the
graph (fresh empty adjacency), reset both hash functions to `n = nv` with
empty salts, hash every key and biconnect, then resolve.  `recur` is the
continuation for a failed iteration (`while (!graph_resolve(graph))`). -/
def createBody (keys : List (HashInput α)) (seed : Seed)
    (recur : Nat → Nat → Nat → Nat → CreateResult α)
    (k nv ns iter : Nat) : CreateResult α :=
  let built := buildGo seed keys 0 (fun _ => []) ⟨[], nv⟩ ⟨[], nv⟩ k
  match graph_resolve built.1 nv (resolveFuel nv) with
  | none => .outOfFuel
  | some none => recur built.2.2.2 nv ns (iter + 1)
  | some (some (value, _)) =>
    .success
      ⟨keys, built.2.1, built.2.2.1, (List.range nv).map (fun i => (value i).toNat)⟩
      (iter + 1)

/-- The `do … while (!graph_resolve(graph))` loop of `hash_create`: every
fifth completed iteration grows the graph first and aborts with failure if
the grown order reaches `vm` (`vertices_max`).  Arguments after `vm`: fuel,
PRNG counter `k`, current order `nv` (`n_vertices`), scaled order `ns`
(`n_vertices_scaled`), completed iteration count `iter`. -/
def createLoop (keys : List (HashInput α)) (seed : Seed) (vm : Nat) :
    Nat → Nat → Nat → Nat → Nat → CreateResult α
  | 0, _, _, _, _ => .outOfFuel
  | fuel + 1, k, nv, ns, iter =>
    if iter % 5 = 0 ∧ 0 < iter then
      if vm ≤ (growStep nv ns).1 then .failure
      else
        createBody keys seed (createLoop keys seed vm fuel) k
          (growStep nv ns).1 (growStep nv ns).2 iter
    else createBody keys seed (createLoop keys seed vm fuel) k nv ns iter

/-- `hash_create`: fail on an empty input set; otherwise run the build loop
with `n = K + 1`, `n_scaled = n * 1024` and `vertices_max = 650 * n`.  On
success the keys move into the table and the input set becomes empty; on any
failure the input set is untouched.  The pair returned is (result, final
state of `*hash_inputs`). -/
def hash_create (inputs : HashInputs α) (seed : Seed) (fuel : Nat) :
    CreateResult α × HashInputs α :=
  if inputs.length = 0 then (.failure, inputs)
  else
    match createLoop inputs seed (650 * (inputs.length + 1)) fuel 0 (inputs.length + 1)
        ((inputs.length + 1) * 1024) 0 with
    | .success h its => (.success h its, [])
    | .failure => (.failure, inputs)
    | .outOfFuel => (.outOfFuel, inputs)

/-- Fuel that always suffices for `hash_create` on `kcount` keys (termination
theorem below): the growth schedule adds at least 1 to `n_scaled` every 5
iterations and the loop aborts once `n_scaled / 1024` reaches
`vertices_max = 650 * (kcount+1)`. -/
def createFuel (kcount : Nat) : Nat := 5 * (1024 * (650 * (kcount + 1))) + 6

/-! ## `hash_lookup` -/

/-- `hash_lookup`: reject queries longer than either frozen salt, hash with
both functions, reduce the summed values modulo `n_values`, and verify the
stored key at the landing slot byte-for-byte. -/
def hash_lookup (h : Hash α) (key : Key) : Option (HashInput α) :=
  if key.length > h.f1.salt.length ∨ key.length > h.f2.salt.length then none
  else
    let r1 := hash_function_hash_const h.f1 key
    let r2 := hash_function_hash_const h.f2 key
    let i := (h.values.getD r1 0 + h.values.getD r2 0) % h.values.length
    if h.keys.length ≤ i then none
    else
      match h.keys[i]? with
      | none => none
      | some input =>
        if input.key.length ≠ key.length then none
        else if input.key = key then some input
        else none

/-- The slot index `(value[H1(key)] + value[H2(key)]) mod n` a key is mapped
to by a built table (the index `hash_lookup` probes). -/
def hashIndex (h : Hash α) (key : Key) : Nat :=
  (h.values.getD (hash_function_hash_const h.f1 key) 0 +
    h.values.getD (hash_function_hash_const h.f2 key) 0) % h.values.length

/-! ## The add operations

`warnings` is `true` when the library is compiled without
`HASH_NO_WARNINGS`; the diagnostic output itself is not modelled, but the
placement of the `#if !defined(HASH_NO_WARNINGS)` guards relative to the
early `return`s is mirrored exactly. -/

/-- `hash_inputs_add`: ignore zero-length keys (the `return` is outside the
warning guard, so this holds in both configurations), otherwise append a copy
of the key. -/
def hash_inputs_add (inputs : HashInputs α) (key : Key) (ptr : α) : HashInputs α :=
  if key.length = 0 then inputs
  else inputs ++ [⟨key, ptr⟩]

/-- `hash_inputs_add_safe`: in the warning configuration a zero-length key
returns immediately (the `return` sits inside the `#if !defined(HASH_NO_WARNINGS)`
block); otherwise fall through to the linear duplicate scan and delegate to
`hash_inputs_add`. -/
def hash_inputs_add_safe (warnings : Bool) (inputs : HashInputs α) (key : Key) (ptr : α) :
    HashInputs α :=
  if key.length = 0 ∧ warnings then inputs
  else if inputs.any (fun inp => inp.key = key) then inputs
  else hash_inputs_add inputs key ptr

/-- `hash_inputs_add_no_copy`: same zero-length guard as `hash_inputs_add`
(the `return` is outside the warning `#if`), then append without copying
(behaviourally identical to appending). -/
def hash_inputs_add_no_copy (inputs : HashInputs α) (key : Key) (ptr : α) : HashInputs α :=
  if key.length = 0 then inputs
  else inputs ++ [⟨key, ptr⟩]

/-! ## Auxiliary notions used by the verification -/

/-- Number of entries of an adjacency list whose target is `t` (labels
ignored). -/
def targetCount (es : List (Nat × Int)) (t : Nat) : Nat :=
  (es.filter (fun e => e.1 = t)).length

/-- A graph is paired when every directed edge has a reverse twin with the
same label — the shape `graph_biconnect` always produces. -/
def Pairing (edges : Edges) : Prop :=
  ∀ u t l, List.count (t, l) (edges u) = List.count (u, l) (edges t)

/-- All edge targets lie below the graph order. -/
def EdgesBounded (edges : Edges) (n : Nat) : Prop :=
  ∀ u, ∀ e ∈ edges u, e.1 < n

/-- Only vertices below the graph order have edges. -/
def EdgesDom (edges : Edges) (n : Nat) : Prop :=
  ∀ u, edges u ≠ [] → u < n

/-- Number of vertices below `n` not yet visited. -/
def unvCount (n : Nat) (visited : Nat → Bool) : Nat :=
  ((List.range n).filter (fun i => !visited i)).length

/-- The loop invariant of `graph_resolve`'s depth-first traversal, relating
the mutable vertex state `(value, visited)` and the explicit stack.

* `vrange`/`frange`: visited vertices and stacked vertices carry values in
  `[0, n)`, and stacked vertices lie below `n`;
* `fparent`: the parent recorded in a stack frame was visited when the frame
  was pushed and differs from the frame's vertex;
* `fstale`: a frame whose vertex has been visited since it was pushed (a
  stale frame) has a witness guaranteeing the edge scan will report a cycle:
  a visited neighbour that the one-shot parent skip cannot absorb;
* `ffind`: the topmost frame of an unvisited vertex records the pending
  assignment `(value[parent] + value[vertex]) ≡ label (mod n)` for some edge
  from the parent;
* `ledger`: for every edge between two visited vertices the CHM labelling
  equation already holds;
* `rootfr`: a parentless (root) frame is alone on the stack and unvisited;
* `fcount`: at most as many frames `(t, parent p)` exist as `p` has edges
  into `t`. -/
structure Inv (edges : Edges) (n : Nat) (value : Nat → Int) (visited : Nat → Bool)
    (stack : List (Nat × Option Nat)) : Prop where
  vrange : ∀ u, visited u = true → 0 ≤ value u ∧ value u < n
  frange : ∀ fr ∈ stack, fr.1 < n ∧ 0 ≤ value fr.1 ∧ value fr.1 < n
  fparent : ∀ fr ∈ stack, ∀ p, fr.2 = some p → visited p = true ∧ p ≠ fr.1
  fstale : ∀ fr ∈ stack, ∀ p, fr.2 = some p → visited fr.1 = true →
    ∃ t, visited t = true ∧
      ((t ≠ p ∧ 1 ≤ targetCount (edges fr.1) t) ∨ 2 ≤ targetCount (edges fr.1) t)
  ffind : ∀ x, visited x = false →
    ∀ fr, stack.find? (fun g => g.1 == x) = some fr → ∀ p, fr.2 = some p →
      ∃ l, (x, l) ∈ edges p ∧ (value p + value x) % (n : Int) = l % (n : Int)
  ledger : ∀ u t l, visited u = true → visited t = true → (t, l) ∈ edges u →
    (value u + value t) % (n : Int) = l % (n : Int)
  rootfr : ∀ fr ∈ stack, fr.2 = none → stack = [fr] ∧ visited fr.1 = false
  fcount : ∀ t p, List.count (t, some p) stack ≤ targetCount (edges p) t

/-! ### C2: graphs built from a list of labeled undirected edges

`hash_create` builds its graph by `graph_biconnect`ing one labeled edge per
key into a wiped graph.  For the `graph_resolve` specification we model that
shape directly: a list of `(u, v, label)` edges folded into the empty
adjacency map. -/

/-- The graph assembled by biconnecting a list of labeled undirected edges
into the wiped (empty) graph. -/
def buildGraph (es : List (Nat × Nat × Int)) : Edges :=
  es.foldl (fun g e => graph_biconnect g e.1 e.2.1 e.2.2) (fun _ => [])

/-- Whether an edge occurrence joins the unordered pair `{a, b}`. -/
def sameEnds (e : Nat × Nat × Int) (a b : Nat) : Bool :=
  (e.1 = a ∧ e.2.1 = b) ∨ (e.1 = b ∧ e.2.1 = a)

/-- The number of edge occurrences joining the unordered pair `{a, b}`. -/
def pairCount (es : List (Nat × Nat × Int)) (a b : Nat) : Nat :=
  (es.filter (fun e => sameEnds e a b)).length

/-- `IsWalk a b c`: the edge occurrences `c`, taken in order, form a walk
from `a` to `b`, each occurrence traversed in either direction. -/
def IsWalk : Nat → Nat → List (Nat × Nat × Int) → Prop
  | a, b, [] => a = b
  | a, b, e :: c => (e.1 = a ∧ IsWalk e.2.1 b c) ∨ (e.2.1 = a ∧ IsWalk e.1 b c)

/-- A cycle of the edge list `es`: a nonempty closed walk whose steps are
pairwise-distinct edge occurrences drawn from `es` (a sub-multiset of `es`).
This counts self-loops (closed walks of length 1) and parallel edges between
the same vertex pair (closed walks of length 2) as cycles. -/
def IsCycle (es c : List (Nat × Nat × Int)) : Prop :=
  c ≠ [] ∧ c.Subperm es ∧ ∃ a, IsWalk a a c

/-- Acyclicity of the edge list, following the spec: no cycle exists. -/
def AcyclicG (es : List (Nat × Nat × Int)) : Prop := ¬ ∃ c, IsCycle es c

/-- The normalized unordered pair on two vertices. -/
def vpair (a b : Nat) : Nat × Nat := if a ≤ b then (a, b) else (b, a)

/-- The normalized endpoint pair of an edge occurrence. -/
def pairOf (e : Nat × Nat × Int) : Nat × Nat := vpair e.1 e.2.1

/-- `PathVia p x vs y`: following the ghost parent map `p` from `x` through
the successive vertices `vs` ends at `y`. -/
def PathVia (p : Nat → Option Nat) : Nat → List Nat → Nat → Prop
  | x, [], y => x = y
  | x, v :: vs, y => p x = some v ∧ PathVia p v vs y

/-- `WalkVia a c vs b`: the walk `c` from `a` to `b` passes through the
successive vertices `vs` (one per step). -/
def WalkVia : Nat → List (Nat × Nat × Int) → List Nat → Nat → Prop
  | a, [], [], b => a = b
  | a, e :: c, v :: vs, b =>
    ((e.1 = a ∧ e.2.1 = v) ∨ (e.1 = v ∧ e.2.1 = a)) ∧ WalkVia v c vs b
  | _, _, _, _ => False

/-- A doomed stack: it holds a frame for an already-visited vertex, or two
frames for one vertex.  Either way, a stale pop is coming and the resolver
will report a cycle — such a stack can never finish successfully. -/
def BadStack (visited : Nat → Bool) (stack : List (Nat × Option Nat)) : Prop :=
  (∃ fr ∈ stack, visited fr.1 = true) ∨
  (∃ v, 2 ≤ ((stack.map Prod.fst).count v))

/-- The ghost trace invariant of a clean (conflict-free) resolver run: `p`
records each visited non-root vertex's DFS parent, `ord` the visiting order,
`clock` the next timestamp.  Stack frames hold pairwise-distinct unvisited
vertices whose recorded parents are visited neighbours; `acct` accounts for
every edge out of a visited vertex as either its own parent edge, a pending
stack frame, or a child's parent edge; `scanned` says a visited vertex's
neighbours are visited or pending; `stackChain` says deeper frames' parents
are ancestors of shallower frames' parents. -/
structure TraceInv (es : List (Nat × Nat × Int)) (n : Nat) (visited : Nat → Bool)
    (stack : List (Nat × Option Nat)) (p : Nat → Option Nat) (ord : Nat → Nat)
    (clock : Nat) : Prop where
  ppar : ∀ x q, p x = some q → visited x = true ∧ visited q = true ∧
    ord q < ord x ∧ ∃ l, (x, l) ∈ buildGraph es q
  pordv : ∀ x, visited x = true → ord x < clock
  fdist : List.Pairwise (fun fr fr' => fr.1 ≠ fr'.1) stack
  funvis : ∀ fr ∈ stack, visited fr.1 = false
  fedge : ∀ fr ∈ stack, ∀ q, fr.2 = some q → visited q = true ∧
    ∃ l, (fr.1, l) ∈ buildGraph es q
  acct : ∀ u v, visited u = true → targetCount (buildGraph es u) v ≤
    (if p u = some v then 1 else 0) + List.count (v, some u) stack +
      (if p v = some u then 1 else 0)
  scanned : ∀ u, visited u = true → ∀ v l, (v, l) ∈ buildGraph es u →
    visited v = true ∨ (v, some u) ∈ stack
  stackChain : List.Pairwise (fun fr fr' => ∀ q', fr'.2 = some q' →
    ∃ q, fr.2 = some q ∧ Relation.ReflTransGen (fun a b => p a = some b) q q') stack


end HashC

namespace HashC

variable {α : Type}

/-! ### Basic facts about the hash functions -/

theorem saltExtend_n (f : HashFunction) (seed : Seed) (k length : Nat) :
    (saltExtend f seed k length).1.n = f.n := by
  unfold saltExtend
  split <;> rfl

theorem saltExtend_salt (f : HashFunction) (seed : Seed) (k length : Nat) :
    ∃ ext, (saltExtend f seed k length).1.salt = f.salt ++ ext := by
  unfold saltExtend
  split
  · exact ⟨_, rfl⟩
  · exact ⟨[], (List.append_nil _).symm⟩

theorem saltExtend_length (f : HashFunction) (seed : Seed) (k length : Nat) :
    length ≤ (saltExtend f seed k length).1.salt.length := by
  unfold saltExtend
  split
  · simp only [List.length_append, List.length_map, List.length_range]
    omega
  · show length ≤ f.salt.length
    omega

theorem saltExtend_of_le (f : HashFunction) (seed : Seed) (k length : Nat)
    (h : length ≤ f.salt.length) : saltExtend f seed k length = (f, k) := by
  unfold saltExtend
  rw [if_neg (by omega)]

theorem zip_append_of_le (key : List Nat) :
    ∀ (salt ext : List Nat), key.length ≤ salt.length →
      key.zip (salt ++ ext) = key.zip salt := by
  induction key with
  | nil => intro salt ext _; simp
  | cons b key ih =>
    intro salt ext hle
    cases salt with
    | nil => simp at hle
    | cons s salt =>
      simp only [List.cons_append, List.zip_cons_cons, List.cons.injEq, true_and]
      exact ih salt ext (by simpa using hle)

theorem hashSum_append (key salt ext : List Nat) (h : key.length ≤ salt.length) :
    hashSum (salt ++ ext) key = hashSum salt key := by
  unfold hashSum
  rw [zip_append_of_le key salt ext h]

theorem hash_function_hash_of_le (f : HashFunction) (seed : Seed) (k : Nat) (key : Key)
    (h : key.length ≤ f.salt.length) :
    hash_function_hash f seed k key = (hash_function_hash_const f key, f, k) := by
  unfold hash_function_hash hash_function_hash_const
  rw [saltExtend_of_le f seed k key.length h]

/-- The result of `hash_function_hash` can be recomputed from the returned
(extended) function state by the salt-free `hash_function_hash_const`. -/
theorem hash_function_hash_const_eval (f : HashFunction) (seed : Seed) (k : Nat) (key : Key) :
    (hash_function_hash f seed k key).1 =
      hash_function_hash_const (hash_function_hash f seed k key).2.1 key := by
  rfl

/-- Extending the salt further does not change the hash of a key the salt
already covers. -/
theorem hash_function_hash_const_extend (f : HashFunction) (ext : List Nat) (key : Key)
    (h : key.length ≤ f.salt.length) :
    hash_function_hash_const ⟨f.salt ++ ext, f.n⟩ key = hash_function_hash_const f key := by
  unfold hash_function_hash_const
  simp only
  rw [hashSum_append key f.salt ext h]

/-! ### Lookup characterisation -/

/-- A lookup hit always returns a record of the table whose key bytes equal
the query byte-for-byte. -/
theorem hash_lookup_mem {h : Hash α} {key : Key} {r : HashInput α}
    (hl : hash_lookup h key = some r) : r ∈ h.keys ∧ r.key = key := by
  unfold hash_lookup at hl
  split at hl
  · exact absurd hl (by simp)
  · simp only at hl
    split at hl
    · exact absurd hl (by simp)
    · split at hl
      · exact absurd hl (by simp)
      · rename_i input heq
        split at hl
        · exact absurd hl (by simp)
        · split at hl
          · rename_i hkeyeq
            cases hl
            exact ⟨List.getElem?_mem heq, hkeyeq⟩
          · exact absurd hl (by simp)

/-! ### The create loop carries the keys unchanged -/

theorem createBody_success_keys {keys : List (HashInput α)} {seed : Seed}
    {recur : Nat → Nat → Nat → Nat → CreateResult α} {k nv ns iter : Nat}
    {h : Hash α} {its : Nat}
    (hrec : ∀ k' nv' ns' iter' h' its',
      recur k' nv' ns' iter' = .success h' its' → h'.keys = keys)
    (hc : createBody keys seed recur k nv ns iter = .success h its) : h.keys = keys := by
  simp only [createBody] at hc
  split at hc
  · exact absurd hc (by simp)
  · exact hrec _ _ _ _ _ _ hc
  · cases hc; rfl

theorem createLoop_keys {keys : List (HashInput α)} {seed : Seed} {vm : Nat} :
    ∀ {fuel k nv ns iter : Nat} {h : Hash α} {its : Nat},
      createLoop keys seed vm fuel k nv ns iter = .success h its → h.keys = keys := by
  intro fuel
  induction fuel with
  | zero => intro k nv ns iter h its hc; exact absurd hc (by simp [createLoop])
  | succ fuel ih =>
    intro k nv ns iter h its hc
    unfold createLoop at hc
    split at hc
    · split at hc
      · exact absurd hc (by simp)
      · exact createBody_success_keys (fun _ _ _ _ _ _ hx => ih hx) hc
    · exact createBody_success_keys (fun _ _ _ _ _ _ hx => ih hx) hc

theorem createBody_success_iter {keys : List (HashInput α)} {seed : Seed}
    {recur : Nat → Nat → Nat → Nat → CreateResult α} {k nv ns iter : Nat}
    {h : Hash α} {its : Nat}
    (hrec : ∀ k' nv' ns' iter' h' its',
      recur k' nv' ns' iter' = .success h' its' → iter' ≤ its')
    (hc : createBody keys seed recur k nv ns iter = .success h its) : iter < its := by
  simp only [createBody] at hc
  split at hc
  · exact absurd hc (by simp)
  · have := hrec _ _ _ _ _ _ hc; omega
  · cases hc; omega

theorem createLoop_iter_lt {keys : List (HashInput α)} {seed : Seed} {vm : Nat} :
    ∀ {fuel k nv ns iter : Nat} {h : Hash α} {its : Nat},
      createLoop keys seed vm fuel k nv ns iter = .success h its → iter < its := by
  intro fuel
  induction fuel with
  | zero => intro k nv ns iter h its hc; exact absurd hc (by simp [createLoop])
  | succ fuel ih =>
    intro k nv ns iter h its hc
    unfold createLoop at hc
    split at hc
    · split at hc
      · exact absurd hc (by simp)
      · exact createBody_success_iter (fun _ _ _ _ _ _ hx => Nat.le_of_lt (ih hx)) hc
    · exact createBody_success_iter (fun _ _ _ _ _ _ hx => Nat.le_of_lt (ih hx)) hc

/-! ### Claim theorems (easy group) -/

/-- C5: a query longer than either frozen salt is rejected by `hash_lookup`,
and lookup-time hashing never extends the salt or draws from the PRNG: on any
key the salt already covers, the drawing hash `hash_function_hash` coincides
with `hash_function_hash_const` and leaves both the function state and the
PRNG counter unchanged. -/
theorem C5_lookup_no_draw (h : Hash α) (f : HashFunction)
    (key : Key) (seed : Seed) (k : Nat) :
    (min h.f1.salt.length h.f2.salt.length < key.length → hash_lookup h key = none) ∧
    (key.length ≤ f.salt.length →
      hash_function_hash f seed k key = (hash_function_hash_const f key, f, k)) := by
  constructor
  · intro hlen
    unfold hash_lookup
    rw [if_pos (by omega)]
  · exact hash_function_hash_of_le f seed k key

/-- Witness for C5 at a concrete table, query and hash-function state. -/
theorem C5_lookup_no_draw_witness :
    (min (HashFunction.salt ⟨[0], 2⟩).length (HashFunction.salt ⟨[1], 2⟩).length < 3 ∧
      hash_lookup (⟨[⟨[1], 0⟩], ⟨[0], 2⟩, ⟨[1], 2⟩, [0, 0]⟩ : Hash Nat) [9, 9, 9] = none) ∧
    ((1 : Nat) ≤ 1 ∧
      hash_function_hash ⟨[5], 7⟩ (fun j => j) 4 [3] =
        (hash_function_hash_const ⟨[5], 7⟩ [3], ⟨[5], 7⟩, 4)) :=
  ⟨⟨by decide,
      (C5_lookup_no_draw (⟨[⟨[1], 0⟩], ⟨[0], 2⟩, ⟨[1], 2⟩, [0, 0]⟩ : Hash Nat)
        ⟨[5], 7⟩ [9, 9, 9] (fun j => j) 4).1 (by decide)⟩,
    ⟨by decide,
      (C5_lookup_no_draw (⟨[⟨[1], 0⟩], ⟨[0], 2⟩, ⟨[1], 2⟩, [0, 0]⟩ : Hash Nat)
        ⟨[5], 7⟩ [3] (fun j => j) 4).2 (by decide)⟩⟩

/-- C6: `hash_create` on an empty input set fails, and every failing call
(empty input, exhausted ceiling, or exhausted fuel) returns the input set
unchanged — exactly the records it held, in the same order. -/
theorem C6_empty_and_failure_frame (inputs : HashInputs α) (seed : Seed) (fuel : Nat) :
    (inputs = [] → hash_create inputs seed fuel = (.failure, inputs)) ∧
    ((hash_create inputs seed fuel).1.isSuccess = false →
      (hash_create inputs seed fuel).2 = inputs) := by
  constructor
  · intro he
    subst he
    rfl
  · intro hfail
    by_cases he : inputs.length = 0
    · unfold hash_create
      rw [if_pos he]
    · unfold hash_create at hfail ⊢
      rw [if_neg he] at hfail ⊢
      cases hm : createLoop inputs seed (650 * (inputs.length + 1)) fuel 0
          (inputs.length + 1) ((inputs.length + 1) * 1024) 0 with
      | success h its =>
        rw [hm] at hfail
        exact absurd hfail (by simp [CreateResult.isSuccess])
      | failure => rfl
      | outOfFuel => rfl

/-- Witness for C6: the empty input set, and a failing single-key call. -/
theorem C6_empty_and_failure_frame_witness :
    hash_create ([] : HashInputs Nat) (fun j => j) 3 = (.failure, []) ∧
    ((hash_create ([⟨[0], 0⟩] : HashInputs Nat) (fun j => j) 1).1.isSuccess = false ∧
      (hash_create ([⟨[0], 0⟩] : HashInputs Nat) (fun j => j) 1).2 = [⟨[0], 0⟩]) :=
  ⟨(C6_empty_and_failure_frame ([] : HashInputs Nat) (fun j => j) 3).1 rfl,
    by decide,
    (C6_empty_and_failure_frame ([⟨[0], 0⟩] : HashInputs Nat) (fun j => j) 1).2 (by decide)⟩

/-- C7: on success `hash_create` leaves the input set empty (but valid) and
the table holds exactly the records the input set held, in insertion order,
with key bytes and payloads untouched. -/
theorem C7_success_moves_keys (inputs : HashInputs α) (seed : Seed) (fuel : Nat)
    (h : Hash α) (its : Nat) (rest : HashInputs α)
    (hc : hash_create inputs seed fuel = (.success h its, rest)) :
    rest = [] ∧ h.keys = inputs := by
  unfold hash_create at hc
  split at hc
  · exact absurd hc (by simp)
  · split at hc
    · rename_i hm
      cases hc
      exact ⟨rfl, createLoop_keys hm⟩
    · exact absurd hc (by simp)
    · exact absurd hc (by simp)

/-- Witness for C7 at a concrete successful build. -/
theorem C7_success_moves_keys_witness :
    hash_create ([⟨[1], 0⟩] : HashInputs Nat) (fun j => j) 1 =
      (.success ⟨[⟨[1], 0⟩], ⟨[0], 2⟩, ⟨[1], 2⟩, [0, 0]⟩ 1, []) ∧
    ([] : HashInputs Nat) = [] ∧
      (⟨[⟨[1], 0⟩], ⟨[0], 2⟩, ⟨[1], 2⟩, [0, 0]⟩ : Hash Nat).keys = [⟨[1], 0⟩] :=
  ⟨by decide,
    C7_success_moves_keys [⟨[1], 0⟩] (fun j => j) 1
      ⟨[⟨[1], 0⟩], ⟨[0], 2⟩, ⟨[1], 2⟩, [0, 0]⟩ 1 [] (by decide)⟩

/-- C8: every add operation called with a zero-length key leaves the input
set unchanged, in every build configuration (`warnings` true and false). -/
theorem C8_zero_length_ignored (inputs : HashInputs α) (ptr : α) (warnings : Bool) :
    hash_inputs_add inputs [] ptr = inputs ∧
    hash_inputs_add_safe warnings inputs [] ptr = inputs ∧
    hash_inputs_add_no_copy inputs [] ptr = inputs := by
  refine ⟨rfl, ?_, rfl⟩
  unfold hash_inputs_add_safe
  cases warnings with
  | true => rfl
  | false =>
    rw [if_neg (by simp)]
    split
    · rfl
    · rfl

/-- C3: lookups of byte strings not among a successfully built table's keys
return `NULL`; no query outside the key set is reported as a member. -/
theorem C3_non_membership (inputs : HashInputs α) (seed : Seed) (fuel : Nat)
    (h : Hash α) (its : Nat) (rest : HashInputs α) (q : Key)
    (hc : hash_create inputs seed fuel = (.success h its, rest))
    (hq : ∀ r ∈ inputs, r.key ≠ q) :
    hash_lookup h q = none := by
  rcases hres : hash_lookup h q with _ | r
  · rfl
  · obtain ⟨hmem, hkey⟩ := hash_lookup_mem hres
    rw [(C7_success_moves_keys inputs seed fuel h its rest hc).2] at hmem
    exact absurd hkey (hq r hmem)

/-- Witness for C3: the concrete single-key table rejects the absent query
`[2]`. -/
theorem C3_non_membership_witness :
    hash_create ([⟨[1], 0⟩] : HashInputs Nat) (fun j => j) 1 =
      (.success ⟨[⟨[1], 0⟩], ⟨[0], 2⟩, ⟨[1], 2⟩, [0, 0]⟩ 1, []) ∧
    (∀ r ∈ ([⟨[1], 0⟩] : HashInputs Nat), r.key ≠ [2]) ∧
    hash_lookup (⟨[⟨[1], 0⟩], ⟨[0], 2⟩, ⟨[1], 2⟩, [0, 0]⟩ : Hash Nat) [2] = none :=
  ⟨by decide, by decide,
    C3_non_membership [⟨[1], 0⟩] (fun j => j) 1
      ⟨[⟨[1], 0⟩], ⟨[0], 2⟩, ⟨[1], 2⟩, [0, 0]⟩ 1 [] [2] (by decide) (by decide)⟩

end HashC

namespace HashC

variable {α : Type}

/-! ### List helpers -/

theorem two_le_length_of_mem {β : Type} {a b : β} :
    ∀ {l : List β}, a ∈ l → b ∈ l → a ≠ b → 2 ≤ l.length := by
  intro l
  induction l with
  | nil => intro ha _ _; simp at ha
  | cons x xs ih =>
    intro ha hb hne
    rcases List.mem_cons.mp ha with rfl | ha'
    · rcases List.mem_cons.mp hb with rfl | hb'
      · exact absurd rfl hne
      · have := List.length_pos.mpr (List.ne_nil_of_mem hb')
        simp only [List.length_cons]
        omega
    · have := List.length_pos.mpr (List.ne_nil_of_mem ha')
      simp only [List.length_cons]
      omega

theorem countP_agree {β : Type} {p q : β → Bool} :
    ∀ {l : List β}, (∀ x ∈ l, p x = q x) → l.countP p = l.countP q := by
  intro l
  induction l with
  | nil => intro _; rfl
  | cons x xs ih =>
    intro hag
    rw [List.countP_cons, List.countP_cons, hag x (by simp),
      ih (fun y hy => hag y (List.mem_cons_of_mem _ hy))]

theorem countP_le_of_imp {β : Type} {p q : β → Bool} :
    ∀ {l : List β}, (∀ x ∈ l, p x = true → q x = true) → l.countP p ≤ l.countP q := by
  intro l
  induction l with
  | nil => intro _; exact Nat.le_refl 0
  | cons x xs ih =>
    intro himp
    rw [List.countP_cons, List.countP_cons]
    have h1 := ih (fun y hy => himp y (List.mem_cons_of_mem _ hy))
    by_cases hx : p x = true
    · rw [if_pos hx, if_pos (himp x (by simp) hx)]
      omega
    · rw [if_neg hx]
      split <;> omega

theorem find?_append_none {β : Type} {p : β → Bool} :
    ∀ {l1 : List β} (l2 : List β), l1.find? p = none → (l1 ++ l2).find? p = l2.find? p := by
  intro l1
  induction l1 with
  | nil => intro l2 _; rfl
  | cons x xs ih =>
    intro l2 hnone
    rw [List.cons_append, List.find?_cons]
    rw [List.find?_cons] at hnone
    cases hp : p x with
    | true => rw [hp] at hnone; simp at hnone
    | false => rw [hp] at hnone; exact ih l2 hnone

theorem find?_append_some {β : Type} {p : β → Bool} :
    ∀ {l1 : List β} (l2 : List β) {a : β}, l1.find? p = some a →
      (l1 ++ l2).find? p = some a := by
  intro l1
  induction l1 with
  | nil => intro l2 a h; simp at h
  | cons x xs ih =>
    intro l2 a hsome
    rw [List.cons_append, List.find?_cons]
    rw [List.find?_cons] at hsome
    cases hp : p x with
    | true => rw [hp] at hsome; exact hsome
    | false => rw [hp] at hsome; exact ih l2 hsome

/-! ### targetCount and Pairing helpers -/

theorem targetCount_cons (e : Nat × Int) (es : List (Nat × Int)) (t : Nat) :
    targetCount (e :: es) t = (if e.1 = t then 1 else 0) + targetCount es t := by
  by_cases h : e.1 = t <;>
    simp [targetCount, List.filter_cons, h, Nat.add_comm]

theorem targetCount_mem {es : List (Nat × Int)} {t : Nat} (h : 1 ≤ targetCount es t) :
    ∃ l, (t, l) ∈ es := by
  unfold targetCount at h
  have hne : es.filter (fun e => e.1 = t) ≠ [] := by
    intro hemp
    rw [hemp] at h
    simp at h
  obtain ⟨e, he⟩ := List.exists_mem_of_ne_nil _ hne
  have hmem := List.mem_of_mem_filter he
  have hpred := List.of_mem_filter he
  simp only [decide_eq_true_eq] at hpred
  exact ⟨e.2, by rw [← hpred]; exact hmem⟩

theorem targetCount_of_mem {es : List (Nat × Int)} {t : Nat} {l : Int}
    (h : (t, l) ∈ es) : 1 ≤ targetCount es t := by
  unfold targetCount
  have : (t, l) ∈ es.filter (fun e => e.1 = t) :=
    List.mem_filter.mpr ⟨h, by simp⟩
  have := List.length_pos.mpr (List.ne_nil_of_mem this)
  omega

theorem targetCount_two {es : List (Nat × Int)} {t : Nat} {l l' : Int}
    (h1 : (t, l) ∈ es) (h2 : (t, l') ∈ es) (hne : l ≠ l') : 2 ≤ targetCount es t := by
  unfold targetCount
  have m1 : (t, l) ∈ es.filter (fun e => e.1 = t) := List.mem_filter.mpr ⟨h1, by simp⟩
  have m2 : (t, l') ∈ es.filter (fun e => e.1 = t) := List.mem_filter.mpr ⟨h2, by simp⟩
  exact two_le_length_of_mem m1 m2 (by simp [hne])

theorem count_labels (es : List (Nat × Int)) (t : Nat) (l : Int) :
    ((es.filter (fun e => e.1 = t)).map (fun e => e.2)).count l = es.count (t, l) := by
  induction es with
  | nil => rfl
  | cons e es ih =>
    rcases e with ⟨t', l'⟩
    rw [List.count_cons]
    by_cases ht : t' = t
    · subst ht
      rw [List.filter_cons, if_pos (by simp), List.map_cons, List.count_cons, ih]
      by_cases hl : l' = l
      · subst hl; simp
      · simp [hl, Prod.ext_iff]
    · rw [List.filter_cons, if_neg (by simp [ht]), ih]
      simp [Prod.ext_iff, ht]

theorem pairing_mem {edges : Edges} (hp : Pairing edges) {u t : Nat} {l : Int}
    (h : (t, l) ∈ edges u) : (u, l) ∈ edges t := by
  rw [← List.count_pos_iff] at h ⊢
  rw [← hp u t l]
  exact h

theorem targetCount_symm {edges : Edges} (hp : Pairing edges) (u t : Nat) :
    targetCount (edges u) t = targetCount (edges t) u := by
  have hperm : List.Perm (((edges u).filter (fun e => e.1 = t)).map (fun e => e.2))
      (((edges t).filter (fun e => e.1 = u)).map (fun e => e.2)) := by
    rw [List.perm_iff_count]
    intro l
    rw [count_labels, count_labels, hp u t l]
  have hlen := hperm.length_eq
  simpa [targetCount] using hlen

/-! ### The normalisation arithmetic of the resolver -/

theorem tmod_gt_neg (a : Int) (n : Nat) (hn : 0 < n) : -(n : Int) < Int.tmod a (n : Int) := by
  cases a with
  | ofNat m =>
    have h0 : 0 ≤ Int.tmod (Int.ofNat m) (n : Int) :=
      Int.tmod_nonneg (n : Int) (Int.ofNat_nonneg m)
    have : (0 : Int) < (n : Int) := by exact_mod_cast hn
    omega
  | negSucc m =>
    have heq : Int.tmod (Int.negSucc m) ((n : Nat) : Int) = -(((m + 1) % n : Nat) : Int) := rfl
    rw [heq]
    have := Nat.mod_lt (m + 1) hn
    omega

theorem resolveValue_bounds (label vval : Int) (n : Nat) (hn : 0 < n) :
    0 ≤ resolveValue label vval n ∧ resolveValue label vval n < (n : Int) ∧
      (vval + resolveValue label vval n) % (n : Int) = label % (n : Int) := by
  have hnz : (0 : Int) < (n : Int) := by exact_mod_cast hn
  have hub : Int.tmod (label - vval) (n : Int) < (n : Int) :=
    Int.tmod_lt_of_pos (label - vval) hnz
  have hlb : -(n : Int) < Int.tmod (label - vval) (n : Int) := tmod_gt_neg (label - vval) n hn
  have hcong : Int.tmod (label - vval) (n : Int) % (n : Int) = (label - vval) % (n : Int) := by
    conv_rhs => rw [← Int.tmod_add_tdiv (label - vval) (n : Int)]
    rw [Int.add_mul_emod_self_left]
  have hv0 : resolveValue label vval n =
      if Int.tmod (label - vval) (n : Int) < 0
      then Int.tmod (label - vval) (n : Int) + (n : Int)
      else Int.tmod (label - vval) (n : Int) := rfl
  have hite : resolveValue label vval n % (n : Int) = (label - vval) % (n : Int) := by
    rw [hv0]
    split
    · have hone : Int.tmod (label - vval) (n : Int) + (n : Int) =
        Int.tmod (label - vval) (n : Int) + (n : Int) * 1 := by ring
      rw [hone, Int.add_mul_emod_self_left, hcong]
    · exact hcong
  refine ⟨?_, ?_, ?_⟩
  · rw [hv0]
    split <;> omega
  · rw [hv0]
    split <;> omega
  · rw [Int.add_emod, hite, ← Int.add_emod]
    congr 1
    ring

/-! ### Failure of the edge scan in the presence of a visited target -/

theorem scanEdges_none_of_mem {n w : Nat} {po : Option Nat} {visited : Nat → Bool}
    {t : Nat} (ht : visited t = true) :
    ∀ (es : List (Nat × Int)) (skip : Bool) (value : Nat → Int)
      (stack : List (Nat × Option Nat)),
      ¬(skip = true ∧ po = some t) → (∃ l, (t, l) ∈ es) →
      scanEdges n w po visited es skip value stack = none := by
  intro es
  induction es with
  | nil =>
    intro skip value stack _ hmem
    rcases hmem with ⟨l, hl⟩
    simp at hl
  | cons e es ih =>
    rcases e with ⟨t', l'⟩
    intro skip value stack hns hmem
    unfold scanEdges
    by_cases hc : (skip = true ∧ some t' = po)
    · rw [if_pos hc]
      have ht' : t' ≠ t := by
        intro heq
        exact hns ⟨hc.1, by rw [← hc.2, heq]⟩
      rcases hmem with ⟨l, hl⟩
      rcases List.mem_cons.mp hl with heq | htail
      · exact absurd (congrArg Prod.fst heq) (by simpa using ht'.symm)
      · exact ih false value stack (by simp) ⟨l, htail⟩
    · rw [if_neg hc]
      by_cases hv : visited t' = true
      · rw [if_pos hv]
      · rw [if_neg hv]
        have ht' : t' ≠ t := fun heq => hv (heq ▸ ht)
        rcases hmem with ⟨l, hl⟩
        rcases List.mem_cons.mp hl with heq | htail
        · exact absurd (congrArg Prod.fst heq) (by simpa using ht'.symm)
        · exact ih skip _ _ hns ⟨l, htail⟩

theorem scanEdges_none_of_two {n w : Nat} {po : Option Nat} {visited : Nat → Bool}
    {t : Nat} (ht : visited t = true) :
    ∀ (es : List (Nat × Int)) (skip : Bool) (value : Nat → Int)
      (stack : List (Nat × Option Nat)),
      2 ≤ targetCount es t →
      scanEdges n w po visited es skip value stack = none := by
  intro es
  induction es with
  | nil =>
    intro skip value stack hcnt
    simp [targetCount] at hcnt
  | cons e es ih =>
    rcases e with ⟨t', l'⟩
    intro skip value stack hcnt
    rw [targetCount_cons] at hcnt
    unfold scanEdges
    by_cases hc : (skip = true ∧ some t' = po)
    · rw [if_pos hc]
      by_cases ht' : t' = t
      · have h1 : 1 ≤ targetCount es t := by
          rw [if_pos ht'] at hcnt
          omega
        exact scanEdges_none_of_mem ht es false value stack (by simp) (targetCount_mem h1)
      · have h2 : 2 ≤ targetCount es t := by
          rw [if_neg ht'] at hcnt
          omega
        exact ih false value stack h2
    · rw [if_neg hc]
      by_cases hv : visited t' = true
      · rw [if_pos hv]
      · rw [if_neg hv]
        have ht' : t' ≠ t := fun heq => hv (heq ▸ ht)
        have h2 : 2 ≤ targetCount es t := by
          rw [if_neg ht'] at hcnt
          omega
        exact ih skip _ _ h2

/-! ### Properties of a completed edge scan -/

theorem scanEdges_some_value {n w : Nat} {po : Option Nat} {visited : Nat → Bool}
    (hn : 0 < n) (hw : visited w = true) :
    ∀ (es : List (Nat × Int)) (skip : Bool) (value : Nat → Int)
      (stack : List (Nat × Option Nat)) (value' : Nat → Int)
      (stack' : List (Nat × Option Nat)),
      scanEdges n w po visited es skip value stack = some (value', stack') →
      ∀ x, value' x = value x ∨
        (visited x = false ∧ ∃ l, (x, l) ∈ es ∧
          0 ≤ value' x ∧ value' x < (n : Int) ∧
          (value w + value' x) % (n : Int) = l % (n : Int)) := by
  intro es
  induction es with
  | nil =>
    intro skip value stack value' stack' hs x
    unfold scanEdges at hs
    cases hs
    exact Or.inl rfl
  | cons e es ih =>
    rcases e with ⟨t, l'⟩
    intro skip value stack value' stack' hs x
    unfold scanEdges at hs
    by_cases hc : (skip = true ∧ some t = po)
    · rw [if_pos hc] at hs
      rcases ih false value stack value' stack' hs x with hl | ⟨hun, l, hmem, hprop⟩
      · exact Or.inl hl
      · exact Or.inr ⟨hun, l, List.mem_cons_of_mem _ hmem, hprop⟩
    · rw [if_neg hc] at hs
      by_cases hv : visited t = true
      · rw [if_pos hv] at hs
        exact absurd hs (by simp)
      · rw [if_neg hv] at hs
        simp only [Bool.not_eq_true] at hv
        have htw : t ≠ w := fun heq => by rw [heq, hw] at hv; exact Bool.noConfusion hv
        have hvw : Function.update value t (resolveValue l' (value w) n) w = value w := by
          rw [Function.update_noteq (Ne.symm htw)]
        rcases ih skip _ _ value' stack' hs x with hl | ⟨hun, l, hmem, hb1, hb2, hrel⟩
        · by_cases hx : x = t
          · subst hx
            obtain ⟨hb1, hb2, hrel⟩ := resolveValue_bounds l' (value w) n hn
            have hval : value' x = resolveValue l' (value w) n := by
              rw [hl, Function.update_same]
            exact Or.inr ⟨hv, l', List.mem_cons_self _ _, by rw [hval]; exact hb1,
              by rw [hval]; exact hb2, by rw [hval]; exact hrel⟩
          · rw [hl, Function.update_noteq hx]
            exact Or.inl rfl
        · rw [hvw] at hrel
          exact Or.inr ⟨hun, l, List.mem_cons_of_mem _ hmem, hb1, hb2, hrel⟩

/-! ### Completion properties of the edge scan -/

theorem count_le_filter_vertex (t : Nat) (p : Option Nat) (l : List (Nat × Option Nat)) :
    List.count (t, p) l ≤ (l.filter (fun fr => fr.1 = t)).length := by
  induction l with
  | nil => exact Nat.le_refl 0
  | cons fr l ih =>
    rw [List.count_cons, List.filter_cons]
    by_cases hfr : fr = (t, p)
    · subst hfr
      rw [if_pos (by simp), if_pos (by simp)]
      simp only [List.length_cons]
      omega
    · rw [if_neg (by simp [hfr])]
      split
      · simp only [List.length_cons]
        omega
      · omega

theorem scanEdges_some_frames {n w : Nat} {po : Option Nat} {visited : Nat → Bool}
    (hn : 0 < n) (hw : visited w = true) :
    ∀ (es : List (Nat × Int)) (skip : Bool) (value : Nat → Int)
      (stack : List (Nat × Option Nat)) (value' : Nat → Int)
      (stack' : List (Nat × Option Nat)),
      scanEdges n w po visited es skip value stack = some (value', stack') →
      ∃ nf, stack' = nf ++ stack ∧
        (∀ fr ∈ nf, fr.2 = some w ∧ visited fr.1 = false ∧
          ∃ l, (fr.1, l) ∈ es ∧ 0 ≤ value' fr.1 ∧ value' fr.1 < (n : Int) ∧
            (value w + value' fr.1) % (n : Int) = l % (n : Int)) ∧
        (∀ x, (∀ fr ∈ nf, fr.1 ≠ x) → value' x = value x) ∧
        (∀ t, (nf.filter (fun fr => fr.1 = t)).length ≤ targetCount es t) := by
  intro es
  induction es with
  | nil =>
    intro skip value stack value' stack' hs
    unfold scanEdges at hs
    cases hs
    exact ⟨[], by simp, by simp, fun x _ => rfl, fun t => by simp [targetCount]⟩
  | cons e es ih =>
    rcases e with ⟨t, l'⟩
    intro skip value stack value' stack' hs
    unfold scanEdges at hs
    by_cases hc : (skip = true ∧ some t = po)
    · rw [if_pos hc] at hs
      obtain ⟨nf, h1, h2, h3, h4⟩ := ih false value stack value' stack' hs
      refine ⟨nf, h1, ?_, h3, ?_⟩
      · intro fr hfr
        obtain ⟨hpw, hfv, l, hmem, hrest⟩ := h2 fr hfr
        exact ⟨hpw, hfv, l, List.mem_cons_of_mem _ hmem, hrest⟩
      · intro t0
        have := h4 t0
        rw [targetCount_cons]
        split <;> omega
    · rw [if_neg hc] at hs
      by_cases hv : visited t = true
      · rw [if_pos hv] at hs
        exact absurd hs (by simp)
      · rw [if_neg hv] at hs
        simp only [Bool.not_eq_true] at hv
        have htw : t ≠ w := fun heq => by rw [heq, hw] at hv; exact Bool.noConfusion hv
        have hvw : Function.update value t (resolveValue l' (value w) n) w = value w := by
          rw [Function.update_noteq (Ne.symm htw)]
        obtain ⟨nf', h1, h2, h3, h4⟩ := ih skip _ _ value' stack' hs
        refine ⟨nf' ++ [(t, some w)], ?_, ?_, ?_, ?_⟩
        · rw [h1, List.append_assoc, List.singleton_append]
        · intro fr hfr
          rcases List.mem_append.mp hfr with hfr' | hfr1
          · obtain ⟨hpw, hfv, l, hmem, hb1, hb2, hrel⟩ := h2 fr hfr'
            rw [hvw] at hrel
            exact ⟨hpw, hfv, l, List.mem_cons_of_mem _ hmem, hb1, hb2, hrel⟩
          · have hfr_eq : fr = (t, some w) := by simpa using hfr1
            subst hfr_eq
            refine ⟨rfl, hv, ?_⟩
            by_cases hnone : ∀ fr' ∈ nf', fr'.1 ≠ t
            · have hvt : value' t = resolveValue l' (value w) n := by
                rw [h3 t hnone, Function.update_same]
              obtain ⟨hb1, hb2, hrel⟩ := resolveValue_bounds l' (value w) n hn
              exact ⟨l', List.mem_cons_self _ _, by rw [hvt]; exact hb1,
                by rw [hvt]; exact hb2, by rw [hvt]; exact hrel⟩
            · push_neg at hnone
              obtain ⟨fr', hfr', hfx⟩ := hnone
              obtain ⟨_, _, l, hmem, hb1, hb2, hrel⟩ := h2 fr' hfr'
              rw [hfx] at hmem hb1 hb2 hrel
              rw [hvw] at hrel
              exact ⟨l, List.mem_cons_of_mem _ hmem, hb1, hb2, hrel⟩
        · intro x hx
          have hxnf' : ∀ fr ∈ nf', fr.1 ≠ x := fun fr hfr =>
            hx fr (List.mem_append.mpr (Or.inl hfr))
          have hxt : t ≠ x := hx (t, some w) (List.mem_append.mpr (Or.inr (by simp)))
          rw [h3 x hxnf', Function.update_noteq (Ne.symm hxt)]
        · intro t0
          rw [List.filter_append, List.length_append, targetCount_cons]
          have h4t := h4 t0
          by_cases ht0 : t = t0
          · rw [if_pos (by simpa using ht0)]
            have : (List.filter (fun fr => fr.1 = t0) [(t, some w)]).length = 1 := by
              simp [List.filter_cons, ht0]
            omega
          · rw [if_neg (by simpa using ht0)]
            have : (List.filter (fun fr => fr.1 = t0) [(t, some w)]).length = 0 := by
              simp [List.filter_cons, ht0]
            omega

theorem scanEdges_some_visited {n w : Nat} {po : Option Nat} {visited : Nat → Bool} :
    ∀ (es : List (Nat × Int)) (skip : Bool) (value : Nat → Int)
      (stack : List (Nat × Option Nat)) (value' : Nat → Int)
      (stack' : List (Nat × Option Nat)),
      scanEdges n w po visited es skip value stack = some (value', stack') →
      (∀ e ∈ es, visited e.1 = true → skip = true ∧ po = some e.1) ∧
      es.countP (fun e => visited e.1) ≤ (if skip = true then 1 else 0) := by
  intro es
  induction es with
  | nil =>
    intro skip value stack value' stack' _
    refine ⟨by simp, ?_⟩
    rw [List.countP_nil]
    split <;> omega
  | cons e es ih =>
    rcases e with ⟨t, l'⟩
    intro skip value stack value' stack' hs
    unfold scanEdges at hs
    by_cases hc : (skip = true ∧ some t = po)
    · rw [if_pos hc] at hs
      obtain ⟨ihall, ihcnt⟩ := ih false value stack value' stack' hs
      rw [if_neg (by simp)] at ihcnt
      constructor
      · intro e he hev
        rcases List.mem_cons.mp he with rfl | htail
        · exact ⟨hc.1, hc.2.symm⟩
        · exfalso
          have : 0 < es.countP (fun e => visited e.1) := by
            rw [List.countP_pos_iff]
            exact ⟨e, htail, hev⟩
          omega
      · rw [List.countP_cons]
        rw [if_pos hc.1]
        split <;> omega
    · rw [if_neg hc] at hs
      by_cases hv : visited t = true
      · rw [if_pos hv] at hs
        exact absurd hs (by simp)
      · rw [if_neg hv] at hs
        simp only [Bool.not_eq_true] at hv
        obtain ⟨ihall, ihcnt⟩ := ih skip _ _ value' stack' hs
        constructor
        · intro e he hev
          rcases List.mem_cons.mp he with rfl | htail
          · rw [hv] at hev; exact Bool.noConfusion hev
          · exact ihall e htail hev
        · simp only [List.countP_cons, hv, Bool.false_eq_true, if_false, Nat.add_zero]
          exact ihcnt

/-! ### One pop of the resolver loop preserves the invariant -/

theorem inv_step_stale {edges : Edges} {n : Nat} {value : Nat → Int} {visited : Nat → Bool}
    {w : Nat} {po : Option Nat} {rest : List (Nat × Option Nat)}
    (inv : Inv edges n value visited ((w, po) :: rest))
    (hw : visited w = true) :
    scanEdges n w po (Function.update visited w true) (edges w) true value rest = none := by
  cases po with
  | none =>
    have hroot := inv.rootfr (w, none) (by simp) rfl
    rw [hroot.2] at hw
    exact Bool.noConfusion hw
  | some p =>
    obtain ⟨t, htv, hcase⟩ := inv.fstale (w, some p) (by simp) p rfl hw
    have htv' : Function.update visited w true t = true := by
      by_cases htw : t = w
      · subst htw; rw [Function.update_same]
      · rw [Function.update_noteq htw]; exact htv
    rcases hcase with ⟨hne, hcnt⟩ | hcnt2
    · refine scanEdges_none_of_mem htv' (edges w) true value rest ?_ (targetCount_mem hcnt)
      intro hcontra
      exact hne (Option.some.inj hcontra.2).symm
    · exact scanEdges_none_of_two htv' (edges w) true value rest hcnt2

theorem inv_step_fresh {edges : Edges} {n : Nat} {value value' : Nat → Int}
    {visited : Nat → Bool} {w : Nat} {po : Option Nat}
    {rest stack' : List (Nat × Option Nat)}
    (hn : 0 < n) (hp : Pairing edges) (hEB : EdgesBounded edges n)
    (inv : Inv edges n value visited ((w, po) :: rest))
    (hw : visited w = false)
    (hs : scanEdges n w po (Function.update visited w true) (edges w) true value rest
      = some (value', stack')) :
    Inv edges n value' (Function.update visited w true) stack' := by
  have hw' : Function.update visited w true w = true := Function.update_same w true visited
  have hmono : ∀ u, visited u = true → Function.update visited w true u = true := by
    intro u hu
    by_cases huw : u = w
    · subst huw; exact hw'
    · rw [Function.update_noteq huw]; exact hu
  have hold_of : ∀ u, u ≠ w → Function.update visited w true u = visited u := by
    intro u huw
    rw [Function.update_noteq huw]
  obtain ⟨nf, hst, hnf, hunch, hnfcnt⟩ :=
    scanEdges_some_frames hn hw' (edges w) true value rest value' stack' hs
  have hval := scanEdges_some_value hn hw' (edges w) true value rest value' stack' hs
  obtain ⟨hvt, hvtc⟩ := scanEdges_some_visited (edges w) true value rest value' stack' hs
  have hfr_head := inv.frange (w, po) (by simp)
  have hw_lt : w < n := hfr_head.1
  have hunch_vis : ∀ x, Function.update visited w true x = true → value' x = value x := by
    intro x hx
    refine hunch x ?_
    intro fr hfr heq
    obtain ⟨_, hfv, _⟩ := hnf fr hfr
    rw [heq, hx] at hfv
    exact Bool.noConfusion hfv
  have hun_w : value' w = value w := hunch_vis w hw'
  have hfind_w : ((w, po) :: rest).find? (fun g => g.1 == w) = some (w, po) := by
    rw [List.find?_cons]
    simp
  -- uniqueness of a visited target among the scanned edges
  have huniq : ∀ t, Function.update visited w true t = true → targetCount (edges w) t ≤ 1 := by
    intro t ht
    have hle : targetCount (edges w) t ≤
        (edges w).countP (fun e => Function.update visited w true e.1) := by
      rw [targetCount, ← List.countP_eq_length_filter]
      refine countP_le_of_imp ?_
      intro e _ hpred
      have he1 : e.1 = t := by simpa using hpred
      rw [he1]
      exact ht
    calc targetCount (edges w) t ≤ _ := hle
      _ ≤ 1 := by rw [if_pos rfl] at hvtc; exact hvtc
  refine ⟨?_, ?_, ?_, ?_, ?_, ?_, ?_, ?_⟩
  -- vrange
  · intro u hu
    rw [hunch_vis u hu]
    by_cases huw : u = w
    · subst huw
      exact ⟨hfr_head.2.1, hfr_head.2.2⟩
    · rw [hold_of u huw] at hu
      exact inv.vrange u hu
  -- frange
  · intro fr hfr
    rw [hst] at hfr
    rcases List.mem_append.mp hfr with hnf' | hrest
    · obtain ⟨_, _, l, hmem, hb1, hb2, _⟩ := hnf fr hnf'
      exact ⟨hEB w (fr.1, l) hmem, hb1, hb2⟩
    · have hold := inv.frange fr (List.mem_cons_of_mem _ hrest)
      rcases hval fr.1 with hl | ⟨_, l, _, hb1, hb2, _⟩
      · rw [hl]
        exact hold
      · exact ⟨hold.1, hb1, hb2⟩
  -- fparent
  · intro fr hfr p hp2
    rw [hst] at hfr
    rcases List.mem_append.mp hfr with hnf' | hrest
    · obtain ⟨hpw, hfv, _⟩ := hnf fr hnf'
      rw [hp2] at hpw
      have hpw' : p = w := Option.some.inj hpw
      refine ⟨by rw [hpw']; exact hw', ?_⟩
      intro heq
      rw [hpw'] at heq
      rw [← heq] at hfv
      rw [hw'] at hfv
      exact Bool.noConfusion hfv
    · have hold := inv.fparent fr (List.mem_cons_of_mem _ hrest) p hp2
      exact ⟨hmono p hold.1, hold.2⟩
  -- fstale
  · intro fr hfr p hp2 hfv'
    rw [hst] at hfr
    rcases List.mem_append.mp hfr with hnf' | hrest
    · obtain ⟨_, hfv, _⟩ := hnf fr hnf'
      rw [hfv'] at hfv
      exact Bool.noConfusion hfv
    · by_cases hfw : fr.1 = w
      · cases po with
        | none =>
          have hroot := inv.rootfr (w, none) (by simp) rfl
          have hrnil : rest = [] := by
            have := hroot.1
            injection this with h1 h2
          rw [hrnil] at hrest
          simp at hrest
        | some p0 =>
          have hp0 := inv.fparent (w, some p0) (by simp) p0 rfl
          by_cases hpp : p0 = p
          · subst hpp
            have hfr_eq : fr = (w, some p0) := by
              cases fr with
              | mk f1 f2 =>
                simp only at hfw hp2
                rw [hfw, hp2]
            have hc2 : 2 ≤ List.count (w, some p0) ((w, some p0) :: rest) := by
              rw [List.count_cons, if_pos (by simp)]
              have : 0 < List.count (w, some p0) rest := by
                rw [List.count_pos_iff]
                rw [hfr_eq] at hrest
                exact hrest
              omega
            have hfc := inv.fcount w p0
            have h2 : 2 ≤ targetCount (edges w) p0 := by
              rw [targetCount_symm hp w p0]
              omega
            rw [hfw]
            exact ⟨p0, hmono p0 hp0.1, Or.inr h2⟩
          · have hfc := inv.fcount w p0
            have hc1 : 1 ≤ List.count (w, some p0) ((w, some p0) :: rest) := by
              rw [List.count_cons, if_pos (by simp)]
              omega
            have h1 : 1 ≤ targetCount (edges w) p0 := by
              rw [targetCount_symm hp w p0]
              omega
            rw [hfw]
            exact ⟨p0, hmono p0 hp0.1, Or.inl ⟨hpp, h1⟩⟩
      · have hfv : visited fr.1 = true := by
          rw [hold_of fr.1 hfw] at hfv'
          exact hfv'
        obtain ⟨t, htv, hcase⟩ := inv.fstale fr (List.mem_cons_of_mem _ hrest) p hp2 hfv
        exact ⟨t, hmono t htv, hcase⟩
  -- ffind
  · intro x hx fr hfind p hp2
    have hxw : x ≠ w := by
      intro heq
      rw [heq, hw'] at hx
      exact Bool.noConfusion hx
    have hxv : visited x = false := by
      rw [hold_of x hxw] at hx
      exact hx
    rw [hst] at hfind
    by_cases hin : ∃ fr0 ∈ nf, fr0.1 = x
    · have hfr_nf : fr ∈ nf ∧ fr.1 = x := by
        cases hf0 : nf.find? (fun g => g.1 == x) with
        | none =>
          obtain ⟨fr0, hfr0, hfx⟩ := hin
          have := List.find?_eq_none.mp hf0 fr0 hfr0
          simp [hfx] at this
        | some fr0 =>
          rw [find?_append_some _ hf0] at hfind
          cases hfind
          refine ⟨List.mem_of_find?_eq_some hf0, ?_⟩
          have := List.find?_some hf0
          simpa using this
      obtain ⟨hfrnf, hfrx⟩ := hfr_nf
      obtain ⟨hpw, _, l, hmem, _, _, hrel⟩ := hnf fr hfrnf
      rw [hp2] at hpw
      have hpw' : p = w := Option.some.inj hpw
      rw [hfrx] at hmem hrel
      refine ⟨l, by rw [hpw']; exact hmem, ?_⟩
      rw [hpw', hun_w]
      exact hrel
    · push_neg at hin
      have hf0 : nf.find? (fun g => g.1 == x) = none := by
        rw [List.find?_eq_none]
        intro fr0 hfr0
        simp [hin fr0 hfr0]
      rw [find?_append_none _ hf0] at hfind
      have hold : ((w, po) :: rest).find? (fun g => g.1 == x) = some fr := by
        rw [List.find?_cons]
        have hbeq : (((w, po) : Nat × Option Nat).1 == x) = false := by
          simp [Ne.symm hxw]
        rw [hbeq]
        exact hfind
      obtain ⟨l, hmem, hrel⟩ := inv.ffind x hxv fr hold p hp2
      have hfr_rest : fr ∈ rest := List.mem_of_find?_eq_some hfind
      have hpvis := (inv.fparent fr (List.mem_cons_of_mem _ hfr_rest) p hp2).1
      have hup : value' p = value p := hunch_vis p (hmono p hpvis)
      have hux : value' x = value x := hunch x hin
      exact ⟨l, hmem, by rw [hup, hux]; exact hrel⟩
  -- ledger
  · intro u t l hu ht hmem
    by_cases huw : u = w
    · by_cases htw : t = w
      · exfalso
        rw [huw, htw] at hmem
        obtain ⟨-, hpo⟩ := hvt (w, l) hmem hw'
        exact (inv.fparent (w, po) (by simp) w hpo).2 rfl
      · rw [huw] at hmem hu ⊢
        have htvis : visited t = true := by
          rw [hold_of t htw] at ht
          exact ht
        obtain ⟨-, hpo⟩ := hvt (t, l) hmem ht
        obtain ⟨l0, hmem0, hrel0⟩ := inv.ffind w hw (w, po) hfind_w t hpo
        have hmem0' : (t, l0) ∈ edges w := pairing_mem hp hmem0
        have hcntle := huniq t ht
        have hleq : l = l0 := by
          by_contra hne
          have := targetCount_two hmem hmem0' hne
          omega
        rw [hleq, hunch_vis w hw', hunch_vis t ht, Int.add_comm]
        exact hrel0
    · by_cases htw : t = w
      · rw [htw] at hmem ht ⊢
        have huvis : visited u = true := by
          rw [hold_of u huw] at hu
          exact hu
        have humem : (u, l) ∈ edges w := pairing_mem hp hmem
        obtain ⟨-, hpo⟩ := hvt (u, l) humem hu
        obtain ⟨l0, hmem0, hrel0⟩ := inv.ffind w hw (w, po) hfind_w u hpo
        have hmem0' : (u, l0) ∈ edges w := pairing_mem hp hmem0
        have hcntle := huniq u hu
        have hleq : l = l0 := by
          by_contra hne
          have := targetCount_two humem hmem0' hne
          omega
        rw [hleq, hunch_vis u hu, hunch_vis w hw']
        exact hrel0
      · have huvis : visited u = true := by
          rw [hold_of u huw] at hu
          exact hu
        have htvis : visited t = true := by
          rw [hold_of t htw] at ht
          exact ht
        rw [hunch_vis u hu, hunch_vis t ht]
        exact inv.ledger u t l huvis htvis hmem
  -- rootfr
  · intro fr hfr hfr2
    rw [hst] at hfr
    rcases List.mem_append.mp hfr with hnf' | hrest
    · obtain ⟨hpw, _, _⟩ := hnf fr hnf'
      rw [hfr2] at hpw
      exact Option.noConfusion hpw
    · have hold := inv.rootfr fr (List.mem_cons_of_mem _ hrest) hfr2
      have hrnil : rest = [] := by
        have := hold.1
        injection this with h1 h2
      rw [hrnil] at hrest
      simp at hrest
  -- fcount
  · intro t p
    rw [hst, List.count_append]
    by_cases hpw : p = w
    · rw [hpw]
      have hrest0 : List.count (t, some w) rest = 0 := by
        rw [List.count_eq_zero]
        intro hmem
        have := (inv.fparent (t, some w) (List.mem_cons_of_mem _ hmem) w rfl).1
        rw [this] at hw
        exact Bool.noConfusion hw
      rw [hrest0, Nat.add_zero]
      calc List.count (t, some w) nf
          ≤ (nf.filter (fun fr => fr.1 = t)).length := count_le_filter_vertex t (some w) nf
        _ ≤ targetCount (edges w) t := hnfcnt t
    · have hnf0 : List.count (t, some p) nf = 0 := by
        rw [List.count_eq_zero]
        intro hmem
        have := (hnf (t, some p) hmem).1
        exact hpw (Option.some.inj this)
      rw [hnf0, Nat.zero_add]
      have hfc := inv.fcount t p
      rw [List.count_cons] at hfc
      split at hfc <;> omega

/-! ### Unfolding equations for the resolver loop -/

theorem resolveLoop_nil (edges : Edges) (n fuel : Nat) (value : Nat → Int)
    (visited : Nat → Bool) :
    resolveLoop edges n fuel value visited [] = some (some (fuel, value, visited)) := by
  cases fuel <;> rfl

theorem resolveLoop_zero_cons (edges : Edges) (n : Nat) (value : Nat → Int)
    (visited : Nat → Bool) (fr : Nat × Option Nat) (rest : List (Nat × Option Nat)) :
    resolveLoop edges n 0 value visited (fr :: rest) = none := rfl

theorem resolveLoop_succ_cons (edges : Edges) (n fuel : Nat) (value : Nat → Int)
    (visited : Nat → Bool) (w : Nat) (po : Option Nat) (rest : List (Nat × Option Nat)) :
    resolveLoop edges n (fuel + 1) value visited ((w, po) :: rest) =
      match scanEdges n w po (Function.update visited w true) (edges w) true value rest with
      | none => some none
      | some (value', stack') =>
        resolveLoop edges n fuel value' (Function.update visited w true) stack' := rfl

/-! ### The visited set only grows -/

theorem resolveLoop_mono {edges : Edges} {n : Nat} :
    ∀ (fuel : Nat) (value : Nat → Int) (visited : Nat → Bool)
      (stack : List (Nat × Option Nat)) (fuel' : Nat) (value' : Nat → Int)
      (visited' : Nat → Bool),
      resolveLoop edges n fuel value visited stack = some (some (fuel', value', visited')) →
      ∀ u, visited u = true → visited' u = true := by
  intro fuel
  induction fuel with
  | zero =>
    intro value visited stack fuel' value' visited' hres u hu
    cases stack with
    | nil =>
      rw [resolveLoop_nil] at hres
      cases hres
      exact hu
    | cons fr rest =>
      rw [resolveLoop_zero_cons] at hres
      exact absurd hres (by simp)
  | succ fuel ih =>
    intro value visited stack fuel' value' visited' hres u hu
    cases stack with
    | nil =>
      rw [resolveLoop_nil] at hres
      cases hres
      exact hu
    | cons fr rest =>
      rcases fr with ⟨w, po⟩
      rw [resolveLoop_succ_cons] at hres
      cases hscan : scanEdges n w po (Function.update visited w true) (edges w) true value rest with
      | none => rw [hscan] at hres; exact absurd hres (by simp)
      | some vs =>
        rcases vs with ⟨value2, stack2⟩
        rw [hscan] at hres
        refine ih value2 (Function.update visited w true) stack2 fuel' value' visited' hres u ?_
        by_cases huw : u = w
        · rw [huw, Function.update_same]
        · rw [Function.update_noteq huw]; exact hu

theorem resolveLoop_first_visited {edges : Edges} {n : Nat} {fuel : Nat}
    {value : Nat → Int} {visited : Nat → Bool} {w : Nat} {po : Option Nat}
    {rest : List (Nat × Option Nat)} {fuel' : Nat} {value' : Nat → Int}
    {visited' : Nat → Bool}
    (hres : resolveLoop edges n fuel value visited ((w, po) :: rest) =
      some (some (fuel', value', visited'))) :
    visited' w = true := by
  cases fuel with
  | zero =>
    rw [resolveLoop_zero_cons] at hres
    exact absurd hres (by simp)
  | succ fuel =>
    rw [resolveLoop_succ_cons] at hres
    cases hscan : scanEdges n w po (Function.update visited w true) (edges w) true value rest with
    | none => rw [hscan] at hres; exact absurd hres (by simp)
    | some vs =>
      rcases vs with ⟨value2, stack2⟩
      rw [hscan] at hres
      exact resolveLoop_mono fuel value2 (Function.update visited w true) stack2
        fuel' value' visited' hres w (Function.update_same w true visited)

/-! ### Counting unvisited vertices -/

theorem unvCount_update {n w : Nat} {visited : Nat → Bool}
    (hw : w < n) (hv : visited w = false) :
    unvCount n (Function.update visited w true) + 1 = unvCount n visited := by
  unfold unvCount
  rw [← List.countP_eq_length_filter, ← List.countP_eq_length_filter]
  have key : ∀ l : List Nat, l.Nodup → w ∈ l →
      l.countP (fun i => !(Function.update visited w true i)) + 1 =
      l.countP (fun i => !(visited i)) := by
    intro l
    induction l with
    | nil => intro _ hm; simp at hm
    | cons x xs ih =>
      intro hnd hm
      rw [List.countP_cons, List.countP_cons]
      rcases List.mem_cons.mp hm with rfl | hm'
      · have hxs : w ∉ xs := (List.nodup_cons.mp hnd).1
        have hagree : xs.countP (fun i => !(Function.update visited w true i)) =
            xs.countP (fun i => !(visited i)) := by
          apply countP_agree
          intro y hy
          have hyw : y ≠ w := fun heq => hxs (heq ▸ hy)
          rw [Function.update_noteq hyw]
        rw [hagree]
        have h1 : (!(Function.update visited w true w)) = false := by
          rw [Function.update_same]
          rfl
        have h2 : (!(visited w)) = true := by rw [hv]; rfl
        rw [h1, h2]
        simp
      · have hxw : x ≠ w := by
          intro heq
          exact (List.nodup_cons.mp hnd).1 (heq ▸ hm')
        have hsame : (!(Function.update visited w true x)) = (!(visited x)) := by
          rw [Function.update_noteq hxw]
        rw [hsame]
        have hih := ih (List.nodup_cons.mp hnd).2 hm'
        omega
  exact key (List.range n) (List.nodup_range n) (List.mem_range.mpr hw)

/-! ### Master theorem for the inner loop: fuel sufficiency plus invariant -/

theorem resolveLoop_master {edges : Edges} {n : Nat}
    (hn : 0 < n) (hp : Pairing edges) (hEB : EdgesBounded edges n) :
    ∀ (fuel : Nat) (value : Nat → Int) (visited : Nat → Bool)
      (stack : List (Nat × Option Nat)),
      Inv edges n value visited stack →
      (unvCount n visited < fuel → resolveLoop edges n fuel value visited stack ≠ none) ∧
      (∀ fuel' value' visited',
        resolveLoop edges n fuel value visited stack = some (some (fuel', value', visited')) →
        Inv edges n value' visited' [] ∧
        unvCount n visited' + fuel ≤ unvCount n visited + fuel') := by
  intro fuel
  induction fuel with
  | zero =>
    intro value visited stack inv
    constructor
    · intro hlt
      omega
    · intro fuel' value' visited' hres
      cases stack with
      | nil =>
        rw [resolveLoop_nil] at hres
        cases hres
        exact ⟨inv, by omega⟩
      | cons fr rest =>
        rw [resolveLoop_zero_cons] at hres
        exact absurd hres (by simp)
  | succ fuel ih =>
    intro value visited stack inv
    cases stack with
    | nil =>
      constructor
      · intro _
        rw [resolveLoop_nil]
        simp
      · intro fuel' value' visited' hres
        rw [resolveLoop_nil] at hres
        cases hres
        exact ⟨inv, by omega⟩
    | cons fr rest =>
      rcases fr with ⟨w, po⟩
      by_cases hw : visited w = true
      · have hscan := inv_step_stale inv hw
        constructor
        · intro _
          rw [resolveLoop_succ_cons, hscan]
          simp
        · intro fuel' value' visited' hres
          rw [resolveLoop_succ_cons, hscan] at hres
          exact absurd hres (by simp)
      · simp only [Bool.not_eq_true] at hw
        have hwlt : w < n := (inv.frange (w, po) (by simp)).1
        cases hscan : scanEdges n w po (Function.update visited w true) (edges w)
            true value rest with
        | none =>
          constructor
          · intro _
            rw [resolveLoop_succ_cons, hscan]
            simp
          · intro fuel' value' visited' hres
            rw [resolveLoop_succ_cons, hscan] at hres
            exact absurd hres (by simp)
        | some vs =>
          rcases vs with ⟨value2, stack2⟩
          have inv2 := inv_step_fresh hn hp hEB inv hw hscan
          have hunv := unvCount_update hwlt hw
          obtain ⟨iha, ihb⟩ := ih value2 (Function.update visited w true) stack2 inv2
          constructor
          · intro hlt
            rw [resolveLoop_succ_cons, hscan]
            exact iha (by omega)
          · intro fuel' value' visited' hres
            rw [resolveLoop_succ_cons, hscan] at hres
            obtain ⟨hi, hacc⟩ := ihb fuel' value' visited' hres
            exact ⟨hi, by omega⟩

/-! ### Master theorem for the outer root loop -/

theorem resolveRoots_master {edges : Edges} {n : Nat}
    (hn : 0 < n) (hp : Pairing edges) (hEB : EdgesBounded edges n) :
    ∀ (roots : List Nat) (fuel : Nat) (value : Nat → Int) (visited : Nat → Bool),
      Inv edges n value visited [] →
      (∀ i ∈ roots, i < n) →
      (unvCount n visited < fuel → resolveRoots edges n roots fuel value visited ≠ none) ∧
      (∀ value' visited',
        resolveRoots edges n roots fuel value visited = some (some (value', visited')) →
        Inv edges n value' visited' [] ∧
        (∀ u, visited u = true → visited' u = true) ∧
        (∀ i ∈ roots, visited' i = true)) := by
  intro roots
  induction roots with
  | nil =>
    intro fuel value visited inv hroots
    constructor
    · intro _
      simp [resolveRoots]
    · intro value' visited' hres
      unfold resolveRoots at hres
      cases hres
      exact ⟨inv, fun u hu => hu, by simp⟩
  | cons i is ih =>
    intro fuel value visited inv hroots
    have hilt : i < n := hroots i (by simp)
    by_cases hvi : visited i = true
    · obtain ⟨iha, ihb⟩ := ih fuel value visited inv (fun j hj => hroots j (by simp [hj]))
      constructor
      · intro hlt
        unfold resolveRoots
        rw [if_pos hvi]
        exact iha hlt
      · intro value' visited' hres
        unfold resolveRoots at hres
        rw [if_pos hvi] at hres
        obtain ⟨hi, hm, hall⟩ := ihb value' visited' hres
        refine ⟨hi, hm, ?_⟩
        intro j hj
        rcases List.mem_cons.mp hj with rfl | hj'
        · exact hm j hvi
        · exact hall j hj'
    · simp only [Bool.not_eq_true] at hvi
      have invp : Inv edges n (Function.update value i 0) visited [(i, none)] := by
        refine ⟨?_, ?_, ?_, ?_, ?_, ?_, ?_, ?_⟩
        · intro u hu
          have hui : u ≠ i := fun heq => by rw [heq, hvi] at hu; exact Bool.noConfusion hu
          rw [Function.update_noteq hui]
          exact inv.vrange u hu
        · intro fr hfr
          have hfr' : fr = (i, none) := by simpa using hfr
          rw [hfr']
          refine ⟨hilt, ?_, ?_⟩
          · rw [Function.update_same]
          · rw [Function.update_same]
            exact_mod_cast hn
        · intro fr hfr p hp2
          have hfr' : fr = (i, none) := by simpa using hfr
          rw [hfr'] at hp2
          exact Option.noConfusion hp2
        · intro fr hfr p hp2 _
          have hfr' : fr = (i, none) := by simpa using hfr
          rw [hfr'] at hp2
          exact Option.noConfusion hp2
        · intro x hx fr hfind p hp2
          have hfr := List.mem_of_find?_eq_some hfind
          have hfr' : fr = (i, none) := by simpa using hfr
          rw [hfr'] at hp2
          exact Option.noConfusion hp2
        · intro u t l hu ht hmem
          have hui : u ≠ i := fun heq => by rw [heq, hvi] at hu; exact Bool.noConfusion hu
          have hti : t ≠ i := fun heq => by rw [heq, hvi] at ht; exact Bool.noConfusion ht
          rw [Function.update_noteq hui, Function.update_noteq hti]
          exact inv.ledger u t l hu ht hmem
        · intro fr hfr hfr2
          have hfr' : fr = (i, none) := by simpa using hfr
          exact ⟨by rw [hfr'], by rw [hfr']; exact hvi⟩
        · intro t p
          have hz : List.count (t, some p) [(i, none)] = 0 := by
            rw [List.count_eq_zero]
            simp
          rw [hz]
          exact Nat.zero_le _
      obtain ⟨la, lb⟩ := resolveLoop_master hn hp hEB fuel
        (Function.update value i 0) visited [(i, none)] invp
      constructor
      · intro hlt
        unfold resolveRoots
        rw [if_neg (by simp [hvi])]
        cases hloop : resolveLoop edges n fuel (Function.update value i 0) visited
            [(i, none)] with
        | none => exact absurd hloop (la hlt)
        | some r =>
          cases r with
          | none => simp
          | some triple =>
            rcases triple with ⟨fuel2, value2, visited2⟩
            obtain ⟨inv2, hacc⟩ := lb fuel2 value2 visited2 hloop
            obtain ⟨iha2, _⟩ := ih fuel2 value2 visited2 inv2
              (fun j hj => hroots j (by simp [hj]))
            exact iha2 (by omega)
      · intro value' visited' hres
        unfold resolveRoots at hres
        rw [if_neg (by simp [hvi])] at hres
        cases hloop : resolveLoop edges n fuel (Function.update value i 0) visited
            [(i, none)] with
        | none => rw [hloop] at hres; exact absurd hres (by simp)
        | some r =>
          cases r with
          | none => rw [hloop] at hres; exact absurd hres (by simp)
          | some triple =>
            rcases triple with ⟨fuel2, value2, visited2⟩
            rw [hloop] at hres
            obtain ⟨inv2, hacc⟩ := lb fuel2 value2 visited2 hloop
            have hm2 := resolveLoop_mono fuel (Function.update value i 0) visited
              [(i, none)] fuel2 value2 visited2 hloop
            have hvi2 : visited2 i = true := resolveLoop_first_visited hloop
            obtain ⟨_, ihb2⟩ := ih fuel2 value2 visited2 inv2
              (fun j hj => hroots j (by simp [hj]))
            obtain ⟨hi, hm3, hall⟩ := ihb2 value' visited' hres
            refine ⟨hi, ?_, ?_⟩
            · intro u hu
              exact hm3 u (hm2 u hu)
            · intro j hj
              rcases List.mem_cons.mp hj with rfl | hj'
              · exact hm3 j hvi2
              · exact hall j hj'

/-! ### Consequences for graph_resolve -/

theorem unvCount_false (n : Nat) : unvCount n (fun _ => false) = n := by
  unfold unvCount
  simp

theorem inv_initial (edges : Edges) (n : Nat) :
    Inv edges n (fun _ => (-1 : Int)) (fun _ => false) [] := by
  refine ⟨?_, ?_, ?_, ?_, ?_, ?_, ?_, ?_⟩ <;> simp

theorem graph_resolve_fuel {edges : Edges} {n : Nat}
    (hn : 0 < n) (hp : Pairing edges) (hEB : EdgesBounded edges n)
    {fuel : Nat} (hf : n < fuel) :
    graph_resolve edges n fuel ≠ none := by
  unfold graph_resolve
  have hm := (resolveRoots_master hn hp hEB (List.range n) fuel (fun _ => (-1 : Int))
    (fun _ => false) (inv_initial edges n) (fun i hi => List.mem_range.mp hi)).1
  exact hm (by rw [unvCount_false]; exact hf)

theorem graph_resolve_success {edges : Edges} {n : Nat} {fuel : Nat}
    {value' : Nat → Int} {visited' : Nat → Bool}
    (hn : 0 < n) (hp : Pairing edges) (hEB : EdgesBounded edges n) (hED : EdgesDom edges n)
    (hres : graph_resolve edges n fuel = some (some (value', visited'))) :
    (∀ i, i < n → visited' i = true) ∧
    (∀ i, visited' i = true → 0 ≤ value' i ∧ value' i < (n : Int)) ∧
    (∀ u t l, (t, l) ∈ edges u → (value' u + value' t) % (n : Int) = l % (n : Int)) := by
  unfold graph_resolve at hres
  obtain ⟨_, hb⟩ := resolveRoots_master hn hp hEB (List.range n) fuel (fun _ => (-1 : Int))
    (fun _ => false) (inv_initial edges n) (fun i hi => List.mem_range.mp hi)
  obtain ⟨hi, _, hall⟩ := hb value' visited' hres
  refine ⟨fun i hlt => hall i (List.mem_range.mpr hlt), hi.vrange, ?_⟩
  intro u t l hmem
  have hu_lt : u < n := hED u (List.ne_nil_of_mem hmem)
  have ht_lt : t < n := hEB u (t, l) hmem
  exact hi.ledger u t l (hall u (List.mem_range.mpr hu_lt))
    (hall t (List.mem_range.mpr ht_lt)) hmem

end HashC

namespace HashC

variable {α : Type}

/-! ### Structural facts about graph_connect / graph_biconnect -/

theorem graph_connect_count (edges : Edges) (u t : Nat) (l : Int) (x : Nat) (e : Nat × Int) :
    List.count e (graph_connect edges u t l x) =
      List.count e (edges x) + (if x = u ∧ e.1 = t ∧ e.2 = l then 1 else 0) := by
  unfold graph_connect
  by_cases hx : x = u
  · rw [if_pos hx, List.count_append]
    by_cases he : e.1 = t ∧ e.2 = l
    · rw [if_pos ⟨hx, he⟩]
      have : e = (t, l) := Prod.ext he.1 he.2
      simp [this]
    · rw [if_neg (fun hcon => he hcon.2)]
      have : e ≠ (t, l) := fun hcon => he (by rw [hcon]; exact ⟨rfl, rfl⟩)
      simp [List.count_singleton, this]
  · rw [if_neg hx, if_neg (fun hcon => hx hcon.1), Nat.add_zero]

theorem graph_biconnect_count (edges : Edges) (u t : Nat) (l : Int) (x : Nat) (e : Nat × Int) :
    List.count e (graph_biconnect edges u t l x) =
      List.count e (edges x) + (if x = u ∧ e.1 = t ∧ e.2 = l then 1 else 0) +
        (if x = t ∧ e.1 = u ∧ e.2 = l then 1 else 0) := by
  unfold graph_biconnect
  rw [graph_connect_count, graph_connect_count]

theorem pairing_biconnect {edges : Edges} (hp : Pairing edges) (u t : Nat) (l : Int) :
    Pairing (graph_biconnect edges u t l) := by
  intro a b m
  rw [graph_biconnect_count, graph_biconnect_count, hp a b m]
  have hswap : ∀ (c1 c2 d1 d2 : Prop) [Decidable c1] [Decidable c2] [Decidable d1]
      [Decidable d2], (c1 ↔ d2) → (c2 ↔ d1) → ∀ z : Nat,
      z + (if c1 then 1 else 0) + (if c2 then 1 else 0) =
      z + (if d1 then 1 else 0) + (if d2 then 1 else 0) := by
    intro c1 c2 d1 d2 _ _ _ _ h1 h2 z
    rw [if_congr h1 rfl rfl, if_congr h2 rfl rfl]
    omega
  refine hswap _ _ _ _ ?_ ?_ _
  · constructor
    · rintro ⟨h1, h2, h3⟩
      exact ⟨h2, h1, h3⟩
    · rintro ⟨h1, h2, h3⟩
      exact ⟨h2, h1, h3⟩
  · constructor
    · rintro ⟨h1, h2, h3⟩
      exact ⟨h2, h1, h3⟩
    · rintro ⟨h1, h2, h3⟩
      exact ⟨h2, h1, h3⟩

theorem graph_connect_sub (edges : Edges) (u t : Nat) (l : Int) (x : Nat) :
    ∃ ext, graph_connect edges u t l x = edges x ++ ext := by
  unfold graph_connect
  by_cases hx : x = u
  · rw [if_pos hx]
    exact ⟨[(t, l)], rfl⟩
  · rw [if_neg hx]
    exact ⟨[], (List.append_nil _).symm⟩

theorem graph_biconnect_sub (edges : Edges) (u t : Nat) (l : Int) (x : Nat) :
    ∃ ext, graph_biconnect edges u t l x = edges x ++ ext := by
  unfold graph_biconnect
  obtain ⟨e1, he1⟩ := graph_connect_sub edges u t l x
  obtain ⟨e2, he2⟩ := graph_connect_sub (graph_connect edges u t l) t u l x
  rw [he2, he1, List.append_assoc]
  exact ⟨e1 ++ e2, rfl⟩

theorem graph_biconnect_mem (edges : Edges) (u t : Nat) (l : Int) :
    (t, l) ∈ graph_biconnect edges u t l u := by
  obtain ⟨e2, he2⟩ := graph_connect_sub (graph_connect edges u t l) t u l u
  rw [graph_biconnect, he2]
  refine List.mem_append.mpr (Or.inl ?_)
  unfold graph_connect
  rw [if_pos rfl]
  simp

theorem graph_biconnect_mem_rev (edges : Edges) (u t : Nat) (l : Int) :
    (u, l) ∈ graph_biconnect edges u t l t := by
  unfold graph_biconnect graph_connect
  rw [if_pos rfl]
  simp

theorem edgesBounded_biconnect {edges : Edges} {n u t : Nat} (hEB : EdgesBounded edges n)
    (hu : u < n) (ht : t < n) (l : Int) : EdgesBounded (graph_biconnect edges u t l) n := by
  intro x e he
  unfold graph_biconnect graph_connect at he
  split at he
  · rcases List.mem_append.mp he with he' | he1
    · split at he'
      · rcases List.mem_append.mp he' with he'' | he2
        · exact hEB x e he''
        · have : e = (t, l) := by simpa using he2
          rw [this]
          exact ht
      · exact hEB x e he'
    · have : e = (u, l) := by simpa using he1
      rw [this]
      exact hu
  · split at he
    · rcases List.mem_append.mp he with he'' | he2
      · exact hEB x e he''
      · have : e = (t, l) := by simpa using he2
        rw [this]
        exact ht
    · exact hEB x e he

theorem edgesDom_biconnect {edges : Edges} {n u t : Nat} (hED : EdgesDom edges n)
    (hu : u < n) (ht : t < n) (l : Int) : EdgesDom (graph_biconnect edges u t l) n := by
  intro x hne
  by_cases hxt : x = t
  · rw [hxt]; exact ht
  by_cases hxu : x = u
  · rw [hxu]; exact hu
  apply hED x
  intro hemp
  unfold graph_biconnect graph_connect at hne
  rw [if_neg hxt, if_neg hxu, hemp] at hne
  exact hne rfl

/-! ### The drawing hash preserves the modulus and stays below it -/

theorem hash_function_hash_n (f : HashFunction) (seed : Seed) (k : Nat) (key : Key) :
    (hash_function_hash f seed k key).2.1.n = f.n := by
  unfold hash_function_hash
  exact saltExtend_n f seed k key.length

theorem hash_function_hash_lt {f : HashFunction} (hn : 0 < f.n) (seed : Seed) (k : Nat)
    (key : Key) : (hash_function_hash f seed k key).1 < f.n := by
  unfold hash_function_hash
  simp only
  rw [saltExtend_n]
  exact Nat.mod_lt _ hn

theorem hash_function_hash_salt (f : HashFunction) (seed : Seed) (k : Nat) (key : Key) :
    ∃ ext, (hash_function_hash f seed k key).2.1.salt = f.salt ++ ext := by
  unfold hash_function_hash
  exact saltExtend_salt f seed k key.length

theorem hash_function_hash_covers (f : HashFunction) (seed : Seed) (k : Nat) (key : Key) :
    key.length ≤ (hash_function_hash f seed k key).2.1.salt.length := by
  unfold hash_function_hash
  exact saltExtend_length f seed k key.length

/-- `hash_function_hash_const` only looks at the first `key.length` salt
entries and the modulus, so later salt extension does not change it. -/
theorem hash_function_hash_const_stable {f g : HashFunction} {key : Key}
    (hsalt : ∃ ext, g.salt = f.salt ++ ext) (hnn : g.n = f.n)
    (hlen : key.length ≤ f.salt.length) :
    hash_function_hash_const g key = hash_function_hash_const f key := by
  obtain ⟨ext, hext⟩ := hsalt
  unfold hash_function_hash_const
  rw [hext, hnn, hashSum_append key f.salt ext hlen]

/-! ### The per-iteration build of the edge set -/

theorem buildGo_edges_inv {seed : Seed} {n : Nat} (hn : 0 < n) :
    ∀ (keys : List (HashInput α)) (i0 : Nat) (edges : Edges) (f1 f2 : HashFunction) (k : Nat),
      f1.n = n → f2.n = n →
      Pairing edges → EdgesBounded edges n → EdgesDom edges n →
      Pairing (buildGo seed keys i0 edges f1 f2 k).1 ∧
      EdgesBounded (buildGo seed keys i0 edges f1 f2 k).1 n ∧
      EdgesDom (buildGo seed keys i0 edges f1 f2 k).1 n := by
  intro keys
  induction keys with
  | nil =>
    intro i0 edges f1 f2 k _ _ hp hEB hED
    exact ⟨hp, hEB, hED⟩
  | cons inp rest ih =>
    intro i0 edges f1 f2 k hf1 hf2 hp hEB hED
    have hr1 : (hash_function_hash f1 seed k inp.key).1 < n := by
      rw [← hf1]
      exact hash_function_hash_lt (by rw [hf1]; exact hn) seed k inp.key
    have hr2 : (hash_function_hash f2 seed
        (hash_function_hash f1 seed k inp.key).2.2 inp.key).1 < n := by
      rw [← hf2]
      exact hash_function_hash_lt (by rw [hf2]; exact hn) seed _ inp.key
    exact ih (i0 + 1) _ _ _ _
      (by rw [hash_function_hash_n]; exact hf1)
      (by rw [hash_function_hash_n]; exact hf2)
      (pairing_biconnect hp _ _ _)
      (edgesBounded_biconnect hEB hr1 hr2 _)
      (edgesDom_biconnect hED hr1 hr2 _)

theorem buildGo_spec {seed : Seed} {n : Nat} :
    ∀ (keys : List (HashInput α)) (i0 : Nat) (edges : Edges) (f1 f2 : HashFunction) (k : Nat),
      f1.n = n → f2.n = n →
      (∃ ext, (buildGo seed keys i0 edges f1 f2 k).2.1.salt = f1.salt ++ ext) ∧
      (∃ ext, (buildGo seed keys i0 edges f1 f2 k).2.2.1.salt = f2.salt ++ ext) ∧
      (buildGo seed keys i0 edges f1 f2 k).2.1.n = n ∧
      (buildGo seed keys i0 edges f1 f2 k).2.2.1.n = n ∧
      (∀ x, ∃ ext, (buildGo seed keys i0 edges f1 f2 k).1 x = edges x ++ ext) ∧
      (∀ j, ∀ hj : j < keys.length,
        (keys.get ⟨j, hj⟩).key.length ≤ (buildGo seed keys i0 edges f1 f2 k).2.1.salt.length ∧
        (keys.get ⟨j, hj⟩).key.length ≤
          (buildGo seed keys i0 edges f1 f2 k).2.2.1.salt.length ∧
        (hash_function_hash_const (buildGo seed keys i0 edges f1 f2 k).2.2.1
            (keys.get ⟨j, hj⟩).key, ((i0 + j : Nat) : Int)) ∈
          (buildGo seed keys i0 edges f1 f2 k).1
            (hash_function_hash_const (buildGo seed keys i0 edges f1 f2 k).2.1
              (keys.get ⟨j, hj⟩).key) ∧
        (hash_function_hash_const (buildGo seed keys i0 edges f1 f2 k).2.1
            (keys.get ⟨j, hj⟩).key, ((i0 + j : Nat) : Int)) ∈
          (buildGo seed keys i0 edges f1 f2 k).1
            (hash_function_hash_const (buildGo seed keys i0 edges f1 f2 k).2.2.1
              (keys.get ⟨j, hj⟩).key)) := by
  intro keys
  induction keys with
  | nil =>
    intro i0 edges f1 f2 k hf1 hf2
    refine ⟨⟨[], (List.append_nil _).symm⟩, ⟨[], (List.append_nil _).symm⟩, hf1, hf2,
      fun x => ⟨[], (List.append_nil _).symm⟩, ?_⟩
    intro j hj
    simp at hj
  | cons inp rest ih =>
    intro i0 edges f1 f2 k hf1 hf2
    have hstep :
        buildGo seed (inp :: rest) i0 edges f1 f2 k =
          buildGo seed rest (i0 + 1)
            (graph_biconnect edges (hash_function_hash f1 seed k inp.key).1
              (hash_function_hash f2 seed (hash_function_hash f1 seed k inp.key).2.2
                inp.key).1 (i0 : Int))
            (hash_function_hash f1 seed k inp.key).2.1
            (hash_function_hash f2 seed (hash_function_hash f1 seed k inp.key).2.2
              inp.key).2.1
            (hash_function_hash f2 seed (hash_function_hash f1 seed k inp.key).2.2
              inp.key).2.2 := rfl
    obtain ⟨hs1, hs2, hn1, hn2, hmono, hkeys⟩ := ih (i0 + 1)
      (graph_biconnect edges (hash_function_hash f1 seed k inp.key).1
        (hash_function_hash f2 seed (hash_function_hash f1 seed k inp.key).2.2
          inp.key).1 (i0 : Int))
      (hash_function_hash f1 seed k inp.key).2.1
      (hash_function_hash f2 seed (hash_function_hash f1 seed k inp.key).2.2 inp.key).2.1
      (hash_function_hash f2 seed (hash_function_hash f1 seed k inp.key).2.2 inp.key).2.2
      (by rw [hash_function_hash_n]; exact hf1)
      (by rw [hash_function_hash_n]; exact hf2)
    rw [hstep]
    obtain ⟨ea, hea⟩ := hash_function_hash_salt f1 seed k inp.key
    obtain ⟨eb, heb⟩ := hash_function_hash_salt f2 seed
      (hash_function_hash f1 seed k inp.key).2.2 inp.key
    refine ⟨?_, ?_, hn1, hn2, ?_, ?_⟩
    · obtain ⟨e1, he1⟩ := hs1
      exact ⟨ea ++ e1, by rw [he1, hea, List.append_assoc]⟩
    · obtain ⟨e2, he2⟩ := hs2
      exact ⟨eb ++ e2, by rw [he2, heb, List.append_assoc]⟩
    · intro x
      obtain ⟨e1, he1⟩ := hmono x
      obtain ⟨e2, he2⟩ := graph_biconnect_sub edges (hash_function_hash f1 seed k inp.key).1
        (hash_function_hash f2 seed (hash_function_hash f1 seed k inp.key).2.2 inp.key).1
        (i0 : Int) x
      exact ⟨e2 ++ e1, by rw [he1, he2, List.append_assoc]⟩
    · intro j hj
      cases j with
      | zero =>
        have hg0 : (inp :: rest).get ⟨0, hj⟩ = inp := rfl
        rw [hg0]
        have hcov1 : inp.key.length ≤
            (hash_function_hash f1 seed k inp.key).2.1.salt.length :=
          hash_function_hash_covers f1 seed k inp.key
        have hcov2 : inp.key.length ≤
            (hash_function_hash f2 seed (hash_function_hash f1 seed k inp.key).2.2
              inp.key).2.1.salt.length :=
          hash_function_hash_covers f2 seed _ inp.key
        have hnn1 : (buildGo seed rest (i0 + 1)
            (graph_biconnect edges (hash_function_hash f1 seed k inp.key).1
              (hash_function_hash f2 seed (hash_function_hash f1 seed k inp.key).2.2
                inp.key).1 (i0 : Int))
            (hash_function_hash f1 seed k inp.key).2.1
            (hash_function_hash f2 seed (hash_function_hash f1 seed k inp.key).2.2
              inp.key).2.1
            (hash_function_hash f2 seed (hash_function_hash f1 seed k inp.key).2.2
              inp.key).2.2).2.1.n =
            (hash_function_hash f1 seed k inp.key).2.1.n := by
          rw [hn1, hash_function_hash_n, hf1]
        have hnn2 : (buildGo seed rest (i0 + 1)
            (graph_biconnect edges (hash_function_hash f1 seed k inp.key).1
              (hash_function_hash f2 seed (hash_function_hash f1 seed k inp.key).2.2
                inp.key).1 (i0 : Int))
            (hash_function_hash f1 seed k inp.key).2.1
            (hash_function_hash f2 seed (hash_function_hash f1 seed k inp.key).2.2
              inp.key).2.1
            (hash_function_hash f2 seed (hash_function_hash f1 seed k inp.key).2.2
              inp.key).2.2).2.2.1.n =
            (hash_function_hash f2 seed (hash_function_hash f1 seed k inp.key).2.2
              inp.key).2.1.n := by
          rw [hn2, hash_function_hash_n, hf2]
        have hc1 := (hash_function_hash_const_stable hs1 hnn1 hcov1).trans
          (hash_function_hash_const_eval f1 seed k inp.key).symm
        have hc2 := (hash_function_hash_const_stable hs2 hnn2 hcov2).trans
          (hash_function_hash_const_eval f2 seed
            (hash_function_hash f1 seed k inp.key).2.2 inp.key).symm
        obtain ⟨e1, he1⟩ := hs1
        obtain ⟨e2, he2⟩ := hs2
        refine ⟨?_, ?_, ?_, ?_⟩
        · rw [he1, List.length_append]
          omega
        · rw [he2, List.length_append]
          omega
        · rw [hc1, hc2, Nat.add_zero]
          obtain ⟨e3, he3⟩ := hmono (hash_function_hash f1 seed k inp.key).1
          rw [he3]
          exact List.mem_append.mpr (Or.inl (graph_biconnect_mem edges _ _ _))
        · rw [hc1, hc2, Nat.add_zero]
          obtain ⟨e3, he3⟩ := hmono (hash_function_hash f2 seed
            (hash_function_hash f1 seed k inp.key).2.2 inp.key).1
          rw [he3]
          exact List.mem_append.mpr (Or.inl (graph_biconnect_mem_rev edges _ _ _))
      | succ j =>
        have hj' : j < rest.length := by simpa using hj
        have hlab : ((i0 + (j + 1) : Nat) : Int) = ((i0 + 1 + j : Nat) : Int) := by
          congr 1
          omega
        have hget : (inp :: rest).get ⟨j + 1, hj⟩ = rest.get ⟨j, hj'⟩ := rfl
        rw [hget, hlab]
        exact hkeys j hj'

end HashC

namespace HashC

variable {α : Type}

/-! ### Trivial graph-state facts for the wiped (empty) graph -/

theorem pairing_empty : Pairing (fun _ => ([] : List (Nat × Int))) := by
  intro u t l
  rfl

theorem edgesBounded_empty {n : Nat} :
    EdgesBounded (fun _ => ([] : List (Nat × Int))) n := by
  intro u e he
  exact absurd he (List.not_mem_nil e)

theorem edgesDom_empty {n : Nat} :
    EdgesDom (fun _ => ([] : List (Nat × Int))) n := by
  intro u hu
  exact absurd rfl hu

theorem hash_function_hash_const_lt {f : HashFunction} (hn : 0 < f.n) (key : Key) :
    hash_function_hash_const f key < f.n :=
  Nat.mod_lt _ hn

/-! ### Facts about the growth schedule -/

theorem growStep_nv_le (nv ns : Nat) : nv ≤ (growStep nv ns).1 := by
  unfold growStep
  dsimp only
  split <;> omega

theorem growStep_ns_ge {ns : Nat} (h : 21 ≤ ns) (nv : Nat) :
    ns + 1 ≤ (growStep nv ns).2 := by
  show ns + 1 ≤ ns * 1075 / 1024
  rw [Nat.le_div_iff_mul_le (by omega : 0 < 1024)]
  omega

theorem growStep_ns_lt {nv ns vm : Nat} (h : (growStep nv ns).1 < vm) :
    (growStep nv ns).2 < 1024 * vm := by
  have h2 : ns * 1075 / 1024 / 1024 ≤ (growStep nv ns).1 := by
    unfold growStep
    dsimp only
    split <;> omega
  have h3 : ns * 1075 / 1024 / 1024 < vm := Nat.lt_of_le_of_lt h2 h
  have h4 := (Nat.div_lt_iff_lt_mul (by omega : 0 < 1024)).mp h3
  show ns * 1075 / 1024 < 1024 * vm
  omega

/-! ### The shape of a successful `createLoop` run: some iteration resolved -/

theorem createBody_success_spec {keys : List (HashInput α)} {seed : Seed}
    {recur : Nat → Nat → Nat → Nat → CreateResult α} {k nv ns iter : Nat}
    {h : Hash α} {its : Nat}
    (hrec : ∀ k' h' its',
      recur k' nv ns (iter + 1) = .success h' its' →
      ∃ k0 nv0 value visited, keys.length < nv0 ∧
        graph_resolve (buildGo seed keys 0 (fun _ => []) ⟨[], nv0⟩ ⟨[], nv0⟩ k0).1 nv0
          (resolveFuel nv0) = some (some (value, visited)) ∧
        h' = ⟨keys, (buildGo seed keys 0 (fun _ => []) ⟨[], nv0⟩ ⟨[], nv0⟩ k0).2.1,
          (buildGo seed keys 0 (fun _ => []) ⟨[], nv0⟩ ⟨[], nv0⟩ k0).2.2.1,
          (List.range nv0).map (fun i => (value i).toNat)⟩)
    (hnv : keys.length < nv)
    (hc : createBody keys seed recur k nv ns iter = .success h its) :
    ∃ k0 nv0 value visited, keys.length < nv0 ∧
      graph_resolve (buildGo seed keys 0 (fun _ => []) ⟨[], nv0⟩ ⟨[], nv0⟩ k0).1 nv0
        (resolveFuel nv0) = some (some (value, visited)) ∧
      h = ⟨keys, (buildGo seed keys 0 (fun _ => []) ⟨[], nv0⟩ ⟨[], nv0⟩ k0).2.1,
        (buildGo seed keys 0 (fun _ => []) ⟨[], nv0⟩ ⟨[], nv0⟩ k0).2.2.1,
        (List.range nv0).map (fun i => (value i).toNat)⟩ := by
  simp only [createBody] at hc
  split at hc
  · exact absurd hc (by simp)
  · exact hrec _ _ _ hc
  · next value visited heq =>
    cases hc
    exact ⟨k, nv, value, visited, hnv, heq, rfl⟩

theorem createLoop_success_spec {keys : List (HashInput α)} {seed : Seed} {vm : Nat} :
    ∀ {fuel k nv ns iter : Nat} {h : Hash α} {its : Nat},
      keys.length < nv →
      createLoop keys seed vm fuel k nv ns iter = .success h its →
      ∃ k0 nv0 value visited, keys.length < nv0 ∧
        graph_resolve (buildGo seed keys 0 (fun _ => []) ⟨[], nv0⟩ ⟨[], nv0⟩ k0).1 nv0
          (resolveFuel nv0) = some (some (value, visited)) ∧
        h = ⟨keys, (buildGo seed keys 0 (fun _ => []) ⟨[], nv0⟩ ⟨[], nv0⟩ k0).2.1,
          (buildGo seed keys 0 (fun _ => []) ⟨[], nv0⟩ ⟨[], nv0⟩ k0).2.2.1,
          (List.range nv0).map (fun i => (value i).toNat)⟩ := by
  intro fuel
  induction fuel with
  | zero =>
    intro k nv ns iter h its _ hc
    exact absurd hc (by simp [createLoop])
  | succ fuel ih =>
    intro k nv ns iter h its hnv hc
    unfold createLoop at hc
    split at hc
    · split at hc
      · exact absurd hc (by simp)
      · exact createBody_success_spec
          (fun _ _ _ hx => ih (Nat.lt_of_lt_of_le hnv (growStep_nv_le nv ns)) hx)
          (Nat.lt_of_lt_of_le hnv (growStep_nv_le nv ns)) hc
    · exact createBody_success_spec (fun _ _ _ hx => ih hnv hx) hnv hc

theorem hash_create_success_spec {inputs : HashInputs α} {seed : Seed} {fuel : Nat}
    {h : Hash α} {its : Nat}
    (hc : (hash_create inputs seed fuel).1 = .success h its) :
    ∃ k0 nv0 value visited, inputs.length < nv0 ∧
      graph_resolve (buildGo seed inputs 0 (fun _ => []) ⟨[], nv0⟩ ⟨[], nv0⟩ k0).1 nv0
        (resolveFuel nv0) = some (some (value, visited)) ∧
      h = ⟨inputs, (buildGo seed inputs 0 (fun _ => []) ⟨[], nv0⟩ ⟨[], nv0⟩ k0).2.1,
        (buildGo seed inputs 0 (fun _ => []) ⟨[], nv0⟩ ⟨[], nv0⟩ k0).2.2.1,
        (List.range nv0).map (fun i => (value i).toNat)⟩ := by
  unfold hash_create at hc
  by_cases hemp : inputs.length = 0
  · rw [if_pos hemp] at hc
    exact absurd hc (by simp)
  · rw [if_neg hemp] at hc
    split at hc
    · next h' its' heq =>
      have hinj : CreateResult.success h' its' = CreateResult.success h its := hc
      cases hinj
      exact createLoop_success_spec (by omega) heq
    · exact absurd hc (by simp)
    · exact absurd hc (by simp)

/-! ### Harvesting a successful iteration: the table is a minimal perfect hash -/

theorem values_getD {nv r : Nat} (value : Nat → Int) (hr : r < nv) :
    ((List.range nv).map (fun i => (value i).toNat)).getD r 0 = (value r).toNat := by
  rw [List.getD_eq_getElem?_getD, List.getElem?_map,
    List.getElem?_eq_getElem (by simpa using hr)]
  simp

theorem hash_lookup_eval (h : Hash α) (key : Key)
    (hguard : ¬ (key.length > h.f1.salt.length ∨ key.length > h.f2.salt.length)) :
    hash_lookup h key =
      if h.keys.length ≤ hashIndex h key then none
      else
        match h.keys[hashIndex h key]? with
        | none => none
        | some input =>
          if input.key.length ≠ key.length then none
          else if input.key = key then some input
          else none := by
  unfold hash_lookup hashIndex
  rw [if_neg hguard]

theorem table_spec {keys : List (HashInput α)} {seed : Seed} {k0 nv : Nat}
    {value : Nat → Int} {visited : Nat → Bool}
    (hnv : keys.length < nv)
    (hres : graph_resolve (buildGo seed keys 0 (fun _ => []) ⟨[], nv⟩ ⟨[], nv⟩ k0).1 nv
      (resolveFuel nv) = some (some (value, visited)))
    (j : Nat) (hj : j < keys.length) :
    hashIndex ⟨keys, (buildGo seed keys 0 (fun _ => []) ⟨[], nv⟩ ⟨[], nv⟩ k0).2.1,
        (buildGo seed keys 0 (fun _ => []) ⟨[], nv⟩ ⟨[], nv⟩ k0).2.2.1,
        (List.range nv).map (fun i => (value i).toNat)⟩ (keys.get ⟨j, hj⟩).key = j ∧
    hash_lookup ⟨keys, (buildGo seed keys 0 (fun _ => []) ⟨[], nv⟩ ⟨[], nv⟩ k0).2.1,
        (buildGo seed keys 0 (fun _ => []) ⟨[], nv⟩ ⟨[], nv⟩ k0).2.2.1,
        (List.range nv).map (fun i => (value i).toNat)⟩ (keys.get ⟨j, hj⟩).key =
      some (keys.get ⟨j, hj⟩) := by
  have hn : 0 < nv := Nat.lt_of_le_of_lt (Nat.zero_le _) hnv
  obtain ⟨hpair, hEB, hED⟩ := buildGo_edges_inv hn keys 0 (fun _ => []) ⟨[], nv⟩ ⟨[], nv⟩ k0
    rfl rfl pairing_empty edgesBounded_empty edgesDom_empty
  obtain ⟨hall, hvr, hledger⟩ := graph_resolve_success hn hpair hEB hED hres
  obtain ⟨_, _, hn1, hn2, _, hkeys⟩ :=
    @buildGo_spec α seed nv keys 0 (fun _ => []) ⟨[], nv⟩ ⟨[], nv⟩ k0 rfl rfl
  obtain ⟨hl1, hl2, hmem, _⟩ := hkeys j hj
  rw [Nat.zero_add] at hmem
  have hc1lt : hash_function_hash_const
      (buildGo seed keys 0 (fun _ => []) ⟨[], nv⟩ ⟨[], nv⟩ k0).2.1
      (keys.get ⟨j, hj⟩).key < nv := by
    have h0 : 0 < (buildGo seed keys 0 (fun _ => [])
        (⟨[], nv⟩ : HashFunction) ⟨[], nv⟩ k0).2.1.n := by
      rw [hn1]
      exact hn
    have h1 := hash_function_hash_const_lt h0 (keys.get ⟨j, hj⟩).key
    rwa [hn1] at h1
  have hc2lt : hash_function_hash_const
      (buildGo seed keys 0 (fun _ => []) ⟨[], nv⟩ ⟨[], nv⟩ k0).2.2.1
      (keys.get ⟨j, hj⟩).key < nv := by
    have h0 : 0 < (buildGo seed keys 0 (fun _ => [])
        (⟨[], nv⟩ : HashFunction) ⟨[], nv⟩ k0).2.2.1.n := by
      rw [hn2]
      exact hn
    have h1 := hash_function_hash_const_lt h0 (keys.get ⟨j, hj⟩).key
    rwa [hn2] at h1
  have hv1 := hvr _ (hall _ hc1lt)
  have hv2 := hvr _ (hall _ hc2lt)
  have hlab := hledger _ _ ((j : Nat) : Int) hmem
  have hidx : hashIndex ⟨keys, (buildGo seed keys 0 (fun _ => []) ⟨[], nv⟩ ⟨[], nv⟩ k0).2.1,
      (buildGo seed keys 0 (fun _ => []) ⟨[], nv⟩ ⟨[], nv⟩ k0).2.2.1,
      (List.range nv).map (fun i => (value i).toNat)⟩ (keys.get ⟨j, hj⟩).key = j := by
    unfold hashIndex
    dsimp only
    rw [values_getD value hc1lt, values_getD value hc2lt]
    rw [show ((List.range nv).map (fun i => (value i).toNat)).length = nv by simp]
    have hcast : ((((value (hash_function_hash_const
        (buildGo seed keys 0 (fun _ => []) ⟨[], nv⟩ ⟨[], nv⟩ k0).2.1
        (keys.get ⟨j, hj⟩).key)).toNat +
        (value (hash_function_hash_const
        (buildGo seed keys 0 (fun _ => []) ⟨[], nv⟩ ⟨[], nv⟩ k0).2.2.1
        (keys.get ⟨j, hj⟩).key)).toNat) % nv : Nat) : Int) = ((j : Nat) : Int) := by
      rw [Int.ofNat_emod]
      push_cast
      rw [Int.toNat_of_nonneg hv1.1, Int.toNat_of_nonneg hv2.1, hlab,
        Int.emod_eq_of_lt (Int.ofNat_nonneg j)
          (by exact_mod_cast (by omega : j < nv))]
    exact_mod_cast hcast
  refine ⟨hidx, ?_⟩
  have hguard : ¬ ((keys.get ⟨j, hj⟩).key.length >
      (⟨keys, (buildGo seed keys 0 (fun _ => []) ⟨[], nv⟩ ⟨[], nv⟩ k0).2.1,
        (buildGo seed keys 0 (fun _ => []) ⟨[], nv⟩ ⟨[], nv⟩ k0).2.2.1,
        (List.range nv).map (fun i => (value i).toNat)⟩ : Hash α).f1.salt.length ∨
      (keys.get ⟨j, hj⟩).key.length >
      (⟨keys, (buildGo seed keys 0 (fun _ => []) ⟨[], nv⟩ ⟨[], nv⟩ k0).2.1,
        (buildGo seed keys 0 (fun _ => []) ⟨[], nv⟩ ⟨[], nv⟩ k0).2.2.1,
        (List.range nv).map (fun i => (value i).toNat)⟩ : Hash α).f2.salt.length) := by
    dsimp only
    push_neg
    exact ⟨hl1, hl2⟩
  rw [hash_lookup_eval _ _ hguard, hidx]
  dsimp only
  rw [if_neg (by omega : ¬ keys.length ≤ j), List.getElem?_eq_getElem hj]
  dsimp only
  have hgg : keys[j] = keys.get ⟨j, hj⟩ := rfl
  rw [hgg, if_neg (fun hcon => hcon rfl), if_pos rfl]

/-- **C1.** For every input set of `K ≥ 1` pairwise-distinct keys on which
`hash_create` succeeds, the resulting table is a minimal perfect hash: looking
up the `j`-th added key returns exactly the record that was added for it, the
probed slot index `(values[H1(key)] + values[H2(key)]) mod n` of the `j`-th
key is `j`, and `key ↦ hashIndex` is a bijection from the key set onto
`[0, K)`. -/
theorem C1_minimal_perfect_hash (inputs : HashInputs α) (seed : Seed) (fuel : Nat)
    (h : Hash α) (its : Nat)
    (hK : 1 ≤ inputs.length)
    (hdist : inputs.Pairwise (fun a b => a.key ≠ b.key))
    (hc : (hash_create inputs seed fuel).1 = .success h its) :
    (∀ j, ∀ hj : j < inputs.length,
      hash_lookup h ((inputs.get ⟨j, hj⟩).key) = some (inputs.get ⟨j, hj⟩) ∧
      hashIndex h ((inputs.get ⟨j, hj⟩).key) = j) ∧
    Set.BijOn (hashIndex h) {q | q ∈ inputs.map HashInput.key}
      {i | i < inputs.length} := by
  obtain ⟨k0, nv0, value, visited, hnv, hres, hh⟩ := hash_create_success_spec hc
  subst hh
  constructor
  · intro j hj
    obtain ⟨hidx, hlook⟩ := table_spec hnv hres j hj
    exact ⟨hlook, hidx⟩
  · refine ⟨?_, ?_, ?_⟩
    · intro q hq
      obtain ⟨inp, hinp, hkey⟩ := List.mem_map.mp hq
      obtain ⟨⟨j, hj⟩, hget⟩ := List.mem_iff_get.mp hinp
      have := (table_spec hnv hres j hj).1
      rw [hget, hkey] at this
      show _ < inputs.length
      omega
    · intro q1 hq1 q2 hq2 heq
      obtain ⟨inp1, hinp1, hkey1⟩ := List.mem_map.mp hq1
      obtain ⟨⟨j1, hj1⟩, hget1⟩ := List.mem_iff_get.mp hinp1
      obtain ⟨inp2, hinp2, hkey2⟩ := List.mem_map.mp hq2
      obtain ⟨⟨j2, hj2⟩, hget2⟩ := List.mem_iff_get.mp hinp2
      have h1 := (table_spec hnv hres j1 hj1).1
      have h2 := (table_spec hnv hres j2 hj2).1
      rw [hget1, hkey1] at h1
      rw [hget2, hkey2] at h2
      have hj12 : j1 = j2 := by rw [← h1, ← h2, heq]
      have hfin : (⟨j1, hj1⟩ : Fin inputs.length) = ⟨j2, hj2⟩ := Fin.ext hj12
      calc q1 = inp1.key := hkey1.symm
        _ = (inputs.get ⟨j1, hj1⟩).key := by rw [hget1]
        _ = (inputs.get ⟨j2, hj2⟩).key := by rw [hfin]
        _ = inp2.key := by rw [hget2]
        _ = q2 := hkey2
    · intro i hi
      have hi' : i < inputs.length := hi
      refine ⟨(inputs.get ⟨i, hi'⟩).key, ?_, ?_⟩
      · exact List.mem_map.mpr ⟨inputs.get ⟨i, hi'⟩, List.get_mem inputs i hi', rfl⟩
      · exact (table_spec hnv hres i hi').1

/-- Witness for C1: the one-key build over key `[1]` with the identity PRNG
stream succeeds and yields the table `⟨[0], 2⟩ / ⟨[1], 2⟩ / values [0,0]`;
the key looks up to its own record at slot 0. -/
theorem C1_minimal_perfect_hash_witness :
    hash_lookup (⟨[⟨[1], 0⟩], ⟨[0], 2⟩, ⟨[1], 2⟩, [0, 0]⟩ : Hash Nat) [1] =
      some ⟨[1], 0⟩ ∧
    hashIndex (⟨[⟨[1], 0⟩], ⟨[0], 2⟩, ⟨[1], 2⟩, [0, 0]⟩ : Hash Nat) [1] = 0 :=
  (C1_minimal_perfect_hash [⟨[1], 0⟩] (fun n => n) 1
    ⟨[⟨[1], 0⟩], ⟨[0], 2⟩, ⟨[1], 2⟩, [0, 0]⟩ 1
    (by decide) (by simp) (by rfl)).1 0 (by decide)

/-! ### Termination of the build loop: the embedding fuel never runs out -/

theorem createBody_ne_oof {keys : List (HashInput α)} {seed : Seed}
    {recur : Nat → Nat → Nat → Nat → CreateResult α} {k nv ns iter : Nat}
    (hnv : keys.length < nv)
    (hrec : recur (buildGo seed keys 0 (fun _ => []) ⟨[], nv⟩ ⟨[], nv⟩ k).2.2.2 nv ns
      (iter + 1) ≠ .outOfFuel) :
    createBody keys seed recur k nv ns iter ≠ .outOfFuel := by
  have hn : 0 < nv := by omega
  obtain ⟨hpair, hEB, _⟩ := @buildGo_edges_inv α seed nv hn keys 0 (fun _ => [])
    ⟨[], nv⟩ ⟨[], nv⟩ k rfl rfl pairing_empty edgesBounded_empty edgesDom_empty
  have hrf := graph_resolve_fuel hn hpair hEB
    (show nv < resolveFuel nv by unfold resolveFuel; omega)
  intro hc
  simp only [createBody] at hc
  split at hc
  · next heq => exact hrf heq
  · exact hrec hc
  · exact absurd hc (by simp)

theorem createLoop_ne_oof {keys : List (HashInput α)} {seed : Seed} {vm : Nat} :
    ∀ {fuel k nv ns iter : Nat},
      keys.length < nv → 21 ≤ ns →
      5 * (1024 * vm - ns) + (5 - iter % 5) % 5 + (if iter = 0 then 5 else 0) + 1 ≤ fuel →
      createLoop keys seed vm fuel k nv ns iter ≠ .outOfFuel := by
  intro fuel
  induction fuel with
  | zero =>
    intro k nv ns iter hnv hns hfu
    split at hfu <;> omega
  | succ fuel ih =>
    intro k nv ns iter hnv hns hfu
    unfold createLoop
    split
    · next hgrow =>
      split
      · simp
      · next hfail =>
        apply createBody_ne_oof (Nat.lt_of_lt_of_le hnv (growStep_nv_le nv ns))
        apply ih (Nat.lt_of_lt_of_le hnv (growStep_nv_le nv ns))
          (by have := growStep_ns_ge hns nv; omega)
        have hg1 := growStep_ns_ge hns nv
        have hg2 := growStep_ns_lt (show (growStep nv ns).1 < vm by omega)
        split at hfu <;> split <;> omega
    · next hngrow =>
      apply createBody_ne_oof hnv
      apply ih hnv hns
      split at hfu <;> split <;> omega

theorem hash_create_ne_oof (inputs : HashInputs α) (seed : Seed) :
    (hash_create inputs seed (createFuel inputs.length)).1 ≠ .outOfFuel := by
  unfold hash_create
  by_cases hemp : inputs.length = 0
  · rw [if_pos hemp]
    simp
  · rw [if_neg hemp]
    split
    · simp
    · simp
    · next heq =>
      exact absurd heq
        (createLoop_ne_oof (by omega) (by omega) (by unfold createFuel; split <;> omega))

/-- **C4.** `hash_create` terminates for every input: with the fuel bound
`createFuel K` derived from the growth schedule (`n_scaled` gains at least 1
every fifth iteration and the loop aborts once the grown order reaches
`vertices_max = 650 * (K + 1)`), the build loop never exhausts its fuel — it
either succeeds or returns failure; it never diverges. -/
theorem C4_termination (inputs : HashInputs α) (seed : Seed) :
    (hash_create inputs seed (createFuel inputs.length)).1 ≠ .outOfFuel :=
  hash_create_ne_oof inputs seed

/-- Witness for C4 at a concrete one-key input. -/
theorem C4_termination_witness :
    (hash_create [⟨[1], (0 : Nat)⟩] (fun n => n) (createFuel 1)).1 ≠ .outOfFuel :=
  C4_termination [⟨[1], 0⟩] (fun n => n)

end HashC

namespace HashC

variable {α : Type}

/-! ### C9: the one-key first-iteration claim

The first iteration hashes the key with both functions over `n = 2`.  A key
whose single byte is `0` sums to `0` under every salt, so both hashes are
vertex `0`: the edge is a self-loop, `graph_resolve` reports a cycle, and the
first iteration never succeeds — for any PRNG stream.  The claim as stated
("for every input set containing exactly one key") is therefore false; it
holds for keys that the two salted hashes send to distinct vertices, and the
amended theorem keeps its content conditional on first-iteration success. -/

theorem c9_resolve_selfloop (k : Nat) :
    graph_resolve
      (buildGo (fun _ => 0) [⟨[0], (0 : Nat)⟩] 0 (fun _ => []) ⟨[], 2⟩ ⟨[], 2⟩ k).1 2
      (resolveFuel 2) = some none := rfl

theorem createLoop_c9_step {vm fuel k ns : Nat} {h : Hash Nat} {its : Nat}
    (hc : createLoop [⟨[0], (0 : Nat)⟩] (fun _ => 0) vm (fuel + 1) k 2 ns 0 =
      .success h its) :
    2 ≤ its := by
  unfold createLoop at hc
  rw [if_neg (by decide)] at hc
  simp only [createBody] at hc
  rw [c9_resolve_selfloop] at hc
  have := createLoop_iter_lt hc
  omega

/-- **C9, counterexample.**  It is not the case that every one-key input set
builds successfully on the first iteration (with `n = 2` and slot 0): the
one-byte key `[0]` hashes to `0` under both salted functions no matter what
the PRNG yields, the edge is a self-loop, and the first iteration always
fails to resolve. -/
theorem C9_counterexample :
    ¬ ∀ (inp : HashInput Nat) (seed : Seed),
        ∃ h : Hash Nat,
          (hash_create [inp] seed (createFuel 1)).1 = .success h 1 ∧
          h.values.length = 2 ∧ hashIndex h inp.key = 0 := by
  intro hP
  obtain ⟨h, hc, _, _⟩ := hP ⟨[0], 0⟩ (fun _ => 0)
  unfold hash_create at hc
  rw [if_neg (by simp)] at hc
  split at hc
  · next h' its' heq =>
    have hinj : CreateResult.success h' its' = CreateResult.success h 1 := hc
    cases hinj
    have heq2 : createLoop [⟨[0], (0 : Nat)⟩] (fun _ => 0) 1300 (6656005 + 1) 0 2
        2048 0 = .success h 1 := heq
    have := createLoop_c9_step heq2
    omega
  · exact absurd hc (by simp)
  · exact absurd hc (by simp)

theorem createLoop_first_success {keys : List (HashInput α)} {seed : Seed} {vm : Nat}
    {fuel k nv ns : Nat} {h : Hash α}
    (hc : createLoop keys seed vm fuel k nv ns 0 = .success h 1) :
    ∃ value visited,
      graph_resolve (buildGo seed keys 0 (fun _ => []) ⟨[], nv⟩ ⟨[], nv⟩ k).1 nv
        (resolveFuel nv) = some (some (value, visited)) ∧
      h = ⟨keys, (buildGo seed keys 0 (fun _ => []) ⟨[], nv⟩ ⟨[], nv⟩ k).2.1,
        (buildGo seed keys 0 (fun _ => []) ⟨[], nv⟩ ⟨[], nv⟩ k).2.2.1,
        (List.range nv).map (fun i => (value i).toNat)⟩ := by
  cases fuel with
  | zero => exact absurd hc (by simp [createLoop])
  | succ fuel =>
    unfold createLoop at hc
    rw [if_neg (by decide)] at hc
    simp only [createBody] at hc
    split at hc
    · exact absurd hc (by simp)
    · have := createLoop_iter_lt hc
      omega
    · next value visited heq =>
      cases hc
      exact ⟨value, visited, heq, rfl⟩

/-- **C9, amended.**  For a one-key input set on which `hash_create` succeeds
on the first build iteration, the graph order was still the initial
`n = K + 1 = 2`, so the table has exactly two value slots, the single key's
probed index `(values[H1(key)] + values[H2(key)]) mod 2` is `0`, and looking
the key up returns its record. -/
theorem C9_single_key_first_iteration (inp : HashInput α) (seed : Seed) (fuel : Nat)
    (h : Hash α)
    (hc : (hash_create [inp] seed fuel).1 = .success h 1) :
    h.values.length = 2 ∧ hashIndex h inp.key = 0 ∧
    hash_lookup h inp.key = some inp := by
  unfold hash_create at hc
  rw [if_neg (by simp)] at hc
  split at hc
  · next h' its' heq =>
    have hinj : CreateResult.success h' its' = CreateResult.success h 1 := hc
    cases hinj
    obtain ⟨value, visited, hres, hh⟩ := createLoop_first_success heq
    subst hh
    have hnv : ([inp] : List (HashInput α)).length < [inp].length + 1 := by simp
    obtain ⟨hidx, hlook⟩ := table_spec hnv hres 0 (by simp)
    exact ⟨by simp, hidx, hlook⟩
  · exact absurd hc (by simp)
  · exact absurd hc (by simp)

/-- Witness for the amended C9: the one-key build over key `[1]` with the
identity PRNG stream succeeds on iteration 1; its table has two slots and
maps the key to slot 0. -/
theorem C9_single_key_first_iteration_witness :
    ((⟨[⟨[1], 0⟩], ⟨[0], 2⟩, ⟨[1], 2⟩, [0, 0]⟩ : Hash Nat)).values.length = 2 ∧
    hashIndex (⟨[⟨[1], 0⟩], ⟨[0], 2⟩, ⟨[1], 2⟩, [0, 0]⟩ : Hash Nat) [1] = 0 ∧
    hash_lookup (⟨[⟨[1], 0⟩], ⟨[0], 2⟩, ⟨[1], 2⟩, [0, 0]⟩ : Hash Nat) [1] =
      some ⟨[1], 0⟩ :=
  C9_single_key_first_iteration ⟨[1], 0⟩ (fun n => n) 1
    ⟨[⟨[1], 0⟩], ⟨[0], 2⟩, ⟨[1], 2⟩, [0, 0]⟩ (by rfl)

/-! ### C10: byte-identical duplicate keys make every iteration fail -/

theorem hash_create_duplicate_not_success (inputs : HashInputs α) (seed : Seed)
    (j1 j2 : Nat) (hj1 : j1 < inputs.length) (hj2 : j2 < inputs.length)
    (hne : j1 ≠ j2)
    (heqk : (inputs.get ⟨j1, hj1⟩).key = (inputs.get ⟨j2, hj2⟩).key)
    (fuel : Nat) :
    (hash_create inputs seed fuel).1.isSuccess = false := by
  cases hcr : (hash_create inputs seed fuel).1 with
  | failure => rfl
  | outOfFuel => rfl
  | success h its =>
    exfalso
    obtain ⟨k0, nv0, value, visited, hnv, hres, hh⟩ := hash_create_success_spec hcr
    have hn : 0 < nv0 := by omega
    obtain ⟨hpair, hEB, hED⟩ := @buildGo_edges_inv α seed nv0 hn inputs 0 (fun _ => [])
      ⟨[], nv0⟩ ⟨[], nv0⟩ k0 rfl rfl pairing_empty edgesBounded_empty edgesDom_empty
    obtain ⟨_, _, hledger⟩ := graph_resolve_success hn hpair hEB hED hres
    obtain ⟨_, _, _, _, _, hkeys⟩ :=
      @buildGo_spec α seed nv0 inputs 0 (fun _ => []) ⟨[], nv0⟩ ⟨[], nv0⟩ k0 rfl rfl
    obtain ⟨_, _, hmem1, _⟩ := hkeys j1 hj1
    obtain ⟨_, _, hmem2, _⟩ := hkeys j2 hj2
    rw [Nat.zero_add] at hmem1 hmem2
    rw [heqk] at hmem1
    have hl1 := hledger _ _ _ hmem1
    have hl2 := hledger _ _ _ hmem2
    have hj12 : ((j1 : Nat) : Int) % (nv0 : Int) = ((j2 : Nat) : Int) % (nv0 : Int) := by
      rw [← hl1, ← hl2]
    have e1 : ((j1 : Nat) : Int) % (nv0 : Int) = ((j1 : Nat) : Int) :=
      Int.emod_eq_of_lt (Int.ofNat_nonneg _)
        (by exact_mod_cast (by omega : j1 < nv0))
    have e2 : ((j2 : Nat) : Int) % (nv0 : Int) = ((j2 : Nat) : Int) :=
      Int.emod_eq_of_lt (Int.ofNat_nonneg _)
        (by exact_mod_cast (by omega : j2 < nv0))
    have : ((j1 : Nat) : Int) = ((j2 : Nat) : Int) := by
      rw [← e1, hj12, e2]
    exact hne (by exact_mod_cast this)

/-- **C10.** An input set with two byte-identical keys can never be built:
the duplicates hash to the same vertex pair in every iteration, the resulting
doubled edges carry the two distinct key indices as labels, and a successful
resolution would force those labels to agree modulo `n` — impossible since
both are below `n`.  So no amount of fuel yields a table, and with the
sufficient fuel `createFuel K` the loop runs into the growth ceiling and
returns failure (`NULL`). -/
theorem C10_duplicate_keys_fail (inputs : HashInputs α) (seed : Seed)
    (j1 j2 : Nat) (hj1 : j1 < inputs.length) (hj2 : j2 < inputs.length)
    (hne : j1 ≠ j2)
    (heqk : (inputs.get ⟨j1, hj1⟩).key = (inputs.get ⟨j2, hj2⟩).key) :
    (∀ fuel, (hash_create inputs seed fuel).1.isSuccess = false) ∧
    (hash_create inputs seed (createFuel inputs.length)).1 = .failure := by
  have hns := hash_create_duplicate_not_success inputs seed j1 j2 hj1 hj2 hne heqk
  refine ⟨hns, ?_⟩
  have hnoof := hash_create_ne_oof inputs seed
  cases hcr : (hash_create inputs seed (createFuel inputs.length)).1 with
  | failure => rfl
  | outOfFuel => exact absurd hcr hnoof
  | success h its =>
    have := hns (createFuel inputs.length)
    rw [hcr] at this
    exact absurd this (by simp [CreateResult.isSuccess])

/-- Witness for C10: adding the key `[1]` twice; the build with the
sufficient fuel returns failure. -/
theorem C10_duplicate_keys_fail_witness :
    (hash_create [⟨[1], (0 : Nat)⟩, ⟨[1], 1⟩] (fun n => n) (createFuel 2)).1 =
      .failure :=
  (C10_duplicate_keys_fail ([⟨[1], 0⟩, ⟨[1], 1⟩] : HashInputs Nat) (fun n => n) 0 1
    (by decide) (by decide) (by decide) (by rfl)).2

end HashC

namespace HashC

/-! ### Structure of `buildGraph` -/

theorem sameEnds_iff {e : Nat × Nat × Int} {a b : Nat} :
    sameEnds e a b = true ↔ ((e.1 = a ∧ e.2.1 = b) ∨ (e.1 = b ∧ e.2.1 = a)) := by
  unfold sameEnds
  exact decide_eq_true_iff

theorem pairCount_cons (e : Nat × Nat × Int) (es : List (Nat × Nat × Int)) (a b : Nat) :
    pairCount (e :: es) a b =
      pairCount es a b + (if sameEnds e a b = true then 1 else 0) := by
  unfold pairCount
  rw [List.filter_cons]
  split
  · simp [Nat.add_comm]
  · simp

theorem pairCount_comm (es : List (Nat × Nat × Int)) (a b : Nat) :
    pairCount es a b = pairCount es b a := by
  unfold pairCount
  congr 1
  apply List.filter_congr
  intro e _
  simp only [sameEnds, decide_eq_decide]
  tauto

theorem mem_biconnect_iff (g : Edges) (a b : Nat) (l0 : Int) (u t : Nat) (l : Int) :
    (t, l) ∈ graph_biconnect g a b l0 u ↔
      (t, l) ∈ g u ∨ (u = a ∧ t = b ∧ l = l0) ∨ (u = b ∧ t = a ∧ l = l0) := by
  unfold graph_biconnect graph_connect
  by_cases hub : u = b
  · subst hub
    by_cases hua : u = a
    · rw [if_pos rfl, if_pos hua]
      subst hua
      simp only [List.mem_append, List.mem_singleton, Prod.mk.injEq]
      tauto
    · rw [if_pos rfl, if_neg hua]
      simp only [List.mem_append, List.mem_singleton, Prod.mk.injEq]
      tauto
  · rw [if_neg hub]
    by_cases hua : u = a
    · rw [if_pos hua]
      subst hua
      simp only [List.mem_append, List.mem_singleton, Prod.mk.injEq]
      tauto
    · rw [if_neg hua]
      tauto

theorem targetCount_append (l1 l2 : List (Nat × Int)) (t : Nat) :
    targetCount (l1 ++ l2) t = targetCount l1 t + targetCount l2 t := by
  unfold targetCount
  rw [List.filter_append, List.length_append]

theorem targetCount_connect (g : Edges) (a b : Nat) (l0 : Int) (u t : Nat) :
    targetCount (graph_connect g a b l0 u) t =
      targetCount (g u) t + (if u = a ∧ t = b then 1 else 0) := by
  unfold graph_connect
  by_cases hua : u = a
  · rw [if_pos hua, targetCount_append]
    have h1 : targetCount [(b, l0)] t = if t = b then 1 else 0 := by
      by_cases htb : t = b
      · subst htb
        simp [targetCount]
      · rw [if_neg htb]
        simp [targetCount, Ne.symm htb]
    rw [h1]
    by_cases htb : t = b
    · rw [if_pos htb, if_pos ⟨hua, htb⟩]
    · rw [if_neg htb, if_neg (fun hcon => htb hcon.2)]
  · rw [if_neg hua, if_neg (fun hcon => hua hcon.1), Nat.add_zero]

theorem targetCount_biconnect (g : Edges) (a b : Nat) (l0 : Int) (u t : Nat) :
    targetCount (graph_biconnect g a b l0 u) t =
      targetCount (g u) t + (if u = a ∧ t = b then 1 else 0) +
        (if u = b ∧ t = a then 1 else 0) := by
  unfold graph_biconnect
  rw [targetCount_connect, targetCount_connect]

theorem buildGraph_fold_targetCount :
    ∀ (es : List (Nat × Nat × Int)) (g : Edges) (u t : Nat),
      targetCount ((es.foldl (fun g e => graph_biconnect g e.1 e.2.1 e.2.2) g) u) t =
        targetCount (g u) t + pairCount es u t +
          (if u = t then pairCount es u t else 0) := by
  intro es
  induction es with
  | nil =>
    intro g u t
    simp [pairCount]
  | cons e es ih =>
    intro g u t
    rw [List.foldl_cons, ih, targetCount_biconnect, pairCount_cons]
    by_cases h1 : u = e.1 ∧ t = e.2.1 <;> by_cases h2 : u = e.2.1 ∧ t = e.1
    · have hut : u = t := h1.1.trans h2.2.symm
      have hs : sameEnds e u t = true := sameEnds_iff.mpr (Or.inl ⟨h1.1.symm, h1.2.symm⟩)
      rw [if_pos h1, if_pos h2, if_pos hs, if_pos hut, if_pos hut]
      omega
    · have hs : sameEnds e u t = true := sameEnds_iff.mpr (Or.inl ⟨h1.1.symm, h1.2.symm⟩)
      have hut : ¬ u = t := by
        intro he
        exact h2 ⟨by rw [he]; exact h1.2, by rw [← he]; exact h1.1⟩
      rw [if_pos h1, if_neg h2, if_pos hs, if_neg hut, if_neg hut]
      omega
    · have hs : sameEnds e u t = true := sameEnds_iff.mpr (Or.inr ⟨h2.2.symm, h2.1.symm⟩)
      have hut : ¬ u = t := by
        intro he
        exact h1 ⟨by rw [he]; exact h2.2, by rw [← he]; exact h2.1⟩
      rw [if_neg h1, if_pos h2, if_pos hs, if_neg hut, if_neg hut]
      omega
    · have hs : ¬ sameEnds e u t = true := by
        intro hcon
        rcases sameEnds_iff.mp hcon with h | h
        · exact h1 ⟨h.1.symm, h.2.symm⟩
        · exact h2 ⟨h.2.symm, h.1.symm⟩
      rw [if_neg h1, if_neg h2, if_neg hs]
      by_cases hut : u = t
      · rw [if_pos hut, if_pos hut]
        omega
      · rw [if_neg hut, if_neg hut]
        omega

theorem buildGraph_targetCount (es : List (Nat × Nat × Int)) (u t : Nat) :
    targetCount (buildGraph es u) t =
      pairCount es u t + (if u = t then pairCount es u t else 0) := by
  unfold buildGraph
  rw [buildGraph_fold_targetCount]
  simp [targetCount]

theorem buildGraph_fold_mem :
    ∀ (es : List (Nat × Nat × Int)) (g : Edges) (u t : Nat) (l : Int),
      ((t, l) ∈ (es.foldl (fun g e => graph_biconnect g e.1 e.2.1 e.2.2) g) u ↔
        (t, l) ∈ g u ∨ (u, t, l) ∈ es ∨ (t, u, l) ∈ es) := by
  intro es
  induction es with
  | nil =>
    intro g u t l
    simp
  | cons e es ih =>
    intro g u t l
    rw [List.foldl_cons, ih, mem_biconnect_iff]
    constructor
    · rintro ((hg | ⟨h1, h2, h3⟩ | ⟨h1, h2, h3⟩) | hm | hm)
      · exact Or.inl hg
      · refine Or.inr (Or.inl ?_)
        have he : (u, t, l) = e := by
          rw [h1, h2, h3]
        rw [he]
        exact List.mem_cons_self e es
      · refine Or.inr (Or.inr ?_)
        have he : (t, u, l) = e := by
          rw [h1, h2, h3]
        rw [he]
        exact List.mem_cons_self e es
      · exact Or.inr (Or.inl (List.mem_cons_of_mem e hm))
      · exact Or.inr (Or.inr (List.mem_cons_of_mem e hm))
    · rintro (hg | hm | hm)
      · exact Or.inl (Or.inl hg)
      · rcases List.mem_cons.mp hm with heq | hm'
        · exact Or.inl (Or.inr (Or.inl (by rw [← heq]; exact ⟨rfl, rfl, rfl⟩)))
        · exact Or.inr (Or.inl hm')
      · rcases List.mem_cons.mp hm with heq | hm'
        · exact Or.inl (Or.inr (Or.inr (by rw [← heq]; exact ⟨rfl, rfl, rfl⟩)))
        · exact Or.inr (Or.inr hm')

theorem buildGraph_mem (es : List (Nat × Nat × Int)) (u t : Nat) (l : Int) :
    (t, l) ∈ buildGraph es u ↔ (u, t, l) ∈ es ∨ (t, u, l) ∈ es := by
  unfold buildGraph
  rw [buildGraph_fold_mem]
  simp

theorem buildGraph_pairing (es : List (Nat × Nat × Int)) : Pairing (buildGraph es) := by
  have : ∀ (es : List (Nat × Nat × Int)) (g : Edges), Pairing g →
      Pairing (es.foldl (fun g e => graph_biconnect g e.1 e.2.1 e.2.2) g) := by
    intro es
    induction es with
    | nil => intro g hg; exact hg
    | cons e es ih =>
      intro g hg
      rw [List.foldl_cons]
      exact ih _ (pairing_biconnect hg _ _ _)
  exact this es _ pairing_empty

theorem buildGraph_bounded {es : List (Nat × Nat × Int)} {n : Nat}
    (hb : ∀ e ∈ es, e.1 < n ∧ e.2.1 < n) : EdgesBounded (buildGraph es) n := by
  have : ∀ (es : List (Nat × Nat × Int)), (∀ e ∈ es, e.1 < n ∧ e.2.1 < n) →
      ∀ (g : Edges), EdgesBounded g n →
      EdgesBounded (es.foldl (fun g e => graph_biconnect g e.1 e.2.1 e.2.2) g) n := by
    intro es
    induction es with
    | nil => intro _ g hg; exact hg
    | cons e es ih =>
      intro hbb g hg
      rw [List.foldl_cons]
      exact ih (fun x hx => hbb x (List.mem_cons_of_mem e hx)) _
        (edgesBounded_biconnect hg (hbb e (List.mem_cons_self e es)).1
          (hbb e (List.mem_cons_self e es)).2 _)
  exact this es hb _ edgesBounded_empty

theorem buildGraph_dom {es : List (Nat × Nat × Int)} {n : Nat}
    (hb : ∀ e ∈ es, e.1 < n ∧ e.2.1 < n) : EdgesDom (buildGraph es) n := by
  have : ∀ (es : List (Nat × Nat × Int)), (∀ e ∈ es, e.1 < n ∧ e.2.1 < n) →
      ∀ (g : Edges), EdgesDom g n →
      EdgesDom (es.foldl (fun g e => graph_biconnect g e.1 e.2.1 e.2.2) g) n := by
    intro es
    induction es with
    | nil => intro _ g hg; exact hg
    | cons e es ih =>
      intro hbb g hg
      rw [List.foldl_cons]
      exact ih (fun x hx => hbb x (List.mem_cons_of_mem e hx)) _
        (edgesDom_biconnect hg (hbb e (List.mem_cons_self e es)).1
          (hbb e (List.mem_cons_self e es)).2 _)
  exact this es hb _ edgesDom_empty

/-! ### Walks, paths and cycle constructors -/

theorem vpair_comm (a b : Nat) : vpair a b = vpair b a := by
  unfold vpair
  split <;> split <;> first | rfl | (rename_i h1 h2; omega) | (exact Prod.ext (by omega) (by omega))

theorem vpair_components {a b x : Nat} :
    (x = (vpair a b).1 ∨ x = (vpair a b).2) ↔ (x = a ∨ x = b) := by
  unfold vpair
  split <;> simp <;> tauto

theorem vpair_eq_iff {a b c d : Nat} :
    vpair a b = vpair c d ↔ ((a = c ∧ b = d) ∨ (a = d ∧ b = c)) := by
  unfold vpair
  split <;> split <;> simp [Prod.ext_iff] <;> omega

theorem sameEnds_pairOf {e : Nat × Nat × Int} {a b : Nat} :
    sameEnds e a b = true ↔ pairOf e = vpair a b := by
  rw [sameEnds_iff]
  unfold pairOf
  rw [vpair_eq_iff]

theorem IsWalk_append {a b d : Nat} :
    ∀ {c1 c2 : List (Nat × Nat × Int)},
      IsWalk a b c1 → IsWalk b d c2 → IsWalk a d (c1 ++ c2) := by
  intro c1
  induction c1 generalizing a with
  | nil =>
    intro c2 h1 h2
    unfold IsWalk at h1
    rw [h1]
    exact h2
  | cons e c1 ih =>
    intro c2 h1 h2
    rcases h1 with ⟨he, hw⟩ | ⟨he, hw⟩
    · exact Or.inl ⟨he, ih hw h2⟩
    · exact Or.inr ⟨he, ih hw h2⟩

theorem IsWalk_single {e : Nat × Nat × Int} {a b : Nat}
    (h : sameEnds e a b = true) : IsWalk a b [e] := by
  rcases sameEnds_iff.mp h with ⟨h1, h2⟩ | ⟨h1, h2⟩
  · exact Or.inl ⟨h1, h2⟩
  · exact Or.inr ⟨h2, h1⟩

theorem sameEnds_symm {e : Nat × Nat × Int} {a b : Nat}
    (h : sameEnds e a b = true) : sameEnds e b a = true := by
  rcases sameEnds_iff.mp h with ⟨h1, h2⟩ | ⟨h1, h2⟩
  · exact sameEnds_iff.mpr (Or.inr ⟨h1, h2⟩)
  · exact sameEnds_iff.mpr (Or.inl ⟨h1, h2⟩)

/-- A self-loop occurrence is a cycle. -/
theorem cycle_selfloop {es : List (Nat × Nat × Int)} {w : Nat} {l : Int}
    (h : (w, w, l) ∈ es) : IsCycle es [(w, w, l)] := by
  refine ⟨by simp, ?_, w, Or.inl ⟨rfl, rfl⟩⟩
  exact (List.nodup_singleton _).subperm (by simpa using h)

/-- Two occurrences on the same vertex pair form a cycle. -/
theorem cycle_parallel {es : List (Nat × Nat × Int)} {a b : Nat}
    (h : 2 ≤ pairCount es a b) : ∃ c, IsCycle es c := by
  unfold pairCount at h
  obtain ⟨e1, e2, f2, hf⟩ : ∃ e1 e2 f2,
      es.filter (fun e => sameEnds e a b) = e1 :: e2 :: f2 := by
    cases hf : es.filter (fun e => sameEnds e a b) with
    | nil => rw [hf] at h; simp at h
    | cons e1 f =>
      cases f with
      | nil => rw [hf] at h; simp at h
      | cons e2 f2 => exact ⟨e1, e2, f2, rfl⟩
  have hsub : List.Sublist [e1, e2] es := by
    have h1 : List.Sublist [e1, e2] (e1 :: e2 :: f2) :=
      List.Sublist.cons₂ e1 (List.Sublist.cons₂ e2 (List.nil_sublist f2))
    have h2 : List.Sublist (e1 :: e2 :: f2) es := by
      rw [← hf]
      exact List.filter_sublist es
    exact h1.trans h2
  have hm1 : e1 ∈ es.filter (fun e => sameEnds e a b) := by
    rw [hf]
    exact List.mem_cons_self _ _
  have hm2 : e2 ∈ es.filter (fun e => sameEnds e a b) := by
    rw [hf]
    exact List.mem_cons_of_mem _ (List.mem_cons_self _ _)
  have hs1 : sameEnds e1 a b = true := by
    have := List.mem_filter.mp hm1
    simpa using this.2
  have hs2 : sameEnds e2 a b = true := by
    have := List.mem_filter.mp hm2
    simpa using this.2
  refine ⟨[e1, e2], by simp, hsub.subperm, a, ?_⟩
  have hw : IsWalk a a ([e1] ++ [e2]) :=
    IsWalk_append (IsWalk_single hs1) (IsWalk_single (sameEnds_symm hs2))
  simpa using hw

/-! ### Parent chains -/

theorem pathVia_of_anc {p : Nat → Option Nat} {x y : Nat}
    (h : Relation.ReflTransGen (fun a b => p a = some b) x y) :
    ∃ vs, PathVia p x vs y := by
  induction h using Relation.ReflTransGen.head_induction_on with
  | refl => exact ⟨[], rfl⟩
  | head hstep _ ih =>
    obtain ⟨vs, hvs⟩ := ih
    exact ⟨_ :: vs, hstep, hvs⟩

theorem path_chain_build {es : List (Nat × Nat × Int)} {p : Nat → Option Nat}
    {ord : Nat → Nat} {Vis : Nat → Prop}
    (hstep : ∀ a b, p a = some b → ord b < ord a ∧ Vis a ∧ Vis b ∧
      ∃ e ∈ es, pairOf e = vpair a b) :
    ∀ (vs : List Nat) (w q : Nat), PathVia p w vs q →
      ∃ c : List (Nat × Nat × Int),
        IsWalk w q c ∧ (∀ e ∈ c, e ∈ es) ∧ (c.map pairOf).Nodup ∧
        (∀ e ∈ c, ∀ x, (x = (pairOf e).1 ∨ x = (pairOf e).2) →
          Vis x ∧ ord x ≤ ord w) := by
  intro vs
  induction vs with
  | nil =>
    intro w q hp
    have hwq : w = q := hp
    exact ⟨[], hwq, by simp, by simp, by simp⟩
  | cons v vs ih =>
    intro w q hp
    obtain ⟨hpw, hpath⟩ := hp
    obtain ⟨hord, hVw, hVv, e0, he0, hp0⟩ := hstep w v hpw
    obtain ⟨c, hwalk, hmem, hnd, hbound⟩ := ih v q hpath
    refine ⟨e0 :: c, ?_, ?_, ?_, ?_⟩
    · have h1 : IsWalk w v [e0] := IsWalk_single (sameEnds_pairOf.mpr hp0)
      have := IsWalk_append h1 hwalk
      simpa using this
    · intro e he
      rcases List.mem_cons.mp he with heq | hm
      · rw [heq]
        exact he0
      · exact hmem e hm
    · rw [List.map_cons, List.nodup_cons]
      refine ⟨?_, hnd⟩
      intro hmem0
      obtain ⟨e', he', hpe⟩ := List.mem_map.mp hmem0
      have hw_comp : w = (pairOf e').1 ∨ w = (pairOf e').2 := by
        rw [hpe, hp0]
        exact vpair_components.mpr (Or.inl rfl)
      have := (hbound e' he' w hw_comp).2
      omega
    · intro e he x hx
      rcases List.mem_cons.mp he with heq | hm
      · rw [heq, hp0] at hx
        rcases vpair_components.mp hx with hxw | hxv
        · rw [hxw]
          exact ⟨hVw, Nat.le_refl _⟩
        · rw [hxv]
          exact ⟨hVv, Nat.le_of_lt hord⟩
      · obtain ⟨hV, hle⟩ := hbound e hm x hx
        exact ⟨hV, by omega⟩

/-- The central cycle constructor: a vertex `v` joined by edges to both ends
of a strictly-descending parent chain `w ⟶* q` closes a cycle. -/
theorem cycle_of_link {es : List (Nat × Nat × Int)} {p : Nat → Option Nat}
    {ord : Nat → Nat} {Vis : Nat → Prop}
    (hstep : ∀ a b, p a = some b → ord b < ord a ∧ Vis a ∧ Vis b ∧
      ∃ e ∈ es, pairOf e = vpair a b)
    {w q v : Nat}
    (hanc : Relation.ReflTransGen (fun a b => p a = some b) w q)
    (hwq : w ≠ q) (hVw : Vis w) (hv : ¬ Vis v)
    {e1 e2 : Nat × Nat × Int}
    (he1 : e1 ∈ es) (hp1 : pairOf e1 = vpair v w)
    (he2 : e2 ∈ es) (hp2 : pairOf e2 = vpair q v) :
    ∃ c, IsCycle es c := by
  obtain ⟨vs, hpath⟩ := pathVia_of_anc hanc
  obtain ⟨c, hwalk, hmem, hnd, hbound⟩ := path_chain_build hstep vs w q hpath
  have hvw : v ≠ w := fun hcon => hv (hcon ▸ hVw)
  have hnotin1 : pairOf e1 ∉ c.map pairOf := by
    intro hmem0
    obtain ⟨e', he', hpe⟩ := List.mem_map.mp hmem0
    have hvcomp : v = (pairOf e').1 ∨ v = (pairOf e').2 := by
      rw [hpe, hp1]
      exact vpair_components.mpr (Or.inl rfl)
    exact hv (hbound e' he' v hvcomp).1
  have hnotin2 : pairOf e2 ∉ c.map pairOf := by
    intro hmem0
    obtain ⟨e', he', hpe⟩ := List.mem_map.mp hmem0
    have hvcomp : v = (pairOf e').1 ∨ v = (pairOf e').2 := by
      rw [hpe, hp2]
      exact vpair_components.mpr (Or.inr rfl)
    exact hv (hbound e' he' v hvcomp).1
  have hne12 : pairOf e1 ≠ pairOf e2 := by
    rw [hp1, hp2]
    intro hcon
    rcases vpair_eq_iff.mp hcon with ⟨ha, hb⟩ | ⟨ha, hb⟩
    · exact hvw hb.symm
    · exact hwq hb
  refine ⟨e1 :: (c ++ [e2]), ⟨by simp, ?_, v, ?_⟩⟩
  · apply List.Nodup.subperm
    · apply List.Nodup.of_map pairOf
      rw [List.map_cons, List.map_append, List.nodup_cons]
      constructor
      · intro hcon
        rcases List.mem_append.mp hcon with h | h
        · exact hnotin1 h
        · simp at h
          exact hne12 h
      · rw [List.nodup_append]
        refine ⟨hnd, List.nodup_singleton _, ?_⟩
        intro x hx hx2
        simp at hx2
        rw [hx2] at hx
        exact hnotin2 hx
    · intro e he
      rcases List.mem_cons.mp he with heq | hm
      · rw [heq]
        exact he1
      · rcases List.mem_append.mp hm with h | h
        · exact hmem e h
        · simp at h
          rw [h]
          exact he2
  · have h1 : IsWalk v w [e1] := IsWalk_single (sameEnds_pairOf.mpr hp1)
    have h2 : IsWalk q v [e2] := IsWalk_single (sameEnds_pairOf.mpr hp2)
    have := IsWalk_append h1 (IsWalk_append hwalk h2)
    simpa using this

/-! ### Characterizing the edge scan -/

theorem scanEdges_none_char {n w : Nat} {po : Option Nat} {visited : Nat → Bool} :
    ∀ (es : List (Nat × Int)) (skip : Bool) (value : Nat → Int)
      (stack : List (Nat × Option Nat)),
      scanEdges n w po visited es skip value stack = none →
      ∃ t, visited t = true ∧ (∃ l, (t, l) ∈ es) ∧
        (¬ (skip = true ∧ some t = po) ∨ 2 ≤ targetCount es t) := by
  intro es
  induction es with
  | nil =>
    intro skip value stack hs
    unfold scanEdges at hs
    cases hs
  | cons e es ih =>
    rcases e with ⟨t0, l0⟩
    intro skip value stack hs
    unfold scanEdges at hs
    by_cases hc : (skip = true ∧ some t0 = po)
    · rw [if_pos hc] at hs
      obtain ⟨t, htv, ⟨l, hl⟩, hdisj⟩ := ih false value stack hs
      by_cases hpo : skip = true ∧ some t = po
      · have htt0 : t = t0 := Option.some.inj (hpo.2.trans hc.2.symm)
        refine ⟨t, htv, ⟨l, List.mem_cons_of_mem _ hl⟩, Or.inr ?_⟩
        rw [targetCount_cons]
        have h1 := targetCount_of_mem hl
        have : t0 = t := htt0.symm
        rw [if_pos this]
        omega
      · exact ⟨t, htv, ⟨l, List.mem_cons_of_mem _ hl⟩, Or.inl hpo⟩
    · rw [if_neg hc] at hs
      by_cases hv : visited t0 = true
      · exact ⟨t0, hv, ⟨l0, List.mem_cons_self _ _⟩, Or.inl hc⟩
      · rw [if_neg hv] at hs
        obtain ⟨t, htv, ⟨l, hl⟩, hdisj⟩ := ih skip _ _ hs
        refine ⟨t, htv, ⟨l, List.mem_cons_of_mem _ hl⟩, ?_⟩
        rcases hdisj with h | h
        · exact Or.inl h
        · refine Or.inr ?_
          rw [targetCount_cons]
          omega

theorem scanEdges_acct {n w : Nat} {po : Option Nat} {visited : Nat → Bool} :
    ∀ (es : List (Nat × Int)) (skip : Bool) (value : Nat → Int)
      (stack : List (Nat × Option Nat)) (value' : Nat → Int)
      (stack' : List (Nat × Option Nat)),
      scanEdges n w po visited es skip value stack = some (value', stack') →
      ∃ nf, stack' = nf ++ stack ∧
        (∀ fr ∈ nf, fr.2 = some w ∧ visited fr.1 = false ∧ ∃ l, (fr.1, l) ∈ es) ∧
        (∀ t, targetCount es t ≤ (if skip = true ∧ some t = po then 1 else 0) +
          List.count (t, some w) nf) := by
  intro es
  induction es with
  | nil =>
    intro skip value stack value' stack' hs
    unfold scanEdges at hs
    cases hs
    refine ⟨[], by simp, by simp, ?_⟩
    intro t
    simp [targetCount]
  | cons e es ih =>
    rcases e with ⟨t0, l0⟩
    intro skip value stack value' stack' hs
    unfold scanEdges at hs
    by_cases hc : (skip = true ∧ some t0 = po)
    · rw [if_pos hc] at hs
      obtain ⟨nf, h1, h2, h3⟩ := ih false value stack value' stack' hs
      refine ⟨nf, h1, ?_, ?_⟩
      · intro fr hfr
        obtain ⟨ha, hb, l, hm⟩ := h2 fr hfr
        exact ⟨ha, hb, l, List.mem_cons_of_mem _ hm⟩
      · intro t
        have := h3 t
        rw [if_neg (by simp)] at this
        rw [targetCount_cons]
        by_cases ht : t0 = t
        · rw [if_pos ht, if_pos ⟨hc.1, by rw [← ht]; exact hc.2⟩]
          omega
        · rw [if_neg ht]
          split <;> omega
    · rw [if_neg hc] at hs
      by_cases hv : visited t0 = true
      · rw [if_pos hv] at hs
        cases hs
      · rw [if_neg hv] at hs
        obtain ⟨nf, h1, h2, h3⟩ := ih skip _ ((t0, some w) :: stack) value' stack' hs
        refine ⟨nf ++ [(t0, some w)], by rw [h1, List.append_cons], ?_, ?_⟩
        · intro fr hfr
          rcases List.mem_append.mp hfr with hm | hm
          · obtain ⟨ha, hb, l, hml⟩ := h2 fr hm
            exact ⟨ha, hb, l, List.mem_cons_of_mem _ hml⟩
          · simp at hm
            rw [hm]
            exact ⟨rfl, by simpa using hv, l0, List.mem_cons_self _ _⟩
        · intro t
          have := h3 t
          rw [targetCount_cons, List.count_append]
          by_cases ht : t0 = t
          · rw [if_pos ht]
            have hcnt : List.count (t, some w) [(t0, some w)] = 1 := by
              rw [ht]
              simp
            rw [hcnt]
            split at this <;> split <;> omega
          · rw [if_neg ht]
            have hts : (t, (some w : Option Nat)) ≠ (t0, some w) := by
              intro hcon
              exact ht (congrArg Prod.fst hcon).symm
            have hcnt : List.count (t, some w) [(t0, some w)] = 0 :=
              List.count_eq_zero.mpr (by simpa using hts)
            rw [hcnt]
            split at this <;> split <;> omega

/-! ### A doomed stack never resolves -/

theorem resolveLoop_bad {edges : Edges} {n : Nat}
    (hn : 0 < n) (hp : Pairing edges) (hEB : EdgesBounded edges n) :
    ∀ (fuel : Nat) (value : Nat → Int) (visited : Nat → Bool)
      (stack : List (Nat × Option Nat)),
      Inv edges n value visited stack →
      BadStack visited stack →
      ∀ fuel' value' visited',
        resolveLoop edges n fuel value visited stack ≠
          some (some (fuel', value', visited')) := by
  intro fuel
  induction fuel with
  | zero =>
    intro value visited stack inv hbad fuel' value' visited'
    cases stack with
    | nil =>
      rcases hbad with ⟨fr, hfr, _⟩ | ⟨v, hv⟩
      · exact absurd hfr (List.not_mem_nil fr)
      · simp at hv
    | cons fr rest =>
      rw [resolveLoop_zero_cons]
      simp
  | succ fuel ih =>
    intro value visited stack inv hbad fuel' value' visited'
    cases stack with
    | nil =>
      rcases hbad with ⟨fr, hfr, _⟩ | ⟨v, hv⟩
      · exact absurd hfr (List.not_mem_nil fr)
      · simp at hv
    | cons fr rest =>
      rcases fr with ⟨w, po⟩
      rw [resolveLoop_succ_cons]
      by_cases hw : visited w = true
      · rw [inv_step_stale inv hw]
        simp
      · have hwf : visited w = false := by simpa using hw
        cases hscan : scanEdges n w po (Function.update visited w true) (edges w) true
            value rest with
        | none => simp
        | some pr =>
          rcases pr with ⟨value2, stack2⟩
          have inv' := inv_step_fresh hn hp hEB inv hwf hscan
          have hbad' : BadStack (Function.update visited w true) stack2 := by
            obtain ⟨nf, hst, hnf, _⟩ := scanEdges_acct _ _ _ _ _ _ hscan
            rcases hbad with ⟨fr0, hfr0, hfv⟩ | ⟨v, hv⟩
            · rcases List.mem_cons.mp hfr0 with heq | hm
              · rw [heq] at hfv
                simp at hfv
                exact absurd hfv hw
              · refine Or.inl ⟨fr0, ?_, ?_⟩
                · rw [hst]
                  exact List.mem_append.mpr (Or.inr hm)
                · by_cases hfw : fr0.1 = w
                  · rw [hfw, Function.update_same]
                  · rw [Function.update_noteq hfw]
                    exact hfv
            · by_cases hvw : v = w
              · subst hvw
                have hv' : 1 ≤ (rest.map Prod.fst).count v := by
                  rw [List.map_cons, List.count_cons] at hv
                  simpa using hv
                have hmem : v ∈ rest.map Prod.fst := by
                  by_contra hno
                  rw [List.count_eq_zero.mpr hno] at hv'
                  omega
                obtain ⟨fr0, hfr0, hfrv⟩ := List.mem_map.mp hmem
                refine Or.inl ⟨fr0, ?_, ?_⟩
                · rw [hst]
                  exact List.mem_append.mpr (Or.inr hfr0)
                · rw [hfrv, Function.update_same]
              · refine Or.inr ⟨v, ?_⟩
                have h1 : (rest.map Prod.fst).count v =
                    (((w, po) :: rest).map Prod.fst).count v := by
                  rw [List.map_cons, List.count_cons]
                  simp [Ne.symm hvw]
                have h2 : (rest.map Prod.fst).count v ≤ ((stack2.map Prod.fst).count v) := by
                  rw [hst, List.map_append, List.count_append]
                  omega
                omega
          exact ih value2 (Function.update visited w true) stack2 inv' hbad'
            fuel' value' visited'

/-! ### The trace invariant through one fresh pop -/

theorem mem_es_pair {es : List (Nat × Nat × Int)} {x q : Nat} {l : Int}
    (h : (x, l) ∈ buildGraph es q) : ∃ e ∈ es, pairOf e = vpair x q := by
  rcases (buildGraph_mem es q x l).mp h with hm | hm
  · exact ⟨(q, x, l), hm, by unfold pairOf; exact (vpair_comm q x)⟩
  · exact ⟨(x, q, l), hm, rfl⟩

theorem count_ge_one_of_mem {β : Type} [BEq β] [LawfulBEq β] {l : List β} {v : β}
    (h : v ∈ l) : 1 ≤ l.count v :=
  List.count_pos_iff.mpr h

theorem trace_step {es : List (Nat × Nat × Int)} {n : Nat}
    {value value2 : Nat → Int} {visited : Nat → Bool} {w : Nat} {po : Option Nat}
    {rest stack2 : List (Nat × Option Nat)}
    {p : Nat → Option Nat} {ord : Nat → Nat} {clock : Nat}
    (inv : Inv (buildGraph es) n value visited ((w, po) :: rest))
    (tinv : TraceInv es n visited ((w, po) :: rest) p ord clock)
    (hw : visited w = false)
    (hs : scanEdges n w po (Function.update visited w true) (buildGraph es w) true
      value rest = some (value2, stack2)) :
    ((∃ c, IsCycle es c) ∧ BadStack (Function.update visited w true) stack2) ∨
    TraceInv es n (Function.update visited w true) stack2
      (fun x => if x = w then po else p x)
      (fun x => if x = w then clock else ord x) (clock + 1) := by
  obtain ⟨nf, hst, hnf, hacct⟩ := scanEdges_acct _ _ _ _ _ _ hs
  have hpw_none : p w = none := by
    cases hpw : p w with
    | none => rfl
    | some q =>
      have := (tinv.ppar w q hpw).1
      rw [this] at hw
      cases hw
  have hnfw : ∀ fr ∈ nf, fr.1 ≠ w := by
    intro fr hfr hcon
    have hfv := (hnf fr hfr).2.1
    rw [hcon, Function.update_same] at hfv
    cases hfv
  obtain ⟨hdist_head, hdist_rest⟩ := List.pairwise_cons.mp tinv.fdist
  obtain ⟨hchain_head, hchain_rest⟩ := List.pairwise_cons.mp tinv.stackChain
  have hbnd : ∀ t, targetCount (buildGraph es w) t ≤
      (if po = some t then 1 else 0) + List.count (t, some w) nf := by
    intro t
    have h0 := hacct t
    by_cases hpo : some t = po
    · rw [if_pos hpo.symm]
      rw [if_pos ⟨rfl, hpo⟩] at h0
      omega
    · rw [if_neg (fun hc => hpo hc.symm)]
      rw [if_neg (fun hc => hpo hc.2)] at h0
      omega
  have hcount_rest_w : ∀ v, List.count (v, some w) rest = 0 := by
    intro v
    apply List.count_eq_zero.mpr
    intro hmem
    have hv := (tinv.fedge (v, some w) (List.mem_cons_of_mem _ hmem) w rfl).1
    rw [hv] at hw
    cases hw
  have hnf_snd : ∀ fr ∈ nf, fr = (fr.1, some w) := by
    intro fr hfr
    have := (hnf fr hfr).1
    exact Prod.ext rfl this
  -- the new ghost maps
  have hppar' : ∀ x q, (fun x => if x = w then po else p x) x = some q →
      Function.update visited w true x = true ∧
      Function.update visited w true q = true ∧
      (fun x => if x = w then clock else ord x) q <
        (fun x => if x = w then clock else ord x) x ∧
      ∃ l, (x, l) ∈ buildGraph es q := by
    intro x q hx
    dsimp only at hx
    by_cases hxw : x = w
    · rw [if_pos hxw] at hx
      rw [hxw]
      obtain ⟨hqv, l, hql⟩ := tinv.fedge (w, po) (List.mem_cons_self _ _) q hx
      have hqw : q ≠ w := by
        intro hcon
        rw [hcon] at hqv
        rw [hqv] at hw
        cases hw
      refine ⟨Function.update_same _ _ _, ?_, ?_, l, hql⟩
      · rw [Function.update_noteq hqw]
        exact hqv
      · dsimp only
        rw [if_pos rfl, if_neg hqw]
        exact tinv.pordv q hqv
    · rw [if_neg hxw] at hx
      obtain ⟨hxv, hqv, hord, l, hql⟩ := tinv.ppar x q hx
      have hqw : q ≠ w := by
        intro hcon
        rw [hcon] at hqv
        rw [hqv] at hw
        cases hw
      refine ⟨?_, ?_, ?_, l, hql⟩
      · rw [Function.update_noteq hxw]
        exact hxv
      · rw [Function.update_noteq hqw]
        exact hqv
      · dsimp only
        rw [if_neg hxw, if_neg hqw]
        exact hord
  have hanc_mono : ∀ a b, Relation.ReflTransGen (fun a b => p a = some b) a b →
      Relation.ReflTransGen (fun a b => (fun x => if x = w then po else p x) a = some b)
        a b := by
    intro a b hab
    refine Relation.ReflTransGen.mono ?_ hab
    intro x y hxy
    dsimp only
    by_cases hxw : x = w
    · rw [hxw] at hxy
      rw [hpw_none] at hxy
      cases hxy
    · rw [if_neg hxw]
      exact hxy
  by_cases hconf : (∃ v, 2 ≤ ((nf.map Prod.fst).count v)) ∨
      (∃ v, v ∈ nf.map Prod.fst ∧ v ∈ rest.map Prod.fst)
  · -- a conflict: produce a cycle and a doomed stack
    left
    have hstepC : ∀ a b, (fun x => if x = w then po else p x) a = some b →
        (fun x => if x = w then clock else ord x) b <
          (fun x => if x = w then clock else ord x) a ∧
        Function.update visited w true a = true ∧
        Function.update visited w true b = true ∧
        ∃ e ∈ es, pairOf e = vpair a b := by
      intro a b hab
      obtain ⟨h1, h2, h3, l, hl⟩ := hppar' a b hab
      exact ⟨h3, h1, h2, mem_es_pair hl⟩
    rcases hconf with ⟨v, hv2⟩ | ⟨v, hvnf, hvrest⟩
    · -- two new frames for v: a parallel pair on {w, v}
      have hvmem : v ∈ nf.map Prod.fst := by
        have hpos : 0 < (nf.map Prod.fst).count v := by omega
        exact List.count_pos_iff.mp hpos
      obtain ⟨fr1, hfr1, hfr1v⟩ := List.mem_map.mp hvmem
      have hvw : v ≠ w := by
        rw [← hfr1v]
        exact hnfw fr1 hfr1
      obtain ⟨nf2, hst2, hnf2, hnf2un, hnf2cnt⟩ :=
        scanEdges_some_frames (Nat.lt_of_le_of_lt (Nat.zero_le _)
          (inv.frange (w, po) (List.mem_cons_self _ _)).1)
          (Function.update_same w true visited) _ _ _ _ _ _ hs
      have hnfeq : nf2 = nf := by
        rw [hst] at hst2
        exact List.append_cancel_right hst2.symm
      have h2 : (nf.map Prod.fst).count v = (nf.filter (fun fr => fr.1 = v)).length := by
        rw [List.count, List.countP_map, ← List.countP_eq_length_filter]
        exact countP_agree (fun x _ => rfl)
      have hcnt_tc : 2 ≤ targetCount (buildGraph es w) v := by
        have h1 := hnf2cnt v
        rw [hnfeq] at h1
        omega
      have hpc : 2 ≤ pairCount es w v := by
        have := buildGraph_targetCount es w v
        rw [if_neg (Ne.symm hvw)] at this
        omega
      refine ⟨cycle_parallel hpc, Or.inr ⟨v, ?_⟩⟩
      rw [hst, List.map_append, List.count_append]
      omega
    · -- a new frame for an already-framed vertex: close the pending chain
      obtain ⟨fr1, hfr1, hfr1v⟩ := List.mem_map.mp hvnf
      obtain ⟨fr', hfr', hfr'v⟩ := List.mem_map.mp hvrest
      have hvw : v ≠ w := by
        rw [← hfr1v]
        exact hnfw fr1 hfr1
      cases hq' : fr'.2 with
      | none =>
        have hroot := inv.rootfr fr' (List.mem_cons_of_mem _ hfr') hq'
        have hrest_nil : rest = [] := by
          have hlen := congrArg List.length hroot.1
          simp at hlen
          exact hlen
        rw [hrest_nil] at hfr'
        exact absurd hfr' (List.not_mem_nil fr')
      | some q' =>
        obtain ⟨q0, hq0, hanc⟩ := hchain_head fr' hfr' q' hq'
        have hq'v : visited q' = true :=
          (tinv.fedge fr' (List.mem_cons_of_mem _ hfr') q' hq').1
        have hwq' : w ≠ q' := by
          intro hcon
          rw [← hcon] at hq'v
          rw [hq'v] at hw
          cases hw
        have hancw : Relation.ReflTransGen
            (fun a b => (fun x => if x = w then po else p x) a = some b) w q' := by
          refine Relation.ReflTransGen.head ?_ (hanc_mono q0 q' hanc)
          dsimp only
          rw [if_pos rfl]
          exact hq0
        have hVw : Function.update visited w true w = true := Function.update_same _ _ _
        have hVv : ¬ Function.update visited w true v = true := by
          have hfv := (hnf fr1 hfr1).2.1
          rw [hfr1v] at hfv
          rw [hfv]
          simp
        obtain ⟨l1, hl1⟩ := (hnf fr1 hfr1).2.2
        rw [hfr1v] at hl1
        obtain ⟨e1, he1, hp1⟩ := mem_es_pair hl1
        obtain ⟨l2, hl2⟩ := (tinv.fedge fr' (List.mem_cons_of_mem _ hfr') q' hq').2
        rw [hfr'v] at hl2
        obtain ⟨e2, he2, hp2⟩ := mem_es_pair hl2
        have hp2c : pairOf e2 = vpair q' v := by
          rw [hp2, vpair_comm]
        refine ⟨cycle_of_link hstepC hancw hwq' hVw hVv he1 hp1 he2 hp2c,
          Or.inr ⟨v, ?_⟩⟩
        rw [hst, List.map_append, List.count_append]
        have c1 : 1 ≤ (nf.map Prod.fst).count v := count_ge_one_of_mem hvnf
        have c2 : 1 ≤ (rest.map Prod.fst).count v := count_ge_one_of_mem hvrest
        omega
  · -- no conflict: the invariant survives the pop
    right
    push_neg at hconf
    obtain ⟨hno2, hno1⟩ := hconf
    have hmono : ∀ u, visited u = true → Function.update visited w true u = true := by
      intro u hu
      by_cases huw : u = w
      · rw [huw, Function.update_same]
      · rw [Function.update_noteq huw]
        exact hu
    refine ⟨hppar', ?_, ?_, ?_, ?_, ?_, ?_, ?_⟩
    · intro x hx
      dsimp only
      by_cases hxw : x = w
      · rw [if_pos hxw]
        omega
      · rw [if_neg hxw]
        rw [Function.update_noteq hxw] at hx
        have := tinv.pordv x hx
        omega
    · rw [hst, List.pairwise_append]
      refine ⟨?_, hdist_rest, ?_⟩
      · have hnd : (nf.map Prod.fst).Nodup := by
          rw [List.nodup_iff_count_le_one]
          intro a
          have := hno2 a
          omega
        exact List.pairwise_map.mp hnd
      · intro a ha b hb hcon
        exact hno1 a.1 (List.mem_map.mpr ⟨a, ha, rfl⟩)
          (by rw [hcon]; exact List.mem_map.mpr ⟨b, hb, rfl⟩)
    · intro fr hfr
      rw [hst] at hfr
      rcases List.mem_append.mp hfr with hm | hm
      · exact (hnf fr hm).2.1
      · have hfw : fr.1 ≠ w := fun hcon => (hdist_head fr hm) hcon.symm
        rw [Function.update_noteq hfw]
        exact tinv.funvis fr (List.mem_cons_of_mem _ hm)
    · intro fr hfr q hq
      rw [hst] at hfr
      rcases List.mem_append.mp hfr with hm | hm
      · have hsnd := (hnf fr hm).1
        have hqw : w = q := Option.some.inj (hsnd.symm.trans hq)
        subst hqw
        exact ⟨Function.update_same _ _ _, (hnf fr hm).2.2⟩
      · obtain ⟨hqv, hl⟩ := tinv.fedge fr (List.mem_cons_of_mem _ hm) q hq
        exact ⟨hmono q hqv, hl⟩
    · intro u v hu
      dsimp only
      by_cases huw : u = w
      · subst huw
        have hb := hbnd v
        have e2 : List.count (v, some u) stack2 = List.count (v, some u) nf := by
          rw [hst, List.count_append, hcount_rest_w]
          omega
        have i1 : (if (if u = u then po else p u) = some v then 1 else 0) =
            (if po = some v then 1 else 0) := by
          rw [if_pos rfl]
        rw [i1, e2]
        omega
      · rw [Function.update_noteq huw] at hu
        have hold := tinv.acct u v hu
        have hcnf : List.count (v, some u) nf = 0 := by
          apply List.count_eq_zero.mpr
          intro hmem
          exact huw (Option.some.inj ((hnf _ hmem).1))
        have hsplit : List.count (v, some u) ((w, po) :: rest) =
            List.count (v, some u) rest +
              (if (v, some u) = (w, po) then 1 else 0) := by
          by_cases hc : (v, some u) = (w, po)
          · simp [List.count_cons, hc]
          · simp [List.count_cons, hc]
        have e2 : List.count (v, some u) stack2 = List.count (v, some u) rest := by
          rw [hst, List.count_append, hcnf]
          omega
        rw [if_neg huw, e2]
        by_cases hvw : v = w
        · subst hvw
          have hold3 : (if p v = some u then 1 else 0) = 0 := by
            rw [hpw_none]
            simp
          rw [if_pos rfl]
          by_cases hpou : po = some u
          · have hhead : (if ((v : Nat), some u) = (v, po) then 1 else 0) = 1 := by
              rw [if_pos (by rw [hpou])]
            rw [if_pos hpou]
            rw [hsplit, hhead, hold3] at hold
            omega
          · have hhead : (if ((v : Nat), some u) = (v, po) then 1 else 0) = 0 := by
              rw [if_neg (fun hc => hpou (congrArg Prod.snd hc).symm)]
            rw [if_neg hpou]
            rw [hsplit, hhead, hold3] at hold
            omega
        · rw [if_neg hvw]
          have hhead : (if ((v : Nat), some u) = (w, po) then 1 else 0) = 0 := by
            rw [if_neg (fun hc => hvw (congrArg Prod.fst hc))]
          rw [hsplit, hhead] at hold
          omega
    · intro u hu v l hm
      by_cases huw : u = w
      · subst huw
        have htc : 1 ≤ targetCount (buildGraph es u) v := targetCount_of_mem hm
        have hb := hbnd v
        by_cases hcv : 1 ≤ List.count (v, some u) nf
        · right
          have hvm : (v, some u) ∈ nf := List.count_pos_iff.mp (by omega)
          rw [hst]
          exact List.mem_append.mpr (Or.inl hvm)
        · left
          have hpo : po = some v := by
            by_contra hno
            rw [if_neg hno] at hb
            omega
          have := (tinv.fedge (u, po) (List.mem_cons_self _ _) v (by rw [hpo])).1
          exact hmono v this
      · rw [Function.update_noteq huw] at hu
        rcases tinv.scanned u hu v l hm with hv | hv
        · exact Or.inl (hmono v hv)
        · rcases List.mem_cons.mp hv with heq | hmm
          · left
            have hvw : v = w := congrArg Prod.fst heq
            rw [hvw, Function.update_same]
          · right
            rw [hst]
            exact List.mem_append.mpr (Or.inr hmm)
    · rw [hst, List.pairwise_append]
      refine ⟨?_, ?_, ?_⟩
      · apply List.pairwise_of_forall_mem_list
        intro a ha b hb q' hq'
        have hq'w : w = q' := Option.some.inj (((hnf b hb).1).symm.trans hq')
        exact ⟨w, (hnf a ha).1, hq'w ▸ Relation.ReflTransGen.refl⟩
      · refine List.Pairwise.imp ?_ hchain_rest
        intro fr fr' hR q' hq'
        obtain ⟨q, hq, ha⟩ := hR q' hq'
        exact ⟨q, hq, hanc_mono q q' ha⟩
      · intro a ha b hb q' hq'
        obtain ⟨q0, hq0, hanc⟩ := hchain_head b hb q' hq'
        refine ⟨w, (hnf a ha).1, ?_⟩
        refine Relation.ReflTransGen.head ?_ (hanc_mono q0 q' hanc)
        dsimp only
        rw [if_pos rfl]
        exact hq0

/-! ### The trace invariant along the whole loop -/

theorem trace_initial (es : List (Nat × Nat × Int)) (n : Nat) :
    TraceInv es n (fun _ => false) [] (fun _ => none) (fun _ => 0) 0 := by
  refine ⟨?_, ?_, ?_, ?_, ?_, ?_, ?_, ?_⟩
  · intro x q hx
    cases hx
  · intro x hx
    cases hx
  · exact List.Pairwise.nil
  · intro fr hfr
    exact absurd hfr (List.not_mem_nil fr)
  · intro fr hfr
    exact absurd hfr (List.not_mem_nil fr)
  · intro u v hu
    cases hu
  · intro u hu
    cases hu
  · exact List.Pairwise.nil

theorem trace_seed {es : List (Nat × Nat × Int)} {n : Nat} {visited : Nat → Bool}
    {i : Nat} {p : Nat → Option Nat} {ord : Nat → Nat} {clock : Nat}
    (tinv : TraceInv es n visited [] p ord clock) (hvi : visited i = false) :
    TraceInv es n visited [(i, none)] p ord clock := by
  refine ⟨tinv.ppar, tinv.pordv, ?_, ?_, ?_, ?_, ?_, ?_⟩
  · exact List.pairwise_singleton _ _
  · intro fr hfr
    rcases List.mem_singleton.mp hfr with rfl
    exact hvi
  · intro fr hfr q hq
    rcases List.mem_singleton.mp hfr with rfl
    cases hq
  · intro u v hu
    have h0 := tinv.acct u v hu
    have hc0 : List.count (v, some u) ([] : List (Nat × Option Nat)) = 0 := rfl
    rw [hc0] at h0
    have hc : List.count (v, some u) [((i : Nat), (none : Option Nat))] = 0 := by
      apply List.count_eq_zero.mpr
      simp
    rw [hc]
    omega
  · intro u hu v l hm
    rcases tinv.scanned u hu v l hm with h | h
    · exact Or.inl h
    · exact absurd h (List.not_mem_nil _)
  · exact List.pairwise_singleton _ _

theorem inv_seed {edges : Edges} {n : Nat} {value : Nat → Int} {visited : Nat → Bool}
    {i : Nat} (inv : Inv edges n value visited []) (hi : i < n)
    (hvi : visited i = false) :
    Inv edges n (Function.update value i 0) visited [(i, none)] := by
  refine ⟨?_, ?_, ?_, ?_, ?_, ?_, ?_, ?_⟩
  · intro u hu
    have hui : u ≠ i := by
      intro hcon
      rw [hcon] at hu
      rw [hu] at hvi
      cases hvi
    rw [Function.update_noteq hui]
    exact inv.vrange u hu
  · intro fr hfr
    rcases List.mem_singleton.mp hfr with rfl
    dsimp only
    rw [Function.update_same]
    refine ⟨hi, Int.le_refl 0, ?_⟩
    exact_mod_cast Nat.lt_of_le_of_lt (Nat.zero_le _) hi
  · intro fr hfr q hq
    rcases List.mem_singleton.mp hfr with rfl
    cases hq
  · intro fr hfr q hq
    rcases List.mem_singleton.mp hfr with rfl
    cases hq
  · intro x hx fr hfr q hq
    have hmem := List.mem_of_find?_eq_some hfr
    rcases List.mem_singleton.mp hmem with rfl
    cases hq
  · intro u t l hu ht hm
    have hui : u ≠ i := by
      intro hcon
      rw [hcon] at hu
      rw [hu] at hvi
      cases hvi
    have hti : t ≠ i := by
      intro hcon
      rw [hcon] at ht
      rw [ht] at hvi
      cases hvi
    rw [Function.update_noteq hui, Function.update_noteq hti]
    exact inv.ledger u t l hu ht hm
  · intro fr hfr hq
    rcases List.mem_singleton.mp hfr with rfl
    exact ⟨rfl, hvi⟩
  · intro t q
    have : List.count (t, some q) [((i : Nat), (none : Option Nat))] = 0 := by
      apply List.count_eq_zero.mpr
      simp
    rw [this]
    exact Nat.zero_le _

theorem resolveLoop_trace {es : List (Nat × Nat × Int)} {n : Nat}
    (hn : 0 < n) (hp : Pairing (buildGraph es)) (hEB : EdgesBounded (buildGraph es) n) :
    ∀ (fuel : Nat) (value : Nat → Int) (visited : Nat → Bool)
      (stack : List (Nat × Option Nat)) (p : Nat → Option Nat) (ord : Nat → Nat)
      (clock : Nat),
      Inv (buildGraph es) n value visited stack →
      TraceInv es n visited stack p ord clock →
      (resolveLoop (buildGraph es) n fuel value visited stack = some none →
        ∃ c, IsCycle es c) ∧
      (∀ fuel' value' visited',
        resolveLoop (buildGraph es) n fuel value visited stack
          = some (some (fuel', value', visited')) →
        ∃ p' ord' clock', TraceInv es n visited' [] p' ord' clock') := by
  intro fuel
  induction fuel with
  | zero =>
    intro value visited stack p ord clock inv tinv
    cases stack with
    | nil =>
      constructor
      · intro hres
        rw [resolveLoop_nil] at hres
        have := Option.some.inj hres
        cases this
      · intro fuel' value' visited' hres
        rw [resolveLoop_nil] at hres
        have h2 := Option.some.inj (Option.some.inj hres)
        have hvis : visited' = visited := (congrArg (fun t => t.2.2) h2).symm
        subst hvis
        exact ⟨p, ord, clock, tinv⟩
    | cons fr rest0 =>
      constructor
      · intro hres
        rw [resolveLoop_zero_cons] at hres
        cases hres
      · intro fuel' value' visited' hres
        rw [resolveLoop_zero_cons] at hres
        cases hres
  | succ fuel ih =>
    intro value visited stack p ord clock inv tinv
    cases stack with
    | nil =>
      constructor
      · intro hres
        rw [resolveLoop_nil] at hres
        have := Option.some.inj hres
        cases this
      · intro fuel' value' visited' hres
        rw [resolveLoop_nil] at hres
        have h2 := Option.some.inj (Option.some.inj hres)
        have hvis : visited' = visited := (congrArg (fun t => t.2.2) h2).symm
        subst hvis
        exact ⟨p, ord, clock, tinv⟩
    | cons fr rest0 =>
      rcases fr with ⟨w, po⟩
      have hwf : visited w = false := tinv.funvis (w, po) (List.mem_cons_self _ _)
      cases hscan : scanEdges n w po (Function.update visited w true)
          (buildGraph es w) true value rest0 with
      | none =>
        constructor
        · intro _
          obtain ⟨t, htv, ⟨l, hl⟩, hdisj⟩ := scanEdges_none_char _ _ _ _ hscan
          by_cases htw : t = w
          · subst htw
            rcases (buildGraph_mem es t t l).mp hl with hm | hm
            · exact ⟨_, cycle_selfloop hm⟩
            · exact ⟨_, cycle_selfloop hm⟩
          · have htv0 : visited t = true := by
              rw [Function.update_noteq htw] at htv
              exact htv
            rcases hdisj with hnpo | h2
            · exfalso
              have hwl : (w, l) ∈ buildGraph es t := pairing_mem hp hl
              rcases tinv.scanned t htv0 w l hwl with hvw | hframe
              · rw [hvw] at hwf
                cases hwf
              · rcases List.mem_cons.mp hframe with heq | hmm
                · have hsome : some t = po := congrArg Prod.snd heq
                  exact hnpo ⟨rfl, hsome⟩
                · obtain ⟨hdh, _⟩ := List.pairwise_cons.mp tinv.fdist
                  exact (hdh (w, some t) hmm) rfl
            · have hpc : 2 ≤ pairCount es w t := by
                have := buildGraph_targetCount es w t
                rw [if_neg (fun hcon => htw hcon.symm)] at this
                omega
              exact cycle_parallel hpc
        · intro fuel' value' visited' hres
          rw [resolveLoop_succ_cons, hscan] at hres
          cases hres
      | some pr =>
        rcases pr with ⟨value2, stack2⟩
        have inv' := inv_step_fresh hn hp hEB inv hwf hscan
        rcases trace_step inv tinv hwf hscan with ⟨⟨c, hc⟩, hbad⟩ | tinv2
        · constructor
          · intro _
            exact ⟨c, hc⟩
          · intro fuel' value' visited' hres
            rw [resolveLoop_succ_cons, hscan] at hres
            exact absurd hres (resolveLoop_bad hn hp hEB fuel value2
              (Function.update visited w true) stack2 inv' hbad fuel' value' visited')
        · have hres_eq : resolveLoop (buildGraph es) n (fuel + 1) value visited
              ((w, po) :: rest0) =
              resolveLoop (buildGraph es) n fuel value2
                (Function.update visited w true) stack2 := by
            rw [resolveLoop_succ_cons, hscan]
          rw [hres_eq]
          exact ih value2 (Function.update visited w true) stack2 _ _ _ inv' tinv2

theorem resolveRoots_trace {es : List (Nat × Nat × Int)} {n : Nat}
    (hn : 0 < n) (hp : Pairing (buildGraph es)) (hEB : EdgesBounded (buildGraph es) n) :
    ∀ (roots : List Nat), (∀ i ∈ roots, i < n) →
      ∀ (fuel : Nat) (value : Nat → Int) (visited : Nat → Bool)
        (p : Nat → Option Nat) (ord : Nat → Nat) (clock : Nat),
      Inv (buildGraph es) n value visited [] →
      TraceInv es n visited [] p ord clock →
      (resolveRoots (buildGraph es) n roots fuel value visited = some none →
        ∃ c, IsCycle es c) ∧
      (∀ value' visited',
        resolveRoots (buildGraph es) n roots fuel value visited
          = some (some (value', visited')) →
        ∃ p' ord' clock', TraceInv es n visited' [] p' ord' clock') := by
  intro roots
  induction roots with
  | nil =>
    intro _ fuel value visited p ord clock inv tinv
    constructor
    · intro hres
      unfold resolveRoots at hres
      have := Option.some.inj hres
      cases this
    · intro value' visited' hres
      unfold resolveRoots at hres
      have h2 := Option.some.inj (Option.some.inj hres)
      have hvis : visited' = visited := (congrArg (fun t => t.2) h2).symm
      subst hvis
      exact ⟨p, ord, clock, tinv⟩
  | cons i is ihr =>
    intro hroots fuel value visited p ord clock inv tinv
    have hi : i < n := hroots i (List.mem_cons_self _ _)
    by_cases hvis : visited i = true
    · have hre : resolveRoots (buildGraph es) n (i :: is) fuel value visited =
          resolveRoots (buildGraph es) n is fuel value visited := by
        unfold resolveRoots
        rw [if_pos hvis]
        cases is <;> rfl
      rw [hre]
      exact ihr (fun j hj => hroots j (List.mem_cons_of_mem _ hj)) fuel value visited
        p ord clock inv tinv
    · have hvf : visited i = false := by simpa using hvis
      have inv1 := inv_seed inv hi hvf
      have tinv1 := trace_seed tinv hvf
      obtain ⟨hln, hls⟩ := resolveLoop_trace hn hp hEB fuel (Function.update value i 0)
        visited [(i, none)] p ord clock inv1 tinv1
      cases hloop : resolveLoop (buildGraph es) n fuel (Function.update value i 0)
          visited [(i, none)] with
      | none =>
        have hre : resolveRoots (buildGraph es) n (i :: is) fuel value visited = none := by
          unfold resolveRoots
          rw [if_neg hvis, hloop]
        rw [hre]
        constructor
        · intro hres
          cases hres
        · intro value' visited' hres
          cases hres
      | some o =>
        cases o with
        | none =>
          have hre : resolveRoots (buildGraph es) n (i :: is) fuel value visited =
              some none := by
            unfold resolveRoots
            rw [if_neg hvis, hloop]
          rw [hre]
          constructor
          · intro _
            exact hln hloop
          · intro value' visited' hres
            cases hres
        | some tr =>
          rcases tr with ⟨fuel1, value1, visited1⟩
          obtain ⟨p1, ord1, clock1, tinv2⟩ := hls fuel1 value1 visited1 hloop
          have inv2 := ((resolveLoop_master hn hp hEB fuel (Function.update value i 0)
            visited [(i, none)] inv1).2 fuel1 value1 visited1 hloop).1
          have hre : resolveRoots (buildGraph es) n (i :: is) fuel value visited =
              resolveRoots (buildGraph es) n is fuel1 value1 visited1 := by
            unfold resolveRoots
            rw [if_neg hvis, hloop]
            cases is <;> rfl
          rw [hre]
          exact ihr (fun j hj => hroots j (List.mem_cons_of_mem _ hj)) fuel1 value1
            visited1 p1 ord1 clock1 inv2 tinv2

theorem graph_resolve_cycle_of_false {es : List (Nat × Nat × Int)} {n fuel : Nat}
    (hn : 0 < n) (hb : ∀ e ∈ es, e.1 < n ∧ e.2.1 < n)
    (hres : graph_resolve (buildGraph es) n fuel = some none) :
    ∃ c, IsCycle es c := by
  unfold graph_resolve at hres
  exact (resolveRoots_trace hn (buildGraph_pairing es) (buildGraph_bounded hb)
    (List.range n) (fun i hi => List.mem_range.mp hi) fuel (fun _ => -1)
    (fun _ => false) (fun _ => none) (fun _ => 0) 0 (inv_initial _ _)
    (trace_initial es n)).1 hres

theorem graph_resolve_trace_success {es : List (Nat × Nat × Int)} {n fuel : Nat}
    {value' : Nat → Int} {visited' : Nat → Bool}
    (hn : 0 < n) (hb : ∀ e ∈ es, e.1 < n ∧ e.2.1 < n)
    (hres : graph_resolve (buildGraph es) n fuel = some (some (value', visited'))) :
    ∃ p' ord' clock', TraceInv es n visited' [] p' ord' clock' := by
  unfold graph_resolve at hres
  exact (resolveRoots_trace hn (buildGraph_pairing es) (buildGraph_bounded hb)
    (List.range n) (fun i hi => List.mem_range.mp hi) fuel (fun _ => -1)
    (fun _ => false) (fun _ => none) (fun _ => 0) 0 (inv_initial _ _)
    (trace_initial es n)).2 value' visited' hres

/-! ### Vertex bookkeeping of closed walks -/

theorem isWalk_exists_via {b : Nat} :
    ∀ {c : List (Nat × Nat × Int)} {a : Nat}, IsWalk a b c →
      ∃ vs, WalkVia a c vs b ∧ vs.length = c.length := by
  intro c
  induction c with
  | nil =>
    intro a hw
    exact ⟨[], hw, rfl⟩
  | cons e c ih =>
    intro a hw
    rcases hw with ⟨he, hw⟩ | ⟨he, hw⟩
    · obtain ⟨vs, hvia, hlen⟩ := ih hw
      exact ⟨e.2.1 :: vs, ⟨Or.inl ⟨he, rfl⟩, hvia⟩, by simp [hlen]⟩
    · obtain ⟨vs, hvia, hlen⟩ := ih hw
      exact ⟨e.1 :: vs, ⟨Or.inr ⟨rfl, he⟩, hvia⟩, by simp [hlen]⟩

theorem walkVia_endpoints {b : Nat} :
    ∀ {c : List (Nat × Nat × Int)} {a : Nat} {vs : List Nat},
      WalkVia a c vs b → ∀ e ∈ c, e.1 ∈ a :: vs ∧ e.2.1 ∈ a :: vs := by
  intro c
  induction c with
  | nil =>
    intro a vs _ e he
    exact absurd he (List.not_mem_nil e)
  | cons e0 c ih =>
    intro a vs hvia e he
    cases vs with
    | nil => exact absurd hvia (by intro h; exact h)
    | cons v vs =>
      obtain ⟨hstep, hrest⟩ := hvia
      rcases List.mem_cons.mp he with heq | hm
      · subst heq
        rcases hstep with ⟨h1, h2⟩ | ⟨h1, h2⟩
        · rw [h1, h2]
          exact ⟨List.mem_cons_self _ _,
            List.mem_cons_of_mem _ (List.mem_cons_self _ _)⟩
        · rw [h1, h2]
          exact ⟨List.mem_cons_of_mem _ (List.mem_cons_self _ _),
            List.mem_cons_self _ _⟩
      · obtain ⟨ha, hb2⟩ := ih hrest e hm
        constructor
        · rcases List.mem_cons.mp ha with hv | hv
          · rw [hv]
            exact List.mem_cons_of_mem _ (List.mem_cons_self _ _)
          · exact List.mem_cons_of_mem _ (List.mem_cons_of_mem _ hv)
        · rcases List.mem_cons.mp hb2 with hv | hv
          · rw [hv]
            exact List.mem_cons_of_mem _ (List.mem_cons_self _ _)
          · exact List.mem_cons_of_mem _ (List.mem_cons_of_mem _ hv)

theorem walkVia_last {b : Nat} :
    ∀ {c : List (Nat × Nat × Int)} {a : Nat} {vs : List Nat},
      WalkVia a c vs b → c ≠ [] → b ∈ vs := by
  intro c
  induction c with
  | nil =>
    intro a vs _ hne
    exact absurd rfl hne
  | cons e0 c ih =>
    intro a vs hvia _
    cases vs with
    | nil => exact absurd hvia (by intro h; exact h)
    | cons v vs =>
      obtain ⟨_, hrest⟩ := hvia
      cases c with
      | nil =>
        cases vs with
        | nil =>
          have hvb : v = b := hrest
          rw [hvb]
          exact List.mem_cons_self _ _
        | cons v2 vs2 => exact absurd hrest (by intro h; exact h)
      | cons e1 c1 =>
        exact List.mem_cons_of_mem _ (ih hrest (by simp))

/-! ### Facts from the final trace invariant (empty stack, everything visited) -/

theorem final_no_parent_self {es : List (Nat × Nat × Int)} {n : Nat}
    {visited : Nat → Bool} {p : Nat → Option Nat} {ord : Nat → Nat} {clock : Nat}
    (tinv : TraceInv es n visited [] p ord clock) (a : Nat) : ¬ p a = some a := by
  intro h
  have := (tinv.ppar a a h).2.2.1
  omega

theorem final_no_parent_both {es : List (Nat × Nat × Int)} {n : Nat}
    {visited : Nat → Bool} {p : Nat → Option Nat} {ord : Nat → Nat} {clock : Nat}
    (tinv : TraceInv es n visited [] p ord clock) (a b : Nat) :
    ¬ (p a = some b ∧ p b = some a) := by
  rintro ⟨h1, h2⟩
  have o1 := (tinv.ppar a b h1).2.2.1
  have o2 := (tinv.ppar b a h2).2.2.1
  omega

theorem final_no_selfloop {es : List (Nat × Nat × Int)} {n : Nat}
    {visited : Nat → Bool} {p : Nat → Option Nat} {ord : Nat → Nat} {clock : Nat}
    (tinv : TraceInv es n visited [] p ord clock)
    (hv : ∀ e ∈ es, visited e.1 = true) :
    ∀ e ∈ es, e.1 ≠ e.2.1 := by
  intro e he heq
  have hacct := tinv.acct e.1 e.1 (hv e he)
  rw [buildGraph_targetCount, if_pos rfl] at hacct
  have hmem : e ∈ es.filter (fun t => sameEnds t e.1 e.1) :=
    List.mem_filter.mpr ⟨he, sameEnds_iff.mpr (Or.inl ⟨rfl, heq.symm⟩)⟩
  have hpc : 1 ≤ pairCount es e.1 e.1 := List.length_pos_of_mem hmem
  rw [if_neg (final_no_parent_self tinv e.1)] at hacct
  simp only [List.count_nil] at hacct
  omega

theorem final_pairCount_le {es : List (Nat × Nat × Int)} {n : Nat}
    {visited : Nat → Bool} {p : Nat → Option Nat} {ord : Nat → Nat} {clock : Nat}
    {a b : Nat} (tinv : TraceInv es n visited [] p ord clock)
    (ha : visited a = true) (hab : a ≠ b) :
    pairCount es a b ≤ 1 ∧
    (1 ≤ pairCount es a b →
      (p a = some b ∧ ¬ p b = some a) ∨ (p b = some a ∧ ¬ p a = some b)) := by
  have hacct := tinv.acct a b ha
  rw [buildGraph_targetCount, if_neg hab] at hacct
  simp only [List.count_nil] at hacct
  have hnb := final_no_parent_both tinv a b
  by_cases h1 : p a = some b <;> by_cases h2 : p b = some a
  · exact absurd ⟨h1, h2⟩ hnb
  · rw [if_pos h1, if_neg h2] at hacct
    exact ⟨by omega, fun _ => Or.inl ⟨h1, h2⟩⟩
  · rw [if_neg h1, if_pos h2] at hacct
    exact ⟨by omega, fun _ => Or.inr ⟨h2, h1⟩⟩
  · rw [if_neg h1, if_neg h2] at hacct
    exact ⟨by omega, fun hge => absurd hacct (by omega)⟩

/-- From a final clean trace (empty stack), every sub-multiset `c` of the
edge list whose endpoints lie in `V` yields a duplicate-free list of
"children", one per edge occurrence: the endpoint whose recorded parent is
the other endpoint.  Each child lies in `V`, has a parent of strictly
smaller timestamp in `V`, and is certified by an occurrence of `c`. -/
theorem cycle_children {es : List (Nat × Nat × Int)} {n : Nat}
    {visited : Nat → Bool} {p : Nat → Option Nat} {ord : Nat → Nat} {clock : Nat}
    (tinv : TraceInv es n visited [] p ord clock)
    (hv : ∀ e ∈ es, visited e.1 = true ∧ visited e.2.1 = true) :
    ∀ (c : List (Nat × Nat × Int)), c.Subperm es →
      ∀ (V : List Nat), (∀ e ∈ c, e.1 ∈ V ∧ e.2.1 ∈ V) →
      ∃ ch : List Nat, ch.length = c.length ∧ ch.Nodup ∧
        (∀ x ∈ ch, x ∈ V ∧ ∃ y, p x = some y ∧ ord y < ord x ∧ y ∈ V) ∧
        (∀ x ∈ ch, ∃ e ∈ c, (x = e.1 ∧ p x = some e.2.1) ∨
          (x = e.2.1 ∧ p x = some e.1)) := by
  intro c
  induction c with
  | nil =>
    intro _ V _
    exact ⟨[], rfl, List.nodup_nil, fun x hx => absurd hx (List.not_mem_nil x),
      fun x hx => absurd hx (List.not_mem_nil x)⟩
  | cons e c ih =>
    intro hsub V hV
    have hsub' : c.Subperm es := (List.sublist_cons_self e c).subperm.trans hsub
    have he_es : e ∈ es := hsub.subset (List.mem_cons_self _ _)
    have hne : e.1 ≠ e.2.1 := final_no_selfloop tinv (fun t ht => (hv t ht).1) e he_es
    have hpc1 : 1 ≤ pairCount es e.1 e.2.1 :=
      List.length_pos_of_mem (List.mem_filter.mpr ⟨he_es,
        sameEnds_iff.mpr (Or.inl ⟨rfl, rfl⟩)⟩)
    have hor := (final_pairCount_le tinv (hv e he_es).1 hne).2 hpc1
    obtain ⟨ch, hlen, hnd, hfacts, hprov⟩ := ih hsub' V
      (fun t ht => hV t (List.mem_cons_of_mem _ ht))
    have hxnot : ∀ x o, ((x = e.1 ∧ o = e.2.1) ∨ (x = e.2.1 ∧ o = e.1)) →
        p x = some o → x ∉ ch := by
      rintro x o hcase hpx hx
      have hse : sameEnds e x o = true := by
        rcases hcase with ⟨h1, h2⟩ | ⟨h1, h2⟩
        · exact sameEnds_iff.mpr (Or.inl ⟨h1.symm, h2.symm⟩)
        · exact sameEnds_iff.mpr (Or.inr ⟨h2.symm, h1.symm⟩)
      have hxo : x ≠ o := by
        rcases hcase with ⟨h1, h2⟩ | ⟨h1, h2⟩
        · rw [h1, h2]; exact hne
        · rw [h1, h2]; exact hne.symm
      have hx_vis : visited x = true := by
        rcases hcase with ⟨h1, _⟩ | ⟨h1, _⟩
        · rw [h1]; exact (hv e he_es).1
        · rw [h1]; exact (hv e he_es).2
      obtain ⟨e2, he2c, hc2⟩ := hprov x hx
      have hse2 : sameEnds e2 x o = true := by
        rcases hc2 with ⟨h1, h2⟩ | ⟨h1, h2⟩
        · have ho : o = e2.2.1 := Option.some.inj (hpx.symm.trans h2)
          exact sameEnds_iff.mpr (Or.inl ⟨h1.symm, ho.symm⟩)
        · have ho : o = e2.1 := Option.some.inj (hpx.symm.trans h2)
          exact sameEnds_iff.mpr (Or.inr ⟨ho.symm, h1.symm⟩)
      have h2c : 2 ≤ List.countP (fun t => sameEnds t x o) (e :: c) := by
        have h1c : 1 ≤ List.countP (fun t => sameEnds t x o) c := by
          rw [List.countP_eq_length_filter]
          exact List.length_pos_of_mem (List.mem_filter.mpr ⟨he2c, hse2⟩)
        have hstep : List.countP (fun t => sameEnds t x o) (e :: c) =
            List.countP (fun t => sameEnds t x o) c + 1 := by
          rw [List.countP_cons]
          simp [hse]
        omega
      have hcle := hsub.countP_le (fun t => sameEnds t x o)
      have hple : pairCount es x o ≤ 1 := (final_pairCount_le tinv hx_vis hxo).1
      unfold pairCount at hple
      rw [← List.countP_eq_length_filter] at hple
      omega
    rcases hor with ⟨hpx, _⟩ | ⟨hpx, _⟩
    · refine ⟨e.1 :: ch, by simp [hlen], List.nodup_cons.mpr
        ⟨hxnot e.1 e.2.1 (Or.inl ⟨rfl, rfl⟩) hpx, hnd⟩, ?_, ?_⟩
      · intro x hx
        rcases List.mem_cons.mp hx with heq | hm
        · subst heq
          exact ⟨(hV e (List.mem_cons_self _ _)).1, e.2.1, hpx,
            (tinv.ppar _ _ hpx).2.2.1, (hV e (List.mem_cons_self _ _)).2⟩
        · exact hfacts x hm
      · intro x hx
        rcases List.mem_cons.mp hx with heq | hm
        · subst heq
          exact ⟨e, List.mem_cons_self _ _, Or.inl ⟨rfl, hpx⟩⟩
        · obtain ⟨e2, he2, hc2⟩ := hprov x hm
          exact ⟨e2, List.mem_cons_of_mem _ he2, hc2⟩
    · refine ⟨e.2.1 :: ch, by simp [hlen], List.nodup_cons.mpr
        ⟨hxnot e.2.1 e.1 (Or.inr ⟨rfl, rfl⟩) hpx, hnd⟩, ?_, ?_⟩
      · intro x hx
        rcases List.mem_cons.mp hx with heq | hm
        · subst heq
          exact ⟨(hV e (List.mem_cons_self _ _)).2, e.1, hpx,
            (tinv.ppar _ _ hpx).2.2.1, (hV e (List.mem_cons_self _ _)).1⟩
        · exact hfacts x hm
      · intro x hx
        rcases List.mem_cons.mp hx with heq | hm
        · subst heq
          exact ⟨e, List.mem_cons_self _ _, Or.inr ⟨rfl, hpx⟩⟩
        · obtain ⟨e2, he2, hc2⟩ := hprov x hm
          exact ⟨e2, List.mem_cons_of_mem _ he2, hc2⟩

/-- A successful resolution of the built graph forces the edge list to be
acyclic: each cycle occurrence orients toward a distinct child, the children
exhaust the cycle vertices, and the vertex of minimal timestamp would need a
still-smaller parent. -/
theorem success_acyclic {es : List (Nat × Nat × Int)} {n fuel : Nat}
    {value' : Nat → Int} {visited' : Nat → Bool}
    (hn : 0 < n) (hb : ∀ e ∈ es, e.1 < n ∧ e.2.1 < n)
    (hres : graph_resolve (buildGraph es) n fuel = some (some (value', visited'))) :
    AcyclicG es := by
  obtain ⟨p, ord, clock, tinv⟩ := graph_resolve_trace_success hn hb hres
  have hall : ∀ i, i < n → visited' i = true :=
    (graph_resolve_success hn (buildGraph_pairing es) (buildGraph_bounded hb)
      (buildGraph_dom hb) hres).1
  have hv : ∀ e ∈ es, visited' e.1 = true ∧ visited' e.2.1 = true := by
    intro e he
    exact ⟨hall _ (hb e he).1, hall _ (hb e he).2⟩
  rintro ⟨c, hcne, hsub, a, hwalk⟩
  obtain ⟨vs, hvia, hlen⟩ := isWalk_exists_via hwalk
  have havs : a ∈ vs := walkVia_last hvia hcne
  have hV : ∀ e ∈ c, e.1 ∈ vs ∧ e.2.1 ∈ vs := by
    intro e he
    have h2 := walkVia_endpoints hvia e he
    constructor
    · rcases List.mem_cons.mp h2.1 with h | h
      · rw [h]; exact havs
      · exact h
    · rcases List.mem_cons.mp h2.2 with h | h
      · rw [h]; exact havs
      · exact h
  obtain ⟨ch, hchlen, hchnd, hchf, _⟩ := cycle_children tinv hv c hsub vs hV
  have hsubF : ch.toFinset ⊆ vs.toFinset := by
    intro x hx
    exact List.mem_toFinset.mpr (hchf x (List.mem_toFinset.mp hx)).1
  have hcard : vs.toFinset.card ≤ ch.toFinset.card := by
    have h1 : ch.toFinset.card = ch.length := List.toFinset_card_of_nodup hchnd
    have h2 : vs.toFinset.card ≤ vs.length := List.toFinset_card_le vs
    omega
  have heqF : ch.toFinset = vs.toFinset := Finset.eq_of_subset_of_card_le hsubF hcard
  obtain ⟨m, hm, hmin⟩ := vs.toFinset.exists_min_image ord ⟨a, List.mem_toFinset.mpr havs⟩
  have hmch : m ∈ ch := List.mem_toFinset.mp (by rw [heqF]; exact hm)
  obtain ⟨_, y, _, hordy, hyvs⟩ := hchf m hmch
  have := hmin y (List.mem_toFinset.mpr hyvs)
  omega

/-- **C2.** For every graph built by biconnecting the labeled edges `es` over
`n` vertices (with the fuel the callers supply, any `fuel > n`),
`graph_resolve` succeeds if and only if the edge list is acyclic — self-loops
and parallel edges between the same vertex pair count as cycles — and on
success it produces a complete labeling: every vertex value lies in `[0, n)`,
and for each edge labeled `l` with endpoints `u`, `v` the sum
`(value u + value v) mod n` equals `l mod n` (equals `l` itself whenever
`0 ≤ l < n`, as for key indices). -/
theorem C2_resolve_iff_acyclic (es : List (Nat × Nat × Int)) (n fuel : Nat)
    (hn : 0 < n) (hb : ∀ e ∈ es, e.1 < n ∧ e.2.1 < n) (hf : n < fuel) :
    ((∃ value visited, graph_resolve (buildGraph es) n fuel =
        some (some (value, visited))) ↔ AcyclicG es) ∧
    (∀ value visited,
      graph_resolve (buildGraph es) n fuel = some (some (value, visited)) →
      (∀ i, i < n → 0 ≤ value i ∧ value i < (n : Int)) ∧
      (∀ e ∈ es, (value e.1 + value e.2.1) % (n : Int) = e.2.2 % (n : Int)) ∧
      (∀ e ∈ es, 0 ≤ e.2.2 → e.2.2 < (n : Int) →
        (value e.1 + value e.2.1) % (n : Int) = e.2.2)) := by
  constructor
  · constructor
    · rintro ⟨value, visited, hres⟩
      exact success_acyclic hn hb hres
    · intro hacl
      cases hr : graph_resolve (buildGraph es) n fuel with
      | none => exact absurd hr (graph_resolve_fuel hn (buildGraph_pairing es)
          (buildGraph_bounded hb) hf)
      | some r =>
        cases r with
        | none => exact absurd (graph_resolve_cycle_of_false hn hb hr) hacl
        | some vv => exact ⟨vv.1, vv.2, rfl⟩
  · intro value visited hres
    obtain ⟨hall, hrange, hlaw⟩ := graph_resolve_success hn (buildGraph_pairing es)
      (buildGraph_bounded hb) (buildGraph_dom hb) hres
    have hedge : ∀ e ∈ es, (value e.1 + value e.2.1) % (n : Int) = e.2.2 % (n : Int) := by
      rintro ⟨u, v, l⟩ he
      exact hlaw u v l ((buildGraph_mem es u v l).mpr (Or.inl he))
    refine ⟨fun i hi => hrange i (hall i hi), hedge, ?_⟩
    intro e he hl0 hln
    rw [hedge e he]
    exact Int.emod_eq_of_lt hl0 hln

/-- Witness for C2 at the single edge `(0, 1)` labeled `0` over two vertices:
the hypotheses hold concretely at `n = 2`, `fuel = 3`. -/
theorem C2_resolve_iff_acyclic_witness :
    ((∃ value visited,
        graph_resolve (buildGraph [((0 : Nat), (1 : Nat), (0 : Int))]) 2 3 =
          some (some (value, visited))) ↔
      AcyclicG [((0 : Nat), (1 : Nat), (0 : Int))]) ∧
    (∀ value visited,
      graph_resolve (buildGraph [((0 : Nat), (1 : Nat), (0 : Int))]) 2 3 =
        some (some (value, visited)) →
      (∀ i, i < 2 → 0 ≤ value i ∧ value i < ((2 : Nat) : Int)) ∧
      (∀ e ∈ [((0 : Nat), (1 : Nat), (0 : Int))],
        (value e.1 + value e.2.1) % ((2 : Nat) : Int) = e.2.2 % ((2 : Nat) : Int)) ∧
      (∀ e ∈ [((0 : Nat), (1 : Nat), (0 : Int))], 0 ≤ e.2.2 → e.2.2 < ((2 : Nat) : Int) →
        (value e.1 + value e.2.1) % ((2 : Nat) : Int) = e.2.2)) :=
  C2_resolve_iff_acyclic [((0 : Nat), (1 : Nat), (0 : Int))] 2 3 (by decide)
    (by decide) (by decide)

end HashC
